import Mathlib

/-!
# Threaded AVL tree (`avlt.h`)

Shallow embedding of the class `avlt<KeyT, ValueT>` with `KeyT = ValueT = int`.

The C++ nodes live on the free store and are linked by raw pointers, one of which
(`Right`) is either an owning child link or a non-owning thread.  The embedding keeps
that structure: a `Heap` is a list of cells, a pointer is `Option Nat` (`none` is
`nullptr`), `new` appends a cell, `delete` empties one, and dereferencing `nullptr`
or an empty cell makes the operation fail (`none`).  Recursion and loops of the source
are bounded by a fuel argument; the public operations start them with more fuel than
there are cells, and the theorems show that this bound is never hit.

`int` fields (`Height`, `Size`) are unbounded integers: no arithmetic in the source
can reach the 32-bit range before memory is exhausted.
-/

namespace AVLT

/-! ## The store -/

/-- The `struct NODE` of the source. -/
structure NODE where
  Key : Int
  Value : Int
  Left : Option Nat
  Right : Option Nat
  isThreaded : Bool
  Height : Int
deriving DecidableEq

/-- A `NODE*`: an address, or `none` for `nullptr`. -/
abbrev Ptr := Option Nat

/-- The free store: cell `a` holds a node, or `none` once deleted. -/
abbrev Heap := List (Option NODE)

/-- Reading through a pointer, `*p`; fails on `nullptr` and on a deleted cell. -/
def deref (h : Heap) : Ptr → Option NODE
  | none => none
  | some a => h.getD a none

/-- An assignment to fields of `*p`, such as `p->Left = x`. -/
def store (h : Heap) (p : Ptr) (f : NODE → NODE) : Option Heap :=
  match p with
  | none => none
  | some a =>
    match h.getD a none with
    | none => none
    | some n => some (h.set a (some (f n)))

/-- The allocation `new NODE()` followed by the initialisation of all its fields. -/
def alloc (h : Heap) (n : NODE) : Heap × Ptr := (h ++ [some n], some h.length)

/-- The statement `delete p`. -/
def dealloc (h : Heap) (p : Ptr) : Option Heap :=
  match p with
  | none => some h
  | some a =>
    match h.getD a none with
    | none => none
    | some _ => some (h.set a none)

/-! ## Private helpers of the class -/

/-- Source: `_max`. -/
def _max (a b : Int) : Int := if a > b then a else b

/-- Source: `_getActualLeft`, on the node read through `cur`. -/
def _getActualLeft (cur : NODE) : Ptr := cur.Left

/-- Source: `_getActualRight`, on the node read through `cur`. -/
def _getActualRight (cur : NODE) : Ptr := if cur.isThreaded then none else cur.Right

/-- Source: `_getHeight`. -/
def _getHeight (h : Heap) : Ptr → Option Int
  | none => some (-1)
  | some a => (deref h (some a)).map NODE.Height

/-- Source: `_search`. -/
def _search : Nat → Heap → Ptr → Int → Option Ptr
  | 0, _, _, _ => none
  | _ + 1, _, none, _ => some none
  | fuel + 1, h, some a, key => do
    let cur ← deref h (some a)
    if cur.Key = key then some (some a)
    else if cur.Key < key then _search fuel h (_getActualRight cur) key
    else _search fuel h (_getActualLeft cur) key

/-- Source: `_free`. -/
def _free : Nat → Heap → Ptr → Option Heap
  | 0, _, _ => none
  | _ + 1, h, none => some h
  | fuel + 1, h, some a => do
    let cur ← deref h (some a)
    let h ← _free fuel h (_getActualRight cur)
    let cur ← deref h (some a)
    let h ← _free fuel h (_getActualLeft cur)
    dealloc h (some a)

/-- Source: `_copy`; the third component is the out-parameter `threadNode`. -/
def _copy : Nat → Heap → Ptr → Option (Heap × Ptr × Ptr)
  | 0, _, _ => none
  | _ + 1, h, none => some (h, none, none)
  | fuel + 1, h, some a => do
    let cur ← deref h (some a)
    let (h, leftChild, threadFromLeftNode) ← _copy fuel h (_getActualLeft cur)
    let cur ← deref h (some a)
    let (h, rightChild, threadNode) ← _copy fuel h (_getActualRight cur)
    let cur ← deref h (some a)
    let (h, node) := alloc h
      { Key := cur.Key, Value := cur.Value, Height := cur.Height,
        isThreaded := cur.isThreaded, Left := leftChild, Right := rightChild }
    let h ← if threadFromLeftNode ≠ none
      then store h threadFromLeftNode (fun n => { n with Right := node })
      else some h
    let n ← deref h node
    let threadNode := if n.isThreaded then node else threadNode
    some (h, node, threadNode)

/-- The statement `p->Height = 1 + _max(_getHeight(_getActualLeft(p)),
_getHeight(_getActualRight(p)))` of the rotations and of `_insert`. -/
def updateHeight (h : Heap) (p : Ptr) : Option Heap := do
  let n ← deref h p
  let hl ← _getHeight h (_getActualLeft n)
  let n ← deref h p
  let hr ← _getHeight h (_getActualRight n)
  store h p (fun n => { n with Height := 1 + _max hl hr })

/-- Source: `_rightRotate`. -/
def _rightRotate (h : Heap) (node : Ptr) : Option (Heap × Ptr) := do
  let n ← deref h node
  let L := _getActualLeft n
  let l ← deref h L
  let B := _getActualRight l
  let h ← store h L (fun n => { n with isThreaded := false })
  let h ← store h L (fun n => { n with Right := node })
  let h ← store h node (fun n => { n with Left := B })
  let h ← updateHeight h node
  let h ← updateHeight h L
  some (h, L)

/-- Source: `_leftRotate`. -/
def _leftRotate (h : Heap) (node : Ptr) : Option (Heap × Ptr) := do
  let n ← deref h node
  let R := _getActualRight n
  let r ← deref h R
  let B := _getActualLeft r
  let h ← store h R (fun n => { n with Left := node })
  let h ← store h node (fun n => { n with Right := B })
  let h ← if B = none then do
      let h ← store h node (fun n => { n with Right := R })
      store h node (fun n => { n with isThreaded := true })
    else some h
  let h ← updateHeight h node
  let h ← updateHeight h R
  some (h, R)

/-- The height difference and rotation cases at the end of `_insert`. -/
def rebalance (h : Heap) (node : Ptr) (key : Int) : Option (Heap × Ptr) := do
  let n ← deref h node
  let hl ← _getHeight h (_getActualLeft n)
  let n ← deref h node
  let hr ← _getHeight h (_getActualRight n)
  let heightDiff := hl - hr
  let leftKey : Option Int := do
    let n ← deref h node
    let l ← deref h n.Left
    some l.Key
  let rightKey : Option Int := do
    let n ← deref h node
    let r ← deref h n.Right
    some r.Key
  if heightDiff > 1 then do
    let lk ← leftKey
    if key < lk then _rightRotate h node
    else if key > lk then do
      let n ← deref h node
      let (h, p) ← _leftRotate h n.Left
      let h ← store h node (fun n => { n with Left := p })
      _rightRotate h node
    else some (h, node)
  else if heightDiff < -1 then do
    let rk ← rightKey
    if key < rk then do
      let n ← deref h node
      let (h, p) ← _rightRotate h n.Right
      let h ← store h node (fun n => { n with Right := p })
      _leftRotate h node
    else if key > rk then _leftRotate h node
    else some (h, node)
  else some (h, node)

/-- Source: `_insert`; the member `Size` is threaded through as the `Int`. -/
def _insert : Nat → Heap → Int → Ptr → Int → Int → Option (Heap × Int × Ptr)
  | 0, _, _, _, _, _ => none
  | _ + 1, h, size, none, key, value =>
    let (h, n) := alloc h
      { Key := key, Value := value, Left := none, Right := none,
        isThreaded := true, Height := 0 }
    some (h, size + 1, n)
  | fuel + 1, h, size, some a, key, value => do
    let node : Ptr := some a
    let n ← deref h node
    if key < n.Key then do
      let (h, size, insertNode) ← _insert fuel h size (_getActualLeft n) key value
      let i ← deref h insertNode
      let h ← if i.isThreaded
        then store h insertNode (fun n => { n with Right := node })
        else some h
      let h ← store h node (fun n => { n with Left := insertNode })
      let h ← updateHeight h node
      let (h, p) ← rebalance h node key
      some (h, size, p)
    else if key > n.Key then do
      let (h, size, insertNode) ← _insert fuel h size (_getActualRight n) key value
      let n ← deref h node
      let h ← if n.isThreaded then do
          let h ← store h insertNode (fun i => { i with Right := n.Right })
          let h ← store h node (fun n => { n with isThreaded := false })
          store h insertNode (fun i => { i with isThreaded := true })
        else some h
      let h ← store h node (fun n => { n with Right := insertNode })
      let h ← updateHeight h node
      let (h, p) ← rebalance h node key
      some (h, size, p)
    else some (h, size, node)

/-- The loop `while (p->Left != nullptr) p = p->Left;` of `begin`, `next` and
`range_search`. -/
def leftmost : Nat → Heap → Ptr → Option Ptr
  | 0, _, _ => none
  | fuel + 1, h, p => do
    let n ← deref h p
    match n.Left with
    | none => some p
    | some l => leftmost fuel h (some l)

/-! ## The class and its public operations -/

/-- The data members of `avlt`. -/
structure avlt where
  Root : Ptr
  Size : Int
  Next : Ptr
deriving DecidableEq

/-- Fuel given to every recursion and loop: one more than the number of cells. -/
def fuelOf (h : Heap) : Nat := h.length + 1

/-- Source: the default constructor. -/
def empty : avlt := { Root := none, Size := 0, Next := none }

/-- Source: the copy constructor. -/
def copyConstruct (h : Heap) (other : avlt) : Option (Heap × avlt) := do
  let (h, root, _) ← _copy (fuelOf h) h other.Root
  some (h, { Size := other.Size, Next := none, Root := root })

/-- Source: `clear`. -/
def clear (h : Heap) (t : avlt) : Option (Heap × avlt) := do
  let h ← _free (fuelOf h) h t.Root
  some (h, { Root := none, Size := 0, Next := none })

/-- Source: `operator=`. -/
def assign (h : Heap) (t other : avlt) : Option (Heap × avlt) := do
  let (h, _) ← clear h t
  let (h, root, _) ← _copy (fuelOf h) h other.Root
  some (h, { Root := root, Size := other.Size, Next := none })

/-- Source: `size`. -/
def size (t : avlt) : Int := t.Size

/-- Source: `height`. -/
def height (h : Heap) (t : avlt) : Option Int :=
  match t.Root with
  | none => some (-1)
  | some a => (deref h (some a)).map NODE.Height

/-- Source: `search`; `value` is the reference parameter, returned next to the result. -/
def search (h : Heap) (t : avlt) (key : Int) (value : Int) : Option (Bool × Int) := do
  let node ← _search (fuelOf h) h t.Root key
  match node with
  | none => some (false, value)
  | some a => do
    let n ← deref h (some a)
    some (true, n.Value)

/-- Phase 1 of `range_search`: the descent; returns `cur`, `prev` and `flag`. -/
def range_search_descend : Nat → Heap → Int → Ptr → Ptr → Option (Ptr × Ptr × Bool)
  | 0, _, _, _, _ => none
  | _ + 1, _, _, none, prev => some (none, prev, false)
  | fuel + 1, h, lower, some a, prev => do
    let cur ← deref h (some a)
    if lower = cur.Key then some (some a, prev, true)
    else if lower < cur.Key then
      range_search_descend fuel h lower (_getActualLeft cur) (some a)
    else
      range_search_descend fuel h lower (_getActualRight cur) (some a)

/-- Phase 2 of `range_search`: the forward walk (its writes to `flag` are never read). -/
def range_search_walk : Nat → Heap → Int → Int → Ptr → List Int → Option (List Int)
  | 0, _, _, _, _, _ => none
  | _ + 1, _, _, _, none, keys => some keys
  | fuel + 1, h, lower, upper, some a, keys => do
    let cur ← deref h (some a)
    if cur.Key ≤ upper then do
      let keys := if cur.Key ≥ lower ∧ cur.Key ≤ upper then keys ++ [cur.Key] else keys
      let cur ← deref h (some a)
      if cur.isThreaded then
        range_search_walk fuel h lower upper cur.Right keys
      else
        match cur.Right with
        | none => some keys
        | some r => do
          let p ← leftmost (fuelOf h) h (some r)
          range_search_walk fuel h lower upper p keys
    else some keys

/-- Source: `range_search`. -/
def range_search (h : Heap) (t : avlt) (lower upper : Int) : Option (List Int) := do
  let (cur, prev, flag) ← range_search_descend (fuelOf h) h lower t.Root none
  let cur := if !flag then prev else cur
  range_search_walk (fuelOf h) h lower upper cur []

/-- Source: `insert`. -/
def insert (h : Heap) (t : avlt) (key value : Int) : Option (Heap × avlt) := do
  let (h, size, root) ← _insert (fuelOf h) h t.Size t.Root key value
  some (h, { t with Root := root, Size := size })

/-- Source: `operator[]`, with `ValueT{} = 0`. -/
def op_index (h : Heap) (t : avlt) (key : Int) : Option Int := do
  let node ← _search (fuelOf h) h t.Root key
  match node with
  | none => some 0
  | some a => (deref h (some a)).map NODE.Value

/-- Source: `operator()`, with `KeyT{} = 0`. -/
def op_call (h : Heap) (t : avlt) (key : Int) : Option Int := do
  let node ← _search (fuelOf h) h t.Root key
  match node with
  | none => some 0
  | some a => do
    let n ← deref h (some a)
    match n.Right with
    | none => some 0
    | some r => (deref h (some r)).map NODE.Key

/-- Source: `operator%`. -/
def op_mod (h : Heap) (t : avlt) (key : Int) : Option Int := do
  let node ← _search (fuelOf h) h t.Root key
  match node with
  | none => some (-1)
  | some a => (deref h (some a)).map NODE.Height

/-- Source: `begin`. -/
def begin (h : Heap) (t : avlt) : Option avlt :=
  match t.Root with
  | none => some t
  | some r => do
    let p ← leftmost (fuelOf h) h (some r)
    some { t with Next := p }

/-- Source: `next`; `key` is the reference parameter, returned next to the result. -/
def next (h : Heap) (t : avlt) (key : Int) : Option (avlt × Bool × Int) :=
  match t.Next with
  | none => some (t, false, key)
  | some a => do
    let n ← deref h (some a)
    let key := n.Key
    let n ← deref h (some a)
    if n.isThreaded then
      some ({ t with Next := n.Right }, true, key)
    else do
      let p ← leftmost (fuelOf h) h n.Right
      some ({ t with Next := p }, true, key)

/-- One line of `dump`: the two banner lines and the closing line, the size and
height lines, `(key,value,height)` and `(key,value,height,THREAD)`. -/
inductive Line where
  | stars : Line
  | title : Line
  | size (n : Int) : Line
  | height (n : Int) : Line
  | plain (key value height : Int) : Line
  | threaded (key value height thread : Int) : Line
deriving DecidableEq

/-- Source: `_dump`; the output stream is the list of lines written so far. -/
def _dump : Nat → Heap → List Line → Ptr → Option (List Line)
  | 0, _, _, _ => none
  | _ + 1, _, output, none => some output
  | fuel + 1, h, output, some a => do
    let cur ← deref h (some a)
    let output ← _dump fuel h output (_getActualLeft cur)
    let cur ← deref h (some a)
    let output ← if cur.isThreaded ∧ cur.Right ≠ none then do
        let r ← deref h cur.Right
        some (output ++ [Line.threaded cur.Key cur.Value cur.Height r.Key])
      else some (output ++ [Line.plain cur.Key cur.Value cur.Height])
    let cur ← deref h (some a)
    _dump fuel h output (_getActualRight cur)

/-- Source: `dump`. -/
def dump (h : Heap) (t : avlt) (output : List Line) : Option (List Line) := do
  let output := output ++ [Line.stars, Line.title]
  let output := output ++ [Line.size (size t)]
  let ht ← height h t
  let output := output ++ [Line.height ht]
  let output ← _dump (fuelOf h) h output t.Root
  some (output ++ [Line.stars])

/-! ## Sequences of calls -/

/-- A call of one of the mutating public operations. -/
inductive Op where
  | insert (key value : Int) : Op
  | begin : Op
  | next : Op
  | clear : Op
deriving DecidableEq

/-- One call on the tree `s.2` living in the store `s.1`. -/
def step (s : Heap × avlt) : Op → Option (Heap × avlt)
  | .insert key value => insert s.1 s.2 key value
  | .begin => (begin s.1 s.2).map fun t => (s.1, t)
  | .next => (next s.1 s.2 0).map fun r => (s.1, r.1)
  | .clear => clear s.1 s.2

/-- A sequence of calls, from the state `s`. -/
def runFrom (s : Heap × avlt) : List Op → Option (Heap × avlt)
  | [] => some s
  | op :: ops => (step s op).bind fun s => runFrom s ops

/-- A sequence of calls on a tree constructed empty in the empty store. -/
def run (ops : List Op) : Option (Heap × avlt) := runFrom ([], empty) ops

/-- A sequence of `insert` calls on a tree constructed empty in the store `h`. -/
def buildIn (h : Heap) (kvs : List (Int × Int)) : Option (Heap × avlt) :=
  runFrom (h, empty) (kvs.map fun kv => Op.insert kv.1 kv.2)

/-- A sequence of `insert` calls on a tree constructed empty in the empty store. -/
def build (kvs : List (Int × Int)) : Option (Heap × avlt) := buildIn [] kvs

/-- The loop `while (tree.next(key)) keys.push_back(key);` of the usage example of
`next`, with at most `fuel` iterations. -/
def drain : Nat → Heap → avlt → List Int → Option (List Int × avlt)
  | 0, _, _, _ => none
  | fuel + 1, h, t, keys => do
    let (t, more, key) ← next h t 0
    if more then drain fuel h t (keys ++ [key]) else some (keys, t)

/-! ## Observers of the store

These are not in the source: they walk the owning links (`Left`, and `Right` where
`isThreaded` is false) to name what the properties are about. -/

/-- The nodes owned by `p`, in inorder. -/
def inorder : Nat → Heap → Ptr → Option (List Nat)
  | 0, _, _ => none
  | _ + 1, _, none => some []
  | fuel + 1, h, some a => do
    let n ← deref h (some a)
    let l ← inorder fuel h (_getActualLeft n)
    let r ← inorder fuel h (_getActualRight n)
    some (l ++ a :: r)

/-- The height of the subtree owned by `p`: `-1` for `nullptr`, else one more than
the height of the higher child. -/
def heightOf : Nat → Heap → Ptr → Option Int
  | 0, _, _ => none
  | _ + 1, _, none => some (-1)
  | fuel + 1, h, some a => do
    let n ← deref h (some a)
    let l ← heightOf fuel h (_getActualLeft n)
    let r ← heightOf fuel h (_getActualRight n)
    some (1 + max l r)

/-- The key stored at an address (`0` if the cell is empty). -/
def keyAt (h : Heap) (a : Nat) : Int :=
  match deref h (some a) with
  | some n => n.Key
  | none => 0

/-! ## The owned graph as a tree

A `Tree` is the shape the owning links (`Left`, and `Right` where `isThreaded` is
false) draw in the store, with the address of every node.  `Rep h t s` says that the
store `h` holds `t`: every cell has the fields of its node, links to the roots of its
subtrees, and a node without right subtree is threaded, its `Right` being the node
that follows in inorder (`s` for the last node of `t`). -/

/-- Binary trees of nodes `(address, key, value, cached height)`. -/
inductive Tree where
  | nil : Tree
  | node (a : Nat) (l : Tree) (k v ht : Int) (r : Tree) : Tree
deriving DecidableEq

namespace Tree

/-- Pointer to the root node. -/
def root : Tree → Ptr
  | nil => none
  | node a _ _ _ _ _ => some a

/-- Whether the tree has no node. -/
def isNil : Tree → Bool
  | nil => true
  | node _ _ _ _ _ _ => false

/-- The cached height, as `_getHeight` reads it. -/
def H : Tree → Int
  | nil => -1
  | node _ _ _ _ ht _ => ht

/-- The height of the tree: `-1` when empty, else one more than the higher subtree. -/
def realH : Tree → Int
  | nil => -1
  | node _ l _ _ _ r => 1 + max (realH l) (realH r)

/-- Number of nodes on the longest path from the root. -/
def depth : Tree → Nat
  | nil => 0
  | node _ l _ _ _ r => 1 + max (depth l) (depth r)

/-- Addresses in inorder. -/
def addrs : Tree → List Nat
  | nil => []
  | node a l _ _ _ r => addrs l ++ a :: addrs r

/-- Keys in inorder. -/
def keys : Tree → List Int
  | nil => []
  | node _ l k _ _ r => keys l ++ k :: keys r

/-- Key and value pairs in inorder. -/
def bindings : Tree → List (Int × Int)
  | nil => []
  | node _ l k v _ r => bindings l ++ (k, v) :: bindings r

/-- What the `Right` field of a node with right subtree `r` holds. -/
def rightSlot (r : Tree) (s : Ptr) : Ptr :=
  match r with
  | nil => s
  | node a _ _ _ _ _ => some a

/-- Binary search tree order: the inorder keys ascend strictly. -/
def BST (t : Tree) : Prop := (keys t).Pairwise (· < ·)

/-- Every cached height is one more than the higher cached height below it. -/
def HOk : Tree → Prop
  | nil => True
  | node _ l _ _ ht r => ht = 1 + max (H l) (H r) ∧ HOk l ∧ HOk r

/-- The AVL condition on cached heights. -/
def Bal : Tree → Prop
  | nil => True
  | node _ l _ _ _ r => (H l - H r ≤ 1 ∧ H r - H l ≤ 1) ∧ Bal l ∧ Bal r

/-- A node with recomputed height, as after `updateHeight`. -/
def mk (a : Nat) (l : Tree) (k v : Int) (r : Tree) : Tree :=
  node a l k v (1 + _max (H l) (H r)) r

/-- Tree-level image of `_rightRotate`. -/
def rotR : Tree → Tree
  | node a (node b ll lk lv _ lr) k v _ r => mk b ll lk lv (mk a lr k v r)
  | t => t

/-- Tree-level image of `_leftRotate`. -/
def rotL : Tree → Tree
  | node a l k v _ (node b rl rk rv _ rr) => mk b (mk a l k v rl) rk rv rr
  | t => t

/-- Tree-level image of `rebalance`. -/
def rebal (key : Int) : Tree → Tree
  | nil => nil
  | node a l k v ht r =>
    if H l - H r > 1 then
      match l with
      | nil => node a l k v ht r
      | node _ _ lk _ _ _ =>
        if key < lk then rotR (node a l k v ht r)
        else if key > lk then rotR (node a (rotL l) k v ht r)
        else node a l k v ht r
    else if H l - H r < -1 then
      match r with
      | nil => node a l k v ht r
      | node _ _ rk _ _ _ =>
        if key < rk then rotL (node a l k v ht (rotR r))
        else if key > rk then rotL (node a l k v ht r)
        else node a l k v ht r
    else node a l k v ht r

/-- Tree-level image of `_insert`; `f` is the address the new node gets. -/
def ins (f : Nat) (key value : Int) : Tree → Tree
  | nil => node f nil key value 0 nil
  | node a l k v ht r =>
    if key < k then rebal key (mk a (ins f key value l) k v r)
    else if key > k then rebal key (mk a l k v (ins f key value r))
    else node a l k v ht r

/-- The shapes the rotations of `rebalance` rely on. -/
def RotOk (key : Int) : Tree → Prop
  | nil => True
  | node _ l _ _ _ r =>
    (H l - H r > 1 → ∃ b ll lk lv lh lr, l = node b ll lk lv lh lr ∧
      (¬ key < lk → key > lk → lr ≠ nil)) ∧
    (H l - H r < -1 → ∃ b rl rk rv rh rr, r = node b rl rk rv rh rr ∧
      (key < rk → rl ≠ nil))

/-- The root records that `key` went into a subtree that is now the higher one. -/
def Grow (key : Int) : Tree → Prop
  | nil => False
  | node _ l k _ _ r => key ≠ k ∧ (key < k → H r < H l) ∧ (k < key → H l < H r)

end Tree

/-- The store `h` holds the tree `t`, whose last node is threaded to `s`. -/
def Rep (h : Heap) : Tree → Ptr → Prop
  | .nil, _ => True
  | .node a l k v ht r, s =>
    deref h (some a) = some
      { Key := k, Value := v, Left := l.root, Right := r.rightSlot s,
        isThreaded := r.isNil, Height := ht }
    ∧ Rep h l (some a) ∧ Rep h r s

/-! ## Vocabulary of the proofs -/

/-- The head of a list of addresses, or `s` when it is empty. -/
def headOr (l : List Nat) (s : Ptr) : Ptr :=
  match l with
  | [] => s
  | b :: _ => some b

/-- The address after the first occurrence of `a` in `l`, or `s` if `l` ends there. -/
def nextIn : List Nat → Ptr → Nat → Ptr
  | [], s, _ => s
  | b :: l, s, a => if b = a then headOr l s else nextIn l s a

/-- The state `(h, t)` holds a well-formed threaded AVL tree of shape `tr`. -/
structure Good (h : Heap) (t : avlt) (tr : Tree) : Prop where
  rep : Rep h tr none
  root : tr.root = t.Root
  bst : tr.BST
  hok : tr.HOk
  bal : tr.Bal
  size : t.Size = tr.keys.length
  next : t.Next = none ∨ ∃ a ∈ tr.addrs, t.Next = some a

/-- What a call does to the bindings held, listed in the order of their insertion. -/
def applyOp (m : List (Int × Int)) : Op → List (Int × Int)
  | .insert key value => if key ∈ m.map Prod.fst then m else m ++ [(key, value)]
  | .clear => []
  | _ => m

/-- The bindings held after a sequence of calls, starting from the bindings `m`. -/
def contentsFrom (m : List (Int × Int)) (ops : List Op) : List (Int × Int) :=
  ops.foldl applyOp m

/-- The tree `tr` holds exactly the bindings `m`. -/
def Agrees (tr : Tree) (m : List (Int × Int)) : Prop :=
  ∀ kv : Int × Int, kv ∈ tr.bindings ↔ kv ∈ m

/-- The footprint of the tree stays within what it was and what was allocated since. -/
def Within (h0 : Heap) (tr0 : Tree) (h : Heap) (tr : Tree) : Prop :=
  h0.length ≤ h.length
  ∧ (∀ x ∈ tr.addrs, x ∈ tr0.addrs ∨ h0.length ≤ x)
  ∧ (∀ c, c < h0.length → c ∉ tr0.addrs → deref h (some c) = deref h0 (some c))

/-- The rightmost node of a tree. -/
def Tree.last : Tree → Ptr
  | .nil => none
  | .node a _ _ _ _ .nil => some a
  | .node _ _ _ _ _ r => Tree.last r

/-- Tree-level image of `_copy`: the same tree on the addresses allocated from `base`
on, in the order `_copy` allocates them; the second component is the next free address. -/
def Tree.copyTree (base : Nat) : Tree → Tree × Nat
  | .nil => (.nil, base)
  | .node _ l k v ht r =>
    let l' := Tree.copyTree base l
    let r' := Tree.copyTree l'.2 r
    (.node r'.2 l'.1 k v ht r'.1, r'.2 + 1)

/-- The same shape, keys, values and heights, whatever the addresses. -/
def Tree.Iso : Tree → Tree → Prop
  | .nil, .nil => True
  | .node _ l k v ht r, .node _ l' k' v' ht' r' =>
    k = k' ∧ v = v' ∧ ht = ht' ∧ Tree.Iso l l' ∧ Tree.Iso r r'
  | _, _ => False

/-- The node records `Rep` asks for, in inorder. -/
def Tree.fields : Tree → Ptr → List NODE
  | .nil, _ => []
  | .node a l k v ht r, s =>
    Tree.fields l (some a) ++
      { Key := k, Value := v, Left := l.root, Right := r.rightSlot s, isThreaded := r.isNil,
        Height := ht } :: Tree.fields r s

/-- The node lines `_dump` writes for a tree whose last node is threaded to a node of
key `sk`. -/
def Tree.lines : Tree → Option Int → List Line
  | .nil, _ => []
  | .node _ l k v ht r, sk =>
    Tree.lines l (some k) ++
      (match r, sk with
       | .nil, some x => Line.threaded k v ht x
       | _, _ => Line.plain k v ht) :: Tree.lines r sk

/-- The node of the copy that stands for a node of the source: the one at the same
place in inorder (`nodes` and `nodes'` list the two trees in inorder). -/
def corr (nodes nodes' : List Nat) : Ptr → Ptr
  | none => none
  | some a => (List.zip nodes nodes').lookup a

/-- The tree `cpy` is node for node the tree `src`: as many nodes, on other cells, and
node by node in inorder the same key, value, height and thread flag, with `Left` and
`Right` leading to the nodes that stand for those of the source (null for null). -/
def Identical (h : Heap) (src cpy : avlt) : Prop :=
  ∃ nodes nodes', inorder (fuelOf h) h src.Root = some nodes
    ∧ inorder (fuelOf h) h cpy.Root = some nodes'
    ∧ nodes.length = nodes'.length
    ∧ (∀ a ∈ nodes', a ∉ nodes)
    ∧ cpy.Root = corr nodes nodes' src.Root
    ∧ ∀ p ∈ List.zip nodes nodes', ∃ n n', deref h (some p.1) = some n
        ∧ deref h (some p.2) = some n'
        ∧ n'.Key = n.Key ∧ n'.Value = n.Value ∧ n'.Height = n.Height
        ∧ n'.isThreaded = n.isThreaded
        ∧ n'.Left = corr nodes nodes' n.Left
        ∧ n'.Right = corr nodes nodes' n.Right

/-- The outcome of copying `src` (in the store `h`) to `cpy` (in the store `h'`): the
nodes of the source are as they were, the copy is node for node the source, and
`size()`, `height()` and `dump` give the same on both. -/
def CopyOk (h h' : Heap) (src cpy : avlt) : Prop :=
  (∃ nodes, inorder (fuelOf h) h src.Root = some nodes
    ∧ ∀ a ∈ nodes, deref h' (some a) = deref h (some a))
  ∧ Identical h' src cpy
  ∧ size cpy = size src
  ∧ (∃ ht, height h' cpy = some ht ∧ height h' src = some ht)
  ∧ ∀ out, ∃ lines, dump h' cpy out = some lines ∧ dump h' src out = some lines

/-! ## Observers for the scenarios and for `dump` -/

/-- A node as it looks from outside the store: its fields, with `Left` and `Right`
replaced by the key of the node they lead to. -/
structure View where
  Key : Int
  Value : Int
  Left : Option Int
  Right : Option Int
  isThreaded : Bool
  Height : Int
deriving DecidableEq

/-- The key of the node a link leads to; nothing for the null link. -/
def keyOf (h : Heap) : Ptr → Option (Option Int)
  | none => some none
  | some a => (deref h (some a)).map fun n => some n.Key

/-- The view of the node at `a`. -/
def viewAt (h : Heap) (a : Nat) : Option View := do
  let n ← deref h (some a)
  let l ← keyOf h n.Left
  let r ← keyOf h n.Right
  some { Key := n.Key, Value := n.Value, Left := l, Right := r,
         isThreaded := n.isThreaded, Height := n.Height }

/-- The views of a list of nodes. -/
def views (h : Heap) : List Nat → Option (List View)
  | [] => some []
  | a :: l => do
    let v ← viewAt h a
    let vs ← views h l
    some (v :: vs)

/-- A tree as it looks from outside the store: the key of its root, and the views of
its nodes in inorder. -/
def viewTree (h : Heap) (t : avlt) : Option (Option Int × List View) := do
  let root ← keyOf h t.Root
  let nodes ← inorder (fuelOf h) h t.Root
  let vs ← views h nodes
  some (root, vs)

/-- The line `_dump` writes for the node at `a`. -/
def lineAt (h : Heap) (a : Nat) : Line :=
  match deref h (some a) with
  | none => Line.stars
  | some cur =>
    if cur.isThreaded ∧ cur.Right ≠ none then
      Line.threaded cur.Key cur.Value cur.Height (keyAt h (cur.Right.getD 0))
    else Line.plain cur.Key cur.Value cur.Height

/-- The key a node line of `dump` starts with. -/
def lineKey : Line → Option Int
  | .plain key _ _ => some key
  | .threaded key _ _ _ => some key
  | _ => none

/-- The outcome of a rotation of the nodes `a` and `b` of the subtree `t`, held in the
store `h` with its last node threaded to `s`: the store `h'` holds from `p` a search
tree of the same nodes and bindings in the same inorder sequence, in which the `Right`
of every threaded node leads to the next node in inorder (`s` after the last), and
every cell other than `a` and `b` is as it was. -/
def Rotated (h : Heap) (t : Tree) (s : Ptr) (h' : Heap) (p : Ptr) (a b : Nat) : Prop :=
  ∃ t' : Tree, t'.root = p ∧ Rep h' t' s ∧ t'.BST ∧ t'.addrs = t.addrs
    ∧ t'.bindings = t.bindings
    ∧ (∀ c ∈ t.addrs, ∃ n, deref h' (some c) = some n
        ∧ (n.isThreaded = true → n.Right = nextIn t.addrs s c))
    ∧ (∀ c, c ≠ a → c ≠ b → deref h' (some c) = deref h (some c))

open Tree

/-! # Proofs -/

/-! ## Store lemmas -/

theorem _max_eq (a b : Int) : _max a b = max a b := by
  unfold _max; split <;> omega

theorem deref_some_lt {h : Heap} {a : Nat} {n : NODE} (e : deref h (some a) = some n) :
    a < h.length := by
  by_contra hc
  simp [deref, List.getD_eq_getElem?_getD, List.getElem?_eq_none (Nat.le_of_not_lt hc)] at e

theorem deref_set (h : Heap) (a b : Nat) (x : Option NODE) :
    deref (h.set a x) (some b) = if a = b ∧ a < h.length then x else deref h (some b) := by
  simp only [deref, List.getD_eq_getElem?_getD, List.getElem?_set]
  by_cases hab : a = b
  · subst hab
    by_cases hl : a < h.length
    · simp [hl]
    · simp [hl, List.getElem?_eq_none (Nat.le_of_not_lt hl)]
  · simp [hab]

theorem deref_set_eq {h : Heap} {a : Nat} (x : Option NODE) (hl : a < h.length) :
    deref (h.set a x) (some a) = x := by
  simp [deref_set, hl]

theorem deref_set_ne {h : Heap} {a b : Nat} (x : Option NODE) (hne : a ≠ b) :
    deref (h.set a x) (some b) = deref h (some b) := by
  simp [deref_set, hne]

theorem deref_append_lt (h l : Heap) {b : Nat} (hb : b < h.length) :
    deref (h ++ l) (some b) = deref h (some b) := by
  simp [deref, List.getD_eq_getElem?_getD, List.getElem?_append_left hb]

theorem deref_append_new (h : Heap) (x : Option NODE) :
    deref (h ++ [x]) (some h.length) = x := by
  simp [deref, List.getD_eq_getElem?_getD]

theorem set_self {h : Heap} {a : Nat} {n : NODE} (e : deref h (some a) = some n) :
    h.set a (some n) = h := by
  have hl := deref_some_lt e
  apply List.ext_getElem?
  intro i
  rw [List.getElem?_set]
  by_cases hi : a = i
  · subst hi
    simp only [deref, List.getD_eq_getElem?_getD, List.getElem?_eq_getElem hl] at e
    simp only [hl, if_true]
    rw [Option.getD_some] at e
    rw [List.getElem?_eq_getElem hl, e]
  · simp [hi]

theorem store_eq {h : Heap} {a : Nat} {n : NODE} (f : NODE → NODE)
    (e : deref h (some a) = some n) : store h (some a) f = some (h.set a (some (f n))) := by
  simp only [deref] at e
  unfold store
  simp only [e]

/-! ## Representation lemmas -/

theorem Rep_frame {h h' : Heap} : ∀ (t : Tree) (s : Ptr), Rep h t s →
    (∀ a ∈ t.addrs, deref h' (some a) = deref h (some a)) → Rep h' t s
  | .nil, _, _, _ => trivial
  | .node a l k v ht r, s, hr, hf => by
    obtain ⟨h1, h2, h3⟩ := hr
    refine ⟨?_, Rep_frame l _ h2 ?_, Rep_frame r _ h3 ?_⟩
    · rw [hf a (by simp [addrs]), h1]
    · intro b hb; exact hf b (by simp [addrs, hb])
    · intro b hb; exact hf b (by simp [addrs, hb])

theorem Rep_key_mem {h : Heap} : ∀ (t : Tree) (s : Ptr), Rep h t s → ∀ a ∈ t.addrs,
    ∃ n, deref h (some a) = some n ∧ n.Key ∈ t.keys
  | .nil, _, _, a, ha => by simp [addrs] at ha
  | .node b l k v ht r, s, hr, a, ha => by
    obtain ⟨h1, h2, h3⟩ := hr
    simp only [addrs, List.mem_append, List.mem_cons] at ha
    rcases ha with ha | rfl | ha
    · obtain ⟨n, e, hk⟩ := Rep_key_mem l _ h2 a ha
      exact ⟨n, e, by simp [keys, hk]⟩
    · exact ⟨_, h1, by simp [keys]⟩
    · obtain ⟨n, e, hk⟩ := Rep_key_mem r _ h3 a ha
      exact ⟨n, e, by simp [keys, hk]⟩

theorem Rep_addr_lt {h : Heap} {t : Tree} {s : Ptr} (hr : Rep h t s) {a : Nat}
    (ha : a ∈ t.addrs) : a < h.length := by
  obtain ⟨n, e, _⟩ := Rep_key_mem t s hr a ha
  exact deref_some_lt e

theorem Rep_nodup {h : Heap} : ∀ (t : Tree) (s : Ptr), Rep h t s → t.BST → t.addrs.Nodup
  | .nil, _, _, _ => by simp [addrs]
  | .node a l k v ht r, s, hr, hb => by
    obtain ⟨h1, h2, h3⟩ := hr
    simp only [BST, keys, List.pairwise_append, List.pairwise_cons, List.mem_cons,
      forall_eq_or_imp] at hb
    obtain ⟨hbl, ⟨hkr, hbr⟩, hlr⟩ := hb
    simp only [addrs, List.nodup_append, List.nodup_cons, List.disjoint_cons_right]
    refine ⟨Rep_nodup l _ h2 hbl, ⟨?_, Rep_nodup r _ h3 hbr⟩, ?_, ?_⟩
    · intro ha
      obtain ⟨n, e, hk⟩ := Rep_key_mem r _ h3 a ha
      rw [h1] at e; cases e
      exact lt_irrefl _ (hkr _ hk)
    · intro ha
      obtain ⟨n, e, hk⟩ := Rep_key_mem l _ h2 a ha
      rw [h1] at e; cases e
      exact lt_irrefl _ (hlr _ hk).1
    · intro x hxl hxr
      obtain ⟨n, e, hk⟩ := Rep_key_mem l _ h2 x hxl
      obtain ⟨n', e', hk'⟩ := Rep_key_mem r _ h3 x hxr
      rw [e] at e'; cases e'
      exact lt_irrefl _ (lt_trans (hlr _ hk).1 (hkr _ hk'))

theorem getHeight_root {h : Heap} {t : Tree} {s : Ptr} (hr : Rep h t s) :
    _getHeight h t.root = some t.H := by
  cases t with
  | nil => rfl
  | node a l k v ht r => simp [root, _getHeight, hr.1, H]

theorem updateHeight_eq {h : Heap} {a : Nat} {n : NODE} {hl hr : Int}
    (e : deref h (some a) = some n)
    (el : _getHeight h (_getActualLeft n) = some hl)
    (er : _getHeight h (_getActualRight n) = some hr) :
    updateHeight h (some a) = some (h.set a (some { n with Height := 1 + _max hl hr })) := by
  simp [updateHeight, e, el, er, store_eq _ e]

theorem rightSlot_of_ne_nil {r : Tree} (s : Ptr) (hne : r ≠ .nil) : r.rightSlot s = r.root := by
  cases r with
  | nil => exact absurd rfl hne
  | node => rfl

theorem actualRight_rep (r : Tree) (s : Ptr) (k v ht : Int) (l : Ptr) :
    _getActualRight
      { Key := k, Value := v, Left := l, Right := r.rightSlot s,
        isThreaded := r.isNil, Height := ht } = r.root := by
  cases r <;> rfl

theorem store_def (h : Heap) (a : Nat) (f : NODE → NODE) :
    store h (some a) f = (deref h (some a)).map fun n => h.set a (some (f n)) := by
  simp only [store, deref]
  cases h.getD a none <;> rfl

@[simp] theorem root_nil : Tree.nil.root = none := rfl
@[simp] theorem root_node (a : Nat) (l : Tree) (k v ht : Int) (r : Tree) :
    (Tree.node a l k v ht r).root = some a := rfl
@[simp] theorem H_nil : Tree.nil.H = -1 := rfl
@[simp] theorem H_node (a : Nat) (l : Tree) (k v ht : Int) (r : Tree) :
    (Tree.node a l k v ht r).H = ht := rfl
@[simp] theorem isNil_nil : Tree.nil.isNil = true := rfl
@[simp] theorem isNil_node (a : Nat) (l : Tree) (k v ht : Int) (r : Tree) :
    (Tree.node a l k v ht r).isNil = false := rfl
@[simp] theorem rightSlot_nil (s : Ptr) : Tree.nil.rightSlot s = s := rfl
@[simp] theorem rightSlot_node (a : Nat) (l : Tree) (k v ht : Int) (r : Tree) (s : Ptr) :
    (Tree.node a l k v ht r).rightSlot s = some a := rfl

theorem root_mem_addrs {t : Tree} {a : Nat} (e : t.root = some a) : a ∈ t.addrs := by
  cases t with
  | nil => simp at e
  | node b l k v ht r =>
    simp only [root_node, Option.some.injEq] at e
    subst e
    simp [addrs]

theorem getHeight_set {h : Heap} {t : Tree} {a : Nat} (x : Option NODE) (ha : a ∉ t.addrs) :
    _getHeight (h.set a x) t.root = _getHeight h t.root := by
  cases t with
  | nil => rfl
  | node b l k v ht r =>
    have hne : a ≠ b := by
      intro e; subst e; exact ha (by simp [addrs])
    simp [_getHeight, deref_set_ne _ hne]

theorem Rep_set {h : Heap} {t : Tree} {s : Ptr} {a : Nat} (x : Option NODE)
    (hr : Rep h t s) (ha : a ∉ t.addrs) : Rep (h.set a x) t s := by
  refine Rep_frame t s hr ?_
  intro b hb
  exact deref_set_ne _ (by intro e; subst e; exact ha hb)

theorem actualRight_false (k v : Int) (l r : Ptr) (ht : Int) :
    _getActualRight
      { Key := k, Value := v, Left := l, Right := r, isThreaded := false, Height := ht } = r :=
  rfl

theorem actualRight_true (k v : Int) (l r : Ptr) (ht : Int) :
    _getActualRight
      { Key := k, Value := v, Left := l, Right := r, isThreaded := true, Height := ht } = none :=
  rfl

theorem getHeight_some (h : Heap) (a : Nat) :
    _getHeight h (some a) = (deref h (some a)).map NODE.Height := rfl

theorem getHeight_none (h : Heap) : _getHeight h none = some (-1) := rfl

theorem nodup_node {a : Nat} {l r : Tree} {k v ht : Int}
    (hnd : (Tree.addrs (.node a l k v ht r)).Nodup) :
    l.addrs.Nodup ∧ r.addrs.Nodup ∧ a ∉ l.addrs ∧ a ∉ r.addrs ∧
      ∀ x ∈ l.addrs, x ∉ r.addrs := by
  simp only [addrs, List.nodup_append, List.nodup_cons, List.disjoint_cons_right] at hnd
  obtain ⟨h1, ⟨h2, h3⟩, h4, h5⟩ := hnd
  exact ⟨h1, h3, h4, h2, fun x hx hx' => h5 hx hx'⟩

theorem _rightRotate_spec {h : Heap} {a b : Nat} {ll lr r : Tree} {lk lv lh k v ht : Int}
    {s : Ptr}
    (hrep : Rep h (.node a (.node b ll lk lv lh lr) k v ht r) s)
    (hnd : (Tree.addrs (.node a (.node b ll lk lv lh lr) k v ht r)).Nodup) :
    ∃ h', _rightRotate h (some a) = some (h', some b)
      ∧ Rep h' (rotR (.node a (.node b ll lk lv lh lr) k v ht r)) s
      ∧ h'.length = h.length
      ∧ ∀ c, c ∉ Tree.addrs (.node a (.node b ll lk lv lh lr) k v ht r) →
          deref h' (some c) = deref h (some c) := by
  obtain ⟨ea, ⟨eb, hll, hlr⟩, hr⟩ := hrep
  simp only [addrs, List.nodup_append, List.nodup_cons, List.mem_append, List.mem_cons,
    List.disjoint_cons_right, List.disjoint_append_left, List.disjoint_cons_left,
    List.disjoint_append_right,
    List.append_assoc, List.cons_append, not_or] at hnd
  obtain ⟨-, ⟨⟨hb1, hba, hb2⟩, -, ⟨ha1, -⟩, ha2, -⟩, hb3, -, ha3, -⟩ := hnd
  have hab : ¬ a = b := fun e => hba e.symm
  have hla := deref_some_lt ea
  have hlb := deref_some_lt eb
  have gll := getHeight_root hll
  have glr := getHeight_root hlr
  have gr := getHeight_root hr
  simp only [_rightRotate, ea, root_node, _getActualLeft, eb, actualRight_rep,
    Option.bind_eq_bind, Option.some_bind, store_def, deref_set, List.length_set, hla, hlb,
    and_true, if_true, if_false, Option.map_some', hba, hab, updateHeight, getHeight_set,
    ha1, ha2, ha3, hb1, hb2, hb3, not_false_eq_true, gll, glr, gr, actualRight_false,
    getHeight_some,
    Option.some.injEq, Prod.mk.injEq, exists_eq_left', rotR, mk, and_self, and_true, H_node]
  refine ⟨⟨?_, ?_, ?_, ?_, ?_⟩, ?_⟩
  · simp [deref_set, hla, hlb, hab, hba]
  · exact Rep_set _ (Rep_set _ (Rep_set _ (Rep_set _ (Rep_set _ hll hb3) hb3) ha3) ha3) hb3
  · simp [deref_set, hla, hlb, hab, hba]
  · exact Rep_set _ (Rep_set _ (Rep_set _ (Rep_set _ (Rep_set _ hlr hb1) hb1) ha2) ha2) hb1
  · exact Rep_set _ (Rep_set _ (Rep_set _ (Rep_set _ (Rep_set _ hr hb2) hb2) ha1) ha1) hb2
  · refine ⟨trivial, ?_⟩
    intro c hc
    simp only [addrs, List.mem_append, List.mem_cons, not_or] at hc
    obtain ⟨⟨-, hcb, -⟩, hca, -⟩ := hc
    simp [Ne.symm hca, Ne.symm hcb]

theorem _leftRotate_spec {h : Heap} {a b : Nat} {l rl rr : Tree} {rk rv rh k v ht : Int}
    {s : Ptr}
    (hrep : Rep h (.node a l k v ht (.node b rl rk rv rh rr)) s)
    (hnd : (Tree.addrs (.node a l k v ht (.node b rl rk rv rh rr))).Nodup) :
    ∃ h', _leftRotate h (some a) = some (h', some b)
      ∧ Rep h' (rotL (.node a l k v ht (.node b rl rk rv rh rr))) s
      ∧ h'.length = h.length
      ∧ ∀ c, c ∉ Tree.addrs (.node a l k v ht (.node b rl rk rv rh rr)) →
          deref h' (some c) = deref h (some c) := by
  obtain ⟨ea, hl, eb, hrl, hrr⟩ := hrep
  simp only [addrs, List.nodup_append, List.nodup_cons, List.mem_append, List.mem_cons,
    List.disjoint_cons_right, List.disjoint_append_left, List.disjoint_cons_left,
    List.disjoint_append_right,
    List.append_assoc, List.cons_append, not_or] at hnd
  obtain ⟨-, ⟨⟨ha2, hab, ha3⟩, -, ⟨hb3, -⟩, hb2, -⟩, ha1, -, hb1, -⟩ := hnd
  have hba : ¬ b = a := fun e => hab e.symm
  have hla := deref_some_lt ea
  have hlb := deref_some_lt eb
  have gl := getHeight_root hl
  have grl := getHeight_root hrl
  have grr := getHeight_root hrr
  cases rl with
  | nil =>
    simp only [_leftRotate, ea, root_node, root_nil, _getActualLeft, eb, actualRight_rep,
      actualRight_false, actualRight_true, rightSlot_node, isNil_node, rightSlot_nil, isNil_nil,
      Option.bind_eq_bind, Option.some_bind, store_def, deref_set, List.length_set, hla, hlb,
      and_true, if_true, if_false, Option.map_some', hba, hab, updateHeight, getHeight_set,
      ha1, ha2, ha3, hb1, hb2, hb3, not_false_eq_true, gl, grl, grr, getHeight_none,
      getHeight_some, H_nil,
      Option.some.injEq, Prod.mk.injEq, exists_eq_left', rotL, mk, and_self, and_true, H_node]
    refine ⟨⟨?_, ⟨?_, ?_, trivial⟩, ?_⟩, ?_⟩
    · simp [deref_set, hla, hlb, hab, hba]
    · simp [deref_set, hla, hlb, hab, hba]
    · exact Rep_set _ (Rep_set _ (Rep_set _ (Rep_set _ (Rep_set _ (Rep_set _
        hl hb1) ha1) ha1) ha1) ha1) hb1
    · exact Rep_set _ (Rep_set _ (Rep_set _ (Rep_set _ (Rep_set _ (Rep_set _
        hrr hb3) ha3) ha3) ha3) ha3) hb3
    · refine ⟨trivial, ?_⟩
      intro c hc
      simp only [addrs, List.mem_append, List.mem_cons, not_or] at hc
      obtain ⟨-, hca, -, hcb, -⟩ := hc
      simp [Ne.symm hca, Ne.symm hcb]
  | node c rll rlk rlv rlh rlr =>
    have ec := hrl.1
    have hac : ¬ a = c := fun e => ha2 (by simp [addrs, e])
    have hbc : ¬ b = c := fun e => hb2 (by simp [addrs, e])
    simp only [_leftRotate, ea, root_node, root_nil, _getActualLeft, eb, actualRight_rep,
      actualRight_false, actualRight_true, rightSlot_node, isNil_node, rightSlot_nil, isNil_nil,
      Option.bind_eq_bind, Option.some_bind, store_def, deref_set, List.length_set, hla, hlb,
      and_true, if_true, if_false, Option.map_some', hba, hab, hac, hbc, updateHeight,
      getHeight_set, ec, reduceCtorEq,
      ha1, ha2, ha3, hb1, hb2, hb3, not_false_eq_true, gl, grr, getHeight_none, H_nil,
      getHeight_some,
      Option.some.injEq, Prod.mk.injEq, exists_eq_left', rotL, mk, and_self, and_true, H_node]
    refine ⟨⟨?_, ⟨?_, ?_, ?_⟩, ?_⟩, ?_⟩
    · simp [deref_set, hla, hlb, hab, hba]
    · simp [deref_set, hla, hlb, hab, hba]
    · exact Rep_set _ (Rep_set _ (Rep_set _ (Rep_set _ hl hb1) ha1) ha1) hb1
    · exact Rep_set _ (Rep_set _ (Rep_set _ (Rep_set _ hrl hb2) ha2) ha2) hb2
    · exact Rep_set _ (Rep_set _ (Rep_set _ (Rep_set _ hrr hb3) ha3) ha3) hb3
    · refine ⟨trivial, ?_⟩
      intro d hd
      simp only [addrs, List.mem_append, List.mem_cons, not_or] at hd
      obtain ⟨-, hda, -, hdb, -⟩ := hd
      simp [Ne.symm hda, Ne.symm hdb]

@[simp] theorem addrs_rotR (t : Tree) : (rotR t).addrs = t.addrs := by
  unfold rotR
  split <;> simp [mk, addrs]

@[simp] theorem addrs_rotL (t : Tree) : (rotL t).addrs = t.addrs := by
  unfold rotL
  split <;> simp [mk, addrs]

@[simp] theorem keys_rotR (t : Tree) : (rotR t).keys = t.keys := by
  unfold rotR
  split <;> simp [mk, keys]

@[simp] theorem keys_rotL (t : Tree) : (rotL t).keys = t.keys := by
  unfold rotL
  split <;> simp [mk, keys]

@[simp] theorem bindings_rotR (t : Tree) : (rotR t).bindings = t.bindings := by
  unfold rotR
  split <;> simp [mk, bindings]

@[simp] theorem bindings_rotL (t : Tree) : (rotL t).bindings = t.bindings := by
  unfold rotL
  split <;> simp [mk, bindings]

@[simp] theorem addrs_rebal (key : Int) (t : Tree) : (rebal key t).addrs = t.addrs := by
  unfold rebal
  split
  · rfl
  · split
    · split
      · rfl
      · split
        · simp
        · split <;> simp [addrs]
    · split
      · split
        · rfl
        · split
          · simp [addrs]
          · split <;> simp
      · rfl

@[simp] theorem keys_rebal (key : Int) (t : Tree) : (rebal key t).keys = t.keys := by
  unfold rebal
  split
  · rfl
  · split
    · split
      · rfl
      · split
        · simp
        · split <;> simp [keys]
    · split
      · split
        · rfl
        · split
          · simp [keys]
          · split <;> simp
      · rfl

@[simp] theorem bindings_rebal (key : Int) (t : Tree) :
    (rebal key t).bindings = t.bindings := by
  unfold rebal
  split
  · rfl
  · split
    · split
      · rfl
      · split
        · simp
        · split <;> simp [bindings]
    · split
      · split
        · rfl
        · split
          · simp [bindings]
          · split <;> simp
      · rfl

theorem rebalance_spec {h : Heap} {a : Nat} {l r : Tree} {k v ht : Int} {s : Ptr} (key : Int)
    (hrep : Rep h (.node a l k v ht r) s)
    (hnd : (Tree.addrs (.node a l k v ht r)).Nodup)
    (hok : RotOk key (.node a l k v ht r)) :
    ∃ h', rebalance h (some a) key = some (h', (rebal key (.node a l k v ht r)).root)
      ∧ Rep h' (rebal key (.node a l k v ht r)) s
      ∧ h'.length = h.length
      ∧ ∀ c, c ∉ Tree.addrs (.node a l k v ht r) → deref h' (some c) = deref h (some c) := by
  have hrep0 := hrep
  obtain ⟨ea, hl, hr⟩ := hrep
  have gl := getHeight_root hl
  have gr := getHeight_root hr
  obtain ⟨ok1, ok2⟩ := hok
  simp only [rebalance, ea, Option.bind_eq_bind, Option.some_bind, _getActualLeft,
    actualRight_rep, gl, gr]
  unfold rebal
  by_cases c1 : H l - H r > 1
  · obtain ⟨b, ll, lk, lv, lh, lr, rfl, hlr⟩ := ok1 c1
    have eb := hl.1
    simp only [c1, if_true, root_node, eb, Option.some_bind]
    by_cases c2 : key < lk
    · simp only [c2, if_true]
      exact _rightRotate_spec hrep0 hnd
    · simp only [c2, if_false]
      by_cases c3 : key > lk
      · simp only [c3, if_true]
        obtain ⟨c, lrl, lrk, lrv, lrh, lrr, rfl⟩ : ∃ c lrl lrk lrv lrh lrr,
            lr = .node c lrl lrk lrv lrh lrr := by
          cases lr with
          | nil => exact absurd rfl (hlr c2 c3)
          | node c lrl lrk lrv lrh lrr => exact ⟨c, lrl, lrk, lrv, lrh, lrr, rfl⟩
        obtain ⟨hndl, -, hal, har, hdis⟩ := nodup_node hnd
        obtain ⟨h1, e1, hrep1, len1, fr1⟩ := _leftRotate_spec hl hndl
        have ea1 : deref h1 (some a) = _ := (fr1 a hal).trans ea
        simp only [e1, Option.some_bind, store_def, ea1, Option.map_some']
        have hrep2 : Rep (h1.set a (some
            { Key := k, Value := v, Left := some c, Right := r.rightSlot s,
              isThreaded := r.isNil, Height := ht }))
            (.node a (rotL (.node b ll lk lv lh (.node c lrl lrk lrv lrh lrr))) k v ht r) s := by
          refine ⟨?_, ?_, ?_⟩
          · rw [deref_set_eq _ (deref_some_lt ea1)]
            rfl
          · exact Rep_set _ hrep1 (by simpa using hal)
          · refine Rep_frame r s hr ?_
            intro x hx
            have hxa : a ≠ x := by
              intro e; subst e
              exact har hx
            rw [deref_set_ne _ hxa]
            exact fr1 x (fun hm => hdis x hm hx)
        have hnd2 : (Tree.addrs (.node a (rotL (.node b ll lk lv lh
            (.node c lrl lrk lrv lrh lrr))) k v ht r)).Nodup := by
          simpa [addrs] using hnd
        obtain ⟨h3, e3, hrep3, len3, fr3⟩ := _rightRotate_spec hrep2 hnd2
        refine ⟨h3, ?_, hrep3, ?_, ?_⟩
        · rw [e3]; rfl
        · rw [len3, List.length_set, len1]
        · intro x hx
          have hx2 : x ∉ Tree.addrs (.node a (rotL (.node b ll lk lv lh
              (.node c lrl lrk lrv lrh lrr))) k v ht r) := by
            simpa [addrs] using hx
          rw [fr3 x hx2]
          have hxa : a ≠ x := by
            intro e; subst e
            exact hx (by simp [addrs])
          rw [deref_set_ne _ hxa]
          have hxl : x ∉ Tree.addrs (.node b ll lk lv lh (.node c lrl lrk lrv lrh lrr)) := by
            intro hm
            exact hx (List.mem_append_left _ hm)
          exact fr1 x hxl
      · simp only [c3, if_false]
        exact ⟨h, rfl, hrep0, rfl, fun _ _ => rfl⟩
  · simp only [c1, if_false]
    by_cases c4 : H l - H r < -1
    · obtain ⟨b, rl, rk, rv, rh, rr, rfl, hrl⟩ := ok2 c4
      have eb := hr.1
      simp only [c4, if_true, rightSlot_node, eb, Option.some_bind]
      by_cases c5 : key < rk
      · simp only [c5, if_true]
        obtain ⟨c, rll, rlk, rlv, rlh, rlr, rfl⟩ : ∃ c rll rlk rlv rlh rlr,
            rl = .node c rll rlk rlv rlh rlr := by
          cases rl with
          | nil => exact absurd rfl (hrl c5)
          | node c rll rlk rlv rlh rlr => exact ⟨c, rll, rlk, rlv, rlh, rlr, rfl⟩
        obtain ⟨-, hndr, hal, har, hdis⟩ := nodup_node hnd
        simp only [rightSlot_node, isNil_node] at ea
        obtain ⟨h1, e1, hrep1, len1, fr1⟩ := _rightRotate_spec hr hndr
        have ea1 : deref h1 (some a) = _ := (fr1 a har).trans ea
        simp only [e1, Option.some_bind, store_def, ea1, Option.map_some']
        have hrep2 : Rep (h1.set a (some
            { Key := k, Value := v, Left := l.root, Right := some c,
              isThreaded := false, Height := ht }))
            (.node a l k v ht (rotR (.node b (.node c rll rlk rlv rlh rlr) rk rv rh rr))) s := by
          refine ⟨?_, ?_, ?_⟩
          · rw [deref_set_eq _ (deref_some_lt ea1)]
            rfl
          · refine Rep_frame l _ hl ?_
            intro x hx
            have hxa : a ≠ x := by
              intro e; subst e
              exact hal hx
            rw [deref_set_ne _ hxa]
            exact fr1 x (hdis x hx)
          · exact Rep_set _ hrep1 (by simpa using har)
        have hnd2 : (Tree.addrs (.node a l k v ht (rotR (.node b
            (.node c rll rlk rlv rlh rlr) rk rv rh rr)))).Nodup := by
          simpa [addrs] using hnd
        obtain ⟨h3, e3, hrep3, len3, fr3⟩ := _leftRotate_spec hrep2 hnd2
        refine ⟨h3, ?_, hrep3, ?_, ?_⟩
        · rw [e3]; rfl
        · rw [len3, List.length_set, len1]
        · intro x hx
          have hx2 : x ∉ Tree.addrs (.node a l k v ht (rotR (.node b
              (.node c rll rlk rlv rlh rlr) rk rv rh rr))) := by
            simpa [addrs] using hx
          rw [fr3 x hx2]
          have hxa : a ≠ x := by
            intro e; subst e
            exact hx (by simp [addrs])
          rw [deref_set_ne _ hxa]
          have hxr : x ∉ Tree.addrs (.node b (.node c rll rlk rlv rlh rlr) rk rv rh rr) := by
            intro hm
            exact hx (List.mem_append_right _ (List.mem_cons_of_mem _ hm))
          exact fr1 x hxr
      · simp only [c5, if_false]
        by_cases c6 : key > rk
        · simp only [c6, if_true]
          exact _leftRotate_spec hrep0 hnd
        · simp only [c6, if_false]
          exact ⟨h, rfl, hrep0, rfl, fun _ _ => rfl⟩
    · simp only [c4, if_false]
      exact ⟨h, rfl, hrep0, rfl, fun _ _ => rfl⟩

theorem rebalance_noop {h : Heap} {a : Nat} {l r : Tree} {k v ht : Int} {s : Ptr} (key : Int)
    (hrep : Rep h (.node a l k v ht r) s)
    (c1 : ¬ H l - H r > 1) (c2 : ¬ H l - H r < -1) :
    rebalance h (some a) key = some (h, some a) := by
  obtain ⟨ea, hl, hr⟩ := hrep
  have gl := getHeight_root hl
  have gr := getHeight_root hr
  simp only [rebalance, ea, Option.bind_eq_bind, Option.some_bind, _getActualLeft,
    actualRight_rep, gl, gr, c1, c2, if_false]

theorem H_ge : ∀ {t : Tree}, HOk t → -1 ≤ H t
  | .nil, _ => by simp
  | .node _ l _ _ _ r, ⟨e, hl, hr⟩ => by
    have := H_ge hl
    have := H_ge hr
    simp only [H_node]
    omega

theorem HOk_mk {a : Nat} {l r : Tree} {k v : Int} (hl : HOk l) (hr : HOk r) :
    HOk (mk a l k v r) := by
  simp only [mk, HOk, _max_eq]
  exact ⟨trivial, hl, hr⟩

theorem rebal_left {key : Int} {a : Nat} {k v : Int} {l r : Tree}
    (hl : HOk l) (bl : Bal l) (hr : HOk r) (br : Bal r)
    (d1 : H l - H r ≤ 2) (d2 : H r - H l ≤ 1) (g : H l - H r = 2 → Grow key l) :
    HOk (rebal key (mk a l k v r)) ∧ Bal (rebal key (mk a l k v r)) ∧
    (H l - H r = 2 → H (rebal key (mk a l k v r)) = H l) ∧
    (H l - H r ≠ 2 → rebal key (mk a l k v r) = mk a l k v r) := by
  have gr := H_ge hr
  by_cases c : H l - H r > 1
  · have c2 : H l - H r = 2 := by omega
    have g' := g c2
    cases l with
    | nil => exact absurd g' (by simp [Grow])
    | node b ll lk lv lh lr =>
      obtain ⟨gne, g1, g2⟩ := g'
      obtain ⟨el, hll, hlr⟩ := hl
      obtain ⟨bb, bll, blr⟩ := bl
      have gll := H_ge hll
      have glr := H_ge hlr
      simp only [H_node] at c c2 d1 d2
      by_cases c3 : key < lk
      · have := g1 c3
        simp only [mk, rebal, H_node, c, if_true, c3, rotR, _max_eq, HOk, Bal]
        refine ⟨⟨?_, hll, ?_, hlr, hr⟩, ⟨?_, bll, ?_, blr, br⟩, ?_, ?_⟩
        all_goals first | trivial | omega
      · have c4 : key > lk := by omega
        have := g2 c4
        cases lr with
        | nil => simp only [H_nil] at this; omega
        | node c' lrl lrk lrv lrh lrr =>
          obtain ⟨elr, hlrl, hlrr⟩ := hlr
          obtain ⟨bb', blrl, blrr⟩ := blr
          have glrl := H_ge hlrl
          have glrr := H_ge hlrr
          simp only [H_node] at *
          simp only [mk, rebal, H_node, c, if_true, c3, if_false, c4, rotR, rotL, _max_eq, HOk,
            Bal]
          refine ⟨⟨?_, ⟨?_, hll, hlrl⟩, ?_, hlrr, hr⟩, ⟨?_, ⟨?_, bll, blrl⟩, ?_, blrr, br⟩, ?_, ?_⟩
          all_goals first | trivial | omega
  · have c' : ¬ H l - H r < -1 := by omega
    have e : rebal key (mk a l k v r) = mk a l k v r := by
      simp only [mk, rebal, c, c', if_false]
    rw [e]
    refine ⟨HOk_mk hl hr, ?_, ?_, fun _ => rfl⟩
    · simp only [mk, Bal]
      exact ⟨by omega, bl, br⟩
    · intro h2; omega

theorem rebal_right {key : Int} {a : Nat} {k v : Int} {l r : Tree}
    (hl : HOk l) (bl : Bal l) (hr : HOk r) (br : Bal r)
    (d1 : H r - H l ≤ 2) (d2 : H l - H r ≤ 1) (g : H r - H l = 2 → Grow key r) :
    HOk (rebal key (mk a l k v r)) ∧ Bal (rebal key (mk a l k v r)) ∧
    (H r - H l = 2 → H (rebal key (mk a l k v r)) = H r) ∧
    (H r - H l ≠ 2 → rebal key (mk a l k v r) = mk a l k v r) := by
  have gl := H_ge hl
  have c0 : ¬ H l - H r > 1 := by omega
  by_cases c : H l - H r < -1
  · have c2 : H r - H l = 2 := by omega
    have g' := g c2
    cases r with
    | nil => exact absurd g' (by simp [Grow])
    | node b rl rk rv rh rr =>
      obtain ⟨gne, g1, g2⟩ := g'
      obtain ⟨er, hrl, hrr⟩ := hr
      obtain ⟨bb, brl, brr⟩ := br
      have grl := H_ge hrl
      have grr := H_ge hrr
      simp only [H_node] at c c0 c2 d1 d2
      by_cases c3 : key < rk
      · have := g1 c3
        cases rl with
        | nil => simp only [H_nil] at this; omega
        | node c' rll rlk rlv rlh rlr =>
          obtain ⟨erl, hrll, hrlr⟩ := hrl
          obtain ⟨bb', brll, brlr⟩ := brl
          have grll := H_ge hrll
          have grlr := H_ge hrlr
          simp only [H_node] at *
          simp only [mk, rebal, H_node, c0, c, if_true, c3, if_false, rotR, rotL, _max_eq, HOk,
            Bal]
          refine ⟨⟨?_, ⟨?_, hl, hrll⟩, ?_, hrlr, hrr⟩, ⟨?_, ⟨?_, bl, brll⟩, ?_, brlr, brr⟩,
            ?_, ?_⟩
          all_goals first | trivial | omega
      · have c4 : key > rk := by omega
        have := g2 c4
        simp only [mk, rebal, H_node, c0, c, if_true, c3, if_false, c4, rotL, _max_eq, HOk, Bal]
        refine ⟨⟨?_, ⟨?_, hl, hrl⟩, hrr⟩, ⟨?_, ⟨?_, bl, brl⟩, brr⟩, ?_, ?_⟩
        all_goals first | trivial | omega
  · have e : rebal key (mk a l k v r) = mk a l k v r := by
      simp only [mk, rebal, c, c0, if_false]
    rw [e]
    refine ⟨HOk_mk hl hr, ?_, ?_, fun _ => rfl⟩
    · simp only [mk, Bal]
      exact ⟨by omega, bl, br⟩
    · intro h2; omega

theorem ins_inv (f : Nat) (key value : Int) : ∀ t : Tree, HOk t → Bal t →
    HOk (ins f key value t) ∧ Bal (ins f key value t) ∧
    (H (ins f key value t) = H t ∨ H (ins f key value t) = H t + 1) ∧
    (t ≠ .nil → H (ins f key value t) = H t + 1 → Grow key (ins f key value t))
  | .nil, _, _ => by
    simp [ins, HOk, Bal]
  | .node a l k v ht r, ⟨e, hl, hr⟩, ⟨bb, bl, br⟩ => by
    have gl := H_ge hl
    have gr := H_ge hr
    simp only [H_node]
    by_cases c1 : key < k
    · obtain ⟨hl', bl', hh, hg⟩ := ins_inv f key value l hl bl
      have gl' := H_ge hl'
      have hgrow : H (ins f key value l) - H r = 2 → Grow key (ins f key value l) := by
        intro h2
        by_cases hn : l = .nil
        · subst hn
          simp only [ins, H_node] at h2
          omega
        · exact hg hn (by omega)
      obtain ⟨r1, r2, r3, r4⟩ := @rebal_left key a k v _ _
        hl' bl' hr br (by omega) (by omega) hgrow
      simp only [ins, c1, if_true]
      refine ⟨r1, r2, ?_, ?_⟩
      · by_cases h2 : H (ins f key value l) - H r = 2
        · rw [r3 h2]; omega
        · rw [r4 h2]; simp only [mk, H_node, _max_eq]; omega
      · intro _
        by_cases h2 : H (ins f key value l) - H r = 2
        · rw [r3 h2]; omega
        · rw [r4 h2]; simp only [mk, H_node, _max_eq, Grow]
          intro h3
          exact ⟨by omega, fun _ => by omega, fun _ => by omega⟩
    · by_cases c2 : key > k
      · obtain ⟨hr', br', hh, hg⟩ := ins_inv f key value r hr br
        have gr' := H_ge hr'
        have hgrow : H (ins f key value r) - H l = 2 → Grow key (ins f key value r) := by
          intro h2
          by_cases hn : r = .nil
          · subst hn
            simp only [ins, H_node] at h2
            omega
          · exact hg hn (by omega)
        obtain ⟨r1, r2, r3, r4⟩ := @rebal_right key a k v _ _
          hl bl hr' br' (by omega) (by omega) hgrow
        simp only [ins, c1, if_false, c2, if_true]
        refine ⟨r1, r2, ?_, ?_⟩
        · by_cases h2 : H (ins f key value r) - H l = 2
          · rw [r3 h2]; omega
          · rw [r4 h2]; simp only [mk, H_node, _max_eq]; omega
        · intro _
          by_cases h2 : H (ins f key value r) - H l = 2
          · rw [r3 h2]; omega
          · rw [r4 h2]; simp only [mk, H_node, _max_eq, Grow]
            intro h3
            exact ⟨by omega, fun _ => by omega, fun _ => by omega⟩
      · simp only [ins, c1, c2, if_false, H_node]
        refine ⟨⟨e, hl, hr⟩, ⟨bb, bl, br⟩, Or.inl trivial, ?_⟩
        intro _ h3
        omega

theorem BST_node {a : Nat} {l r : Tree} {k v ht : Int} :
    BST (.node a l k v ht r) ↔
      BST l ∧ BST r ∧ (∀ x ∈ l.keys, x < k) ∧ (∀ x ∈ r.keys, k < x) := by
  simp only [BST, keys, List.pairwise_append, List.pairwise_cons, List.mem_cons,
    forall_eq_or_imp]
  constructor
  · rintro ⟨h1, ⟨h2, h3⟩, h4⟩
    exact ⟨h1, h3, fun x hx => (h4 x hx).1, h2⟩
  · rintro ⟨h1, h2, h3, h4⟩
    exact ⟨h1, ⟨h4, h2⟩, fun x hx => ⟨h3 x hx, fun y hy => lt_trans (h3 x hx) (h4 y hy)⟩⟩

theorem BST_of_keys_eq {t t' : Tree} (e : t'.keys = t.keys) (hb : BST t) : BST t' := by
  unfold BST at *
  rw [e]; exact hb

@[simp] theorem keys_mk (a : Nat) (l r : Tree) (k v : Int) :
    (mk a l k v r).keys = l.keys ++ k :: r.keys := rfl

@[simp] theorem addrs_mk (a : Nat) (l r : Tree) (k v : Int) :
    (mk a l k v r).addrs = l.addrs ++ a :: r.addrs := rfl

@[simp] theorem bindings_mk (a : Nat) (l r : Tree) (k v : Int) :
    (mk a l k v r).bindings = l.bindings ++ (k, v) :: r.bindings := rfl

theorem keys_eq_map_bindings : ∀ t : Tree, t.keys = t.bindings.map Prod.fst
  | .nil => rfl
  | .node _ l _ _ _ r => by
    simp [keys, bindings, keys_eq_map_bindings l, keys_eq_map_bindings r]

theorem length_addrs_eq_keys : ∀ t : Tree, t.addrs.length = t.keys.length
  | .nil => rfl
  | .node _ l _ _ _ r => by
    simp [keys, addrs, length_addrs_eq_keys l, length_addrs_eq_keys r]

theorem mem_keys_ins (f : Nat) (key value : Int) : ∀ (t : Tree) (x : Int),
    x ∈ (ins f key value t).keys ↔ x = key ∨ x ∈ t.keys
  | .nil, x => by simp [ins, keys]
  | .node a l k v ht r, x => by
    unfold ins
    split
    · simp only [keys_rebal, keys_mk, List.mem_append, List.mem_cons, mem_keys_ins f key value l,
        keys]
      tauto
    · split
      · simp only [keys_rebal, keys_mk, List.mem_append, List.mem_cons,
          mem_keys_ins f key value r, keys]
        tauto
      · have : key = k := by omega
        subst this
        simp only [keys, List.mem_append, List.mem_cons]
        tauto

theorem mem_addrs_ins (f : Nat) (key value : Int) : ∀ (t : Tree) (x : Nat),
    x ∈ (ins f key value t).addrs → x = f ∨ x ∈ t.addrs
  | .nil, x => by simp [ins, addrs]
  | .node a l k v ht r, x => by
    unfold ins
    split
    · simp only [addrs_rebal, addrs_mk, List.mem_append, List.mem_cons, addrs]
      intro hx
      rcases hx with hx | hx | hx
      · rcases mem_addrs_ins f key value l x hx with h | h
        · exact Or.inl h
        · exact Or.inr (Or.inl h)
      · exact Or.inr (Or.inr (Or.inl hx))
      · exact Or.inr (Or.inr (Or.inr hx))
    · split
      · simp only [addrs_rebal, addrs_mk, List.mem_append, List.mem_cons, addrs]
        intro hx
        rcases hx with hx | hx | hx
        · exact Or.inr (Or.inl hx)
        · exact Or.inr (Or.inr (Or.inl hx))
        · rcases mem_addrs_ins f key value r x hx with h | h
          · exact Or.inl h
          · exact Or.inr (Or.inr (Or.inr h))
      · exact fun hx => Or.inr hx

theorem BST_ins (f : Nat) (key value : Int) : ∀ t : Tree, BST t → BST (ins f key value t)
  | .nil, _ => by simp [ins, BST, keys]
  | .node a l k v ht r, hb => by
    obtain ⟨hl, hr, h1, h2⟩ := BST_node.1 hb
    unfold ins
    split
    · rename_i c
      refine BST_of_keys_eq (t := mk a (ins f key value l) k v r) (keys_rebal _ _) ?_
      refine BST_node.2 ⟨BST_ins f key value l hl, hr, ?_, h2⟩
      intro x hx
      rcases (mem_keys_ins f key value l x).1 hx with h | h
      · rw [h]; exact c
      · exact h1 x h
    · split
      · rename_i c' c
        refine BST_of_keys_eq (t := mk a l k v (ins f key value r)) (keys_rebal _ _) ?_
        refine BST_node.2 ⟨hl, BST_ins f key value r hr, h1, ?_⟩
        intro x hx
        rcases (mem_keys_ins f key value r x).1 hx with h | h
        · rw [h]; exact c
        · exact h2 x h
      · exact hb

theorem rebal_mk_id {key : Int} {a : Nat} {l r : Tree} {k v ht : Int}
    (e : ht = 1 + max (H l) (H r)) (b : H l - H r ≤ 1 ∧ H r - H l ≤ 1) :
    rebal key (mk a l k v r) = .node a l k v ht r := by
  have c1 : ¬ H l - H r > 1 := by omega
  have c2 : ¬ H l - H r < -1 := by omega
  simp only [mk, rebal, c1, c2, if_false, _max_eq, e]

theorem ins_mem (f : Nat) (key value : Int) : ∀ t : Tree, BST t → HOk t → Bal t →
    key ∈ t.keys → ins f key value t = t
  | .nil, _, _, _, hm => by simp [keys] at hm
  | .node a l k v ht r, hb, ⟨e, hl, hr⟩, ⟨bb, bl, br⟩, hm => by
    obtain ⟨bstl, bstr, h1, h2⟩ := BST_node.1 hb
    simp only [keys, List.mem_append, List.mem_cons] at hm
    unfold ins
    split
    · rename_i c
      have hml : key ∈ l.keys := by
        rcases hm with h | h | h
        · exact h
        · omega
        · have := h2 _ h; omega
      rw [ins_mem f key value l bstl hl bl hml]
      exact rebal_mk_id e bb
    · split
      · rename_i c' c
        have hmr : key ∈ r.keys := by
          rcases hm with h | h | h
          · have := h1 _ h; omega
          · omega
          · exact h
        rw [ins_mem f key value r bstr hr br hmr]
        exact rebal_mk_id e bb
      · rfl

theorem length_addrs_ins (f : Nat) (key value : Int) : ∀ t : Tree, key ∉ t.keys →
    (ins f key value t).addrs.length = t.addrs.length + 1
  | .nil, _ => by simp [ins, addrs]
  | .node a l k v ht r, hm => by
    simp only [keys, List.mem_append, List.mem_cons, not_or] at hm
    unfold ins
    split
    · simp only [addrs_rebal, addrs_mk, List.length_append, List.length_cons, addrs,
        length_addrs_ins f key value l hm.1]
      omega
    · split
      · simp only [addrs_rebal, addrs_mk, List.length_append, List.length_cons, addrs,
          length_addrs_ins f key value r hm.2.2]
        omega
      · exact absurd (by omega) hm.2.1

theorem ins_is_node (f : Nat) (key value : Int) (t : Tree) :
    ∃ b ll lk lv lh lr, ins f key value t = .node b ll lk lv lh lr := by
  have hm : key ∈ (ins f key value t).keys := (mem_keys_ins f key value t key).2 (Or.inl rfl)
  cases h : ins f key value t with
  | nil => rw [h] at hm; simp [keys] at hm
  | node b ll lk lv lh lr => exact ⟨b, ll, lk, lv, lh, lr, rfl⟩

theorem rotOk_left (f : Nat) (key value : Int) {a : Nat} {l r : Tree} {k v : Int}
    (hl : HOk l) (bl : Bal l) (hr : HOk r) (bb : H l - H r ≤ 1 ∧ H r - H l ≤ 1) :
    RotOk key (mk a (ins f key value l) k v r) := by
  obtain ⟨hl', bl', hh, hg⟩ := ins_inv f key value l hl bl
  have gr := H_ge hr
  have gl := H_ge hl
  refine ⟨?_, ?_⟩
  · intro hd
    have hn : l ≠ .nil := by
      rintro rfl
      simp only [ins, H_node] at hd
      omega
    have g := hg hn (by omega)
    obtain ⟨b, ll, lk, lv, lh, lr, e⟩ := ins_is_node f key value l
    rw [e] at g hl' ⊢
    refine ⟨b, ll, lk, lv, lh, lr, rfl, ?_⟩
    intro _ c
    have := g.2.2 c
    have := H_ge hl'.2.1
    rintro rfl
    simp only [H_nil] at *
    omega
  · intro hd
    omega

theorem rotOk_right (f : Nat) (key value : Int) {a : Nat} {l r : Tree} {k v : Int}
    (hl : HOk l) (hr : HOk r) (br : Bal r) (bb : H l - H r ≤ 1 ∧ H r - H l ≤ 1) :
    RotOk key (mk a l k v (ins f key value r)) := by
  obtain ⟨hr', br', hh, hg⟩ := ins_inv f key value r hr br
  have gr := H_ge hr
  have gl := H_ge hl
  refine ⟨?_, ?_⟩
  · intro hd
    omega
  · intro hd
    have hn : r ≠ .nil := by
      rintro rfl
      simp only [ins, H_node] at hd
      omega
    have g := hg hn (by omega)
    obtain ⟨b, rl, rk, rv, rh, rr, e⟩ := ins_is_node f key value r
    rw [e] at g hr' ⊢
    refine ⟨b, rl, rk, rv, rh, rr, rfl, ?_⟩
    intro c
    have := g.2.1 c
    have := H_ge hr'.2.2
    rintro rfl
    simp only [H_nil] at *
    omega

theorem depth_node_lt {a : Nat} {l r : Tree} {k v ht : Int} {f : Nat}
    (hf : (Tree.node a l k v ht r).depth < f + 1) : l.depth < f ∧ r.depth < f := by
  simp only [depth] at hf
  omega

theorem Rep_retarget {h : Heap} {b : Nat} {ll : Tree} {lk lv lh : Int} {s1 : Ptr} (s2 : Ptr)
    (hrep : Rep h (.node b ll lk lv lh .nil) s1)
    (hnd : (Tree.addrs (.node b ll lk lv lh .nil)).Nodup) :
    Rep (h.set b (some
      { Key := lk, Value := lv, Left := ll.root, Right := s2, isThreaded := true, Height := lh }))
      (.node b ll lk lv lh .nil) s2 := by
  obtain ⟨eb, hll, -⟩ := hrep
  refine ⟨?_, Rep_set _ hll (nodup_node hnd).2.2.1, trivial⟩
  rw [deref_set_eq _ (deref_some_lt eb)]
  rfl

theorem _insert_left {h1 : Heap} {a b : Nat} {ll lr r : Tree} {lk lv lh k v ht : Int}
    {s s1 pl : Ptr} (key : Int) (size : Int)
    (ea : deref h1 (some a) = some
      { Key := k, Value := v, Left := pl, Right := r.rightSlot s, isThreaded := r.isNil,
        Height := ht })
    (rep1 : Rep h1 (.node b ll lk lv lh lr) s1)
    (hs1 : s1 = some a ∨ lr = .nil)
    (hr : Rep h1 r s)
    (hnd : (Tree.addrs (.node a (.node b ll lk lv lh lr) k v ht r)).Nodup)
    (hok : RotOk key (mk a (.node b ll lk lv lh lr) k v r)) :
    ∃ h', (do
        let i ← deref h1 (some b)
        let h ← if i.isThreaded
          then store h1 (some b) (fun n => { n with Right := some a })
          else some h1
        let h ← store h (some a) (fun n => { n with Left := some b })
        let h ← updateHeight h (some a)
        let (h, p) ← rebalance h (some a) key
        some (h, size, p)) =
          some (h', size, (rebal key (mk a (.node b ll lk lv lh lr) k v r)).root)
      ∧ Rep h' (rebal key (mk a (.node b ll lk lv lh lr) k v r)) s
      ∧ h'.length = h1.length
      ∧ (∀ c, c ∉ Tree.addrs (.node a (.node b ll lk lv lh lr) k v ht r) →
          deref h' (some c) = deref h1 (some c))
      ∧ (s1 = some a → pl = some b → ht = 1 + max lh (H r) →
          (lh - H r ≤ 1 ∧ H r - lh ≤ 1) → h' = h1) := by
  obtain ⟨hndl, hndr, hal, har, hdis⟩ := nodup_node hnd
  have hab : ¬ a = b := fun e => hal (by simp [addrs, e])
  have hba : ¬ b = a := fun e => hab e.symm
  have eb := rep1.1
  have hla := deref_some_lt ea
  have hlb := deref_some_lt eb
  -- the store after the conditional retargeting of the thread
  obtain ⟨h2, e2, rep2, len2, fr2, same2⟩ : ∃ h2,
      (if lr.isNil then store h1 (some b) (fun n => { n with Right := some a })
        else some h1) = some h2
      ∧ Rep h2 (.node b ll lk lv lh lr) (some a) ∧ h2.length = h1.length
      ∧ (∀ c, c ≠ b → deref h2 (some c) = deref h1 (some c))
      ∧ (s1 = some a → h2 = h1) := by
    cases lr with
    | nil =>
      refine ⟨_, by simp only [isNil_nil, if_true, store_eq _ eb], Rep_retarget _ rep1 hndl,
        by simp, fun c hc => deref_set_ne _ (Ne.symm hc), ?_⟩
      intro e
      subst e
      exact set_self eb
    | node c lrl lrk lrv lrh lrr =>
      have : s1 = some a := by
        rcases hs1 with h | h
        · exact h
        · cases h
      subst this
      exact ⟨h1, by simp, rep1, rfl, fun _ _ => rfl, fun _ => rfl⟩
  have ea2 : deref h2 (some a) = _ := (fr2 a hab).trans ea
  have hr2 : Rep h2 r s := Rep_frame r s hr (fun x hx => fr2 x (by
    rintro rfl
    exact hdis x (by simp [addrs]) hx))
  have hl3 : ∀ x, Rep (h2.set a x) (.node b ll lk lv lh lr) (some a) := fun x =>
    Rep_set x rep2 hal
  have hr3 : ∀ x, Rep (h2.set a x) r s := fun x => Rep_set x hr2 har
  have rep4 : Rep ((h2.set a (some
      { Key := k, Value := v, Left := some b, Right := r.rightSlot s, isThreaded := r.isNil,
        Height := ht })).set a (some
      { Key := k, Value := v, Left := some b, Right := r.rightSlot s, isThreaded := r.isNil,
        Height := 1 + _max lh (H r) }))
      (.node a (.node b ll lk lv lh lr) k v (1 + _max lh (H r)) r) s := by
    refine ⟨?_, Rep_set _ (hl3 _) hal, Rep_set _ (hr3 _) har⟩
    rw [deref_set_eq _ (by simpa [len2] using hla)]
    rfl
  have hnd4 : (Tree.addrs (.node a (.node b ll lk lv lh lr) k v (1 + _max lh (H r)) r)).Nodup :=
    hnd
  obtain ⟨h5, e5, rep5, len5, fr5⟩ := rebalance_spec key rep4 hnd4 hok
  have e3 : store h2 (some a) (fun n => { n with Left := some b }) = some _ := store_eq _ ea2
  have ea3 : deref (h2.set a (some
      { Key := k, Value := v, Left := some b, Right := r.rightSlot s, isThreaded := r.isNil,
        Height := ht })) (some a) = _ := deref_set_eq _ (by simpa [len2] using hla)
  have e4 := updateHeight_eq ea3 (getHeight_root (hl3 _))
    (by rw [actualRight_rep]; exact getHeight_root (hr3 _))
  simp only [H_node] at e4
  refine ⟨h5, ?_, rep5, ?_, ?_, ?_⟩
  · simp only [eb, Option.bind_eq_bind, Option.some_bind]
    cases hlr : lr.isNil
    · simp only [hlr, Bool.false_eq_true, if_false, Option.some.injEq] at e2 ⊢
      subst e2
      simp only [e3, e4, Option.some_bind]
      rw [show rebalance _ (some a) key = _ from e5]
      rfl
    · simp only [hlr, if_true] at e2 ⊢
      simp only [e2, e3, e4, Option.some_bind]
      rw [show rebalance _ (some a) key = _ from e5]
      rfl
  · simp [len5, len2]
  · intro c hc
    have hca : c ≠ a := by
      rintro rfl
      exact hc (by simp [addrs])
    have hcb : c ≠ b := by
      rintro rfl
      exact hc (by simp [addrs])
    rw [fr5 c hc, deref_set_ne _ (Ne.symm hca), deref_set_ne _ (Ne.symm hca), fr2 c hcb]
  · intro es epl eht bal
    subst es epl
    have e21 := same2 rfl
    subst e21
    have c1 : ¬ lh - H r > 1 := by omega
    have c2 : ¬ lh - H r < -1 := by omega
    have := rebalance_noop key rep4 c1 c2
    rw [show rebalance _ (some a) key = _ from e5] at this
    simp only [Option.some.injEq, Prod.mk.injEq] at this
    have eh : 1 + _max lh (H r) = ht := by rw [_max_eq]; exact eht.symm
    rw [this.1, eh, set_self ea, set_self ea]

theorem _insert_right {h1 : Heap} {a b : Nat} {l rl rr : Tree} {rk rv rh k v ht : Int}
    {s s1 pr : Ptr} {thr : Bool} (key : Int) (size : Int)
    (ea : deref h1 (some a) = some
      { Key := k, Value := v, Left := l.root, Right := pr, isThreaded := thr, Height := ht })
    (rep1 : Rep h1 (.node b rl rk rv rh rr) s1)
    (hcase : (thr = true ∧ pr = s ∧ rr = .nil) ∨ (thr = false ∧ s1 = s))
    (hl : Rep h1 l (some a))
    (hnd : (Tree.addrs (.node a l k v ht (.node b rl rk rv rh rr))).Nodup)
    (hok : RotOk key (mk a l k v (.node b rl rk rv rh rr))) :
    ∃ h', (do
        let n ← deref h1 (some a)
        let h ← if n.isThreaded then do
            let h ← store h1 (some b) (fun i => { i with Right := n.Right })
            let h ← store h (some a) (fun n => { n with isThreaded := false })
            store h (some b) (fun i => { i with isThreaded := true })
          else some h1
        let h ← store h (some a) (fun n => { n with Right := some b })
        let h ← updateHeight h (some a)
        let (h, p) ← rebalance h (some a) key
        some (h, size, p)) =
          some (h', size, (rebal key (mk a l k v (.node b rl rk rv rh rr))).root)
      ∧ Rep h' (rebal key (mk a l k v (.node b rl rk rv rh rr))) s
      ∧ h'.length = h1.length
      ∧ (∀ c, c ∉ Tree.addrs (.node a l k v ht (.node b rl rk rv rh rr)) →
          deref h' (some c) = deref h1 (some c))
      ∧ (thr = false → pr = some b → ht = 1 + max (H l) rh →
          (H l - rh ≤ 1 ∧ rh - H l ≤ 1) → h' = h1) := by
  obtain ⟨hndl, hndr, hal, har, hdis⟩ := nodup_node hnd
  have hab : ¬ a = b := fun e => har (by simp [addrs, e])
  have hba : ¬ b = a := fun e => hab e.symm
  have eb := rep1.1
  have hla := deref_some_lt ea
  have hlb := deref_some_lt eb
  -- the store after the conditional hand-over of the thread
  obtain ⟨h2, e2, rep2, len2, fr2, ea2, same2⟩ : ∃ h2,
      (if thr then do
            let h ← store h1 (some b) (fun i => { i with Right := pr })
            let h ← store h (some a) (fun n => { n with isThreaded := false })
            store h (some b) (fun i => { i with isThreaded := true })
          else some h1) = some h2
      ∧ Rep h2 (.node b rl rk rv rh rr) s ∧ h2.length = h1.length
      ∧ (∀ c, c ≠ b → c ≠ a → deref h2 (some c) = deref h1 (some c))
      ∧ deref h2 (some a) = some
          { Key := k, Value := v, Left := l.root, Right := pr, isThreaded := false,
            Height := ht }
      ∧ (thr = false → h2 = h1) := by
    rcases hcase with ⟨rfl, rfl, rfl⟩ | ⟨rfl, rfl⟩
    · obtain ⟨-, hrl, -⟩ := rep1
      have hbrl : b ∉ rl.addrs := (nodup_node hndr).2.2.1
      have harl : a ∉ rl.addrs := fun hm => har (by simp [addrs, hm])
      simp only [rightSlot_nil, isNil_nil] at eb
      refine ⟨((h1.set b (some
          { Key := rk, Value := rv, Left := rl.root, Right := pr, isThreaded := true,
            Height := rh })).set a (some
          { Key := k, Value := v, Left := l.root, Right := pr, isThreaded := false,
            Height := ht })).set b (some
          { Key := rk, Value := rv, Left := rl.root, Right := pr, isThreaded := true,
            Height := rh }), ?_, ⟨?_, ?_, trivial⟩, ?_, ?_, ?_, ?_⟩
      · simp only [if_true, Option.bind_eq_bind, store_def, eb, Option.map_some',
          Option.some_bind, deref_set, hab, hba, false_and, if_false, ea, hla, hlb, and_self,
          List.length_set]
      · simp [deref_set, hla, hlb, hab, hba]
      · exact Rep_set _ (Rep_set _ (Rep_set _ hrl hbrl) harl) hbrl
      · simp
      · intro c hcb hca
        simp [deref_set, Ne.symm hca, Ne.symm hcb]
      · simp [deref_set, hla, hlb, hab, hba]
      · intro e; cases e
    · exact ⟨h1, by simp, rep1, rfl, fun _ _ _ => rfl, ea, fun _ => rfl⟩
  have hl2 : Rep h2 l (some a) := Rep_frame l _ hl (fun x hx => fr2 x
    (by rintro rfl; exact hdis x hx (by simp [addrs]))
    (by rintro rfl; exact hal hx))
  have hl3 : ∀ x, Rep (h2.set a x) l (some a) := fun x => Rep_set x hl2 hal
  have hr3 : ∀ x, Rep (h2.set a x) (.node b rl rk rv rh rr) s := fun x => Rep_set x rep2 har
  have hla2 : a < h2.length := by simpa [len2] using hla
  have rep4 : Rep ((h2.set a (some
      { Key := k, Value := v, Left := l.root, Right := some b, isThreaded := false,
        Height := ht })).set a (some
      { Key := k, Value := v, Left := l.root, Right := some b, isThreaded := false,
        Height := 1 + _max (H l) rh }))
      (.node a l k v (1 + _max (H l) rh) (.node b rl rk rv rh rr)) s := by
    refine ⟨?_, Rep_set _ (hl3 _) hal, Rep_set _ (hr3 _) har⟩
    rw [deref_set_eq _ (by simpa using hla2)]
    rfl
  have hnd4 : (Tree.addrs (.node a l k v (1 + _max (H l) rh) (.node b rl rk rv rh rr))).Nodup :=
    hnd
  obtain ⟨h5, e5, rep5, len5, fr5⟩ := rebalance_spec key rep4 hnd4 hok
  have e3 : store h2 (some a) (fun n => { n with Right := some b }) = some _ := store_eq _ ea2
  have ea3 : deref (h2.set a (some
      { Key := k, Value := v, Left := l.root, Right := some b, isThreaded := false,
        Height := ht })) (some a) = _ := deref_set_eq _ hla2
  have e4 := updateHeight_eq ea3 (getHeight_root (hl3 _))
    (by rw [actualRight_false]; exact getHeight_root (hr3 _))
  simp only [H_node] at e4
  refine ⟨h5, ?_, rep5, ?_, ?_, ?_⟩
  · simp only [ea, Option.bind_eq_bind, Option.some_bind]
    cases hthr : thr
    · simp only [hthr, Bool.false_eq_true, if_false, Option.some.injEq] at e2 ⊢
      subst e2
      simp only [e3, e4, Option.some_bind]
      rw [show rebalance _ (some a) key = _ from e5]
      rfl
    · simp only [hthr, if_true, Option.bind_eq_bind] at e2 ⊢
      obtain ⟨x1, hx1, e2'⟩ := Option.bind_eq_some.1 e2
      obtain ⟨x2, hx2, hx3⟩ := Option.bind_eq_some.1 e2'
      simp only [hx1, hx2, hx3, e3, e4, Option.some_bind]
      rw [show rebalance _ (some a) key = _ from e5]
      rfl
  · simp [len5, len2]
  · intro c hc
    have hca : c ≠ a := by
      rintro rfl
      exact hc (by simp [addrs])
    have hcb : c ≠ b := by
      rintro rfl
      exact hc (by simp [addrs])
    rw [fr5 c hc, deref_set_ne _ (Ne.symm hca), deref_set_ne _ (Ne.symm hca), fr2 c hcb hca]
  · intro es epr eht bal
    subst es epr
    have e21 := same2 rfl
    subst e21
    have c1 : ¬ H l - rh > 1 := by omega
    have c2 : ¬ H l - rh < -1 := by omega
    have := rebalance_noop key rep4 c1 c2
    rw [show rebalance _ (some a) key = _ from e5] at this
    simp only [Option.some.injEq, Prod.mk.injEq] at this
    have eh : 1 + _max (H l) rh = ht := by rw [_max_eq]; exact eht.symm
    rw [this.1, eh, set_self ea, set_self ea]

theorem nodup_node_intro {a : Nat} {l r : Tree} {k v ht : Int}
    (h1 : l.addrs.Nodup) (h2 : r.addrs.Nodup) (h3 : a ∉ l.addrs) (h4 : a ∉ r.addrs)
    (h5 : ∀ x ∈ l.addrs, x ∉ r.addrs) : (Tree.addrs (.node a l k v ht r)).Nodup := by
  simp only [addrs, List.nodup_append, List.nodup_cons, List.disjoint_cons_right]
  exact ⟨h1, ⟨h4, h2⟩, h3, fun x hx hx' => h5 x hx hx'⟩

theorem _insert_spec (key value : Int) : ∀ (t : Tree) (fuel : Nat) (h : Heap) (sz : Int)
    (s : Ptr), Rep h t s → BST t → HOk t → Bal t → t.depth < fuel →
    ∃ h', _insert fuel h sz t.root key value =
        some (h', (if key ∈ t.keys then sz else sz + 1), (ins h.length key value t).root)
      ∧ Rep h' (ins h.length key value t) (if t.isNil then none else s)
      ∧ h'.length = (if key ∈ t.keys then h.length else h.length + 1)
      ∧ (∀ c, c ∉ t.addrs → c < h.length → deref h' (some c) = deref h (some c))
      ∧ (key ∈ t.keys → h' = h) := by
  intro t
  induction t with
  | nil =>
    intro fuel h sz s _ _ _ _ hf
    cases fuel with
    | zero => simp [depth] at hf
    | succ f =>
      refine ⟨h ++ [some
        { Key := key, Value := value, Left := none, Right := none,
          isThreaded := true, Height := 0 }], ?_, ?_, ?_, ?_, ?_⟩
      · simp [_insert, alloc, keys, ins]
      · refine ⟨?_, trivial, trivial⟩
        rw [deref_append_new]
        rfl
      · simp [keys]
      · intro c _ hc
        exact deref_append_lt _ _ hc
      · intro hm
        simp [keys] at hm
  | node a l k v ht r ihl ihr =>
    intro fuel h sz s hrep hbst hok hbal hf
    cases fuel with
    | zero => simp [depth] at hf
    | succ f =>
      obtain ⟨dl, dr⟩ := depth_node_lt hf
      obtain ⟨ea, hl, hr⟩ := hrep
      obtain ⟨bstl, bstr, hk1, hk2⟩ := BST_node.1 hbst
      obtain ⟨eht, hokl, hokr⟩ := hok
      obtain ⟨bb, ball, balr⟩ := hbal
      have hnd := Rep_nodup _ _ (show Rep h (.node a l k v ht r) s from ⟨ea, hl, hr⟩) hbst
      obtain ⟨hndl, hndr, hal, har, hdis⟩ := nodup_node hnd
      have hla := deref_some_lt ea
      by_cases c1 : key < k
      · have hmem : key ∈ (Tree.node a l k v ht r).keys ↔ key ∈ l.keys := by
          simp only [keys, List.mem_append, List.mem_cons]
          constructor
          · rintro (h | h | h)
            · exact h
            · omega
            · have := hk2 _ h; omega
          · exact fun h => Or.inl h
        obtain ⟨h1, e1, rep1, len1, fr1, same1⟩ := ihl f h sz (some a) hl bstl hokl ball dl
        obtain ⟨b, ll, lk, lv, lh, lr, el'⟩ := ins_is_node h.length key value l
        have hsub : ∀ x ∈ (ins h.length key value l).addrs, x ≠ a ∧ x ∉ r.addrs := by
          intro x hx
          rcases mem_addrs_ins _ _ _ _ _ hx with rfl | hx'
          · exact ⟨by omega, fun hm => absurd (Rep_addr_lt hr hm) (by omega)⟩
          · exact ⟨fun e => hal (e ▸ hx'), hdis x hx'⟩
        have hnd1 : (Tree.addrs (.node a (ins h.length key value l) k v ht r)).Nodup :=
          nodup_node_intro (Rep_nodup _ _ rep1 (BST_ins _ _ _ _ bstl)) hndr
            (fun hm => (hsub a hm).1 rfl) har (fun x hx => (hsub x hx).2)
        have hok1 := rotOk_left h.length key value (a := a) (k := k) (v := v) hokl ball hokr bb
        have hs1 : (if l.isNil then none else some a) = some a ∨ lr = .nil := by
          cases l with
          | nil =>
            right
            simp only [ins, Tree.node.injEq] at el'
            exact el'.2.2.2.2.2.symm
          | node => left; rfl
        have hr1 : Rep h1 r s := Rep_frame r s hr (fun x hx =>
          fr1 x (fun hm => hdis x hm hx) (Rep_addr_lt hr hx))
        have ea1 := (fr1 a hal hla).trans ea
        rw [el'] at e1 rep1 hnd1 hok1 hsub
        obtain ⟨h5, e5, rep5, len5, fr5, same5⟩ :=
          _insert_left key (if key ∈ l.keys then sz else sz + 1) ea1 rep1 hs1 hr1 hnd1 hok1
        have eins : ins h.length key value (.node a l k v ht r) =
            rebal key (mk a (.node b ll lk lv lh lr) k v r) := by
          simp only [ins, c1, if_true, el']
        rw [eins]
        refine ⟨h5, ?_, rep5, ?_, ?_, ?_⟩
        · simp only [_insert, root_node, ea, Option.bind_eq_bind, Option.some_bind, c1, if_true,
            _getActualLeft, e1, hmem]
          exact e5
        · rw [len5, len1]; simp only [hmem]
        · intro c hc hcl
          simp only [addrs, List.mem_append, List.mem_cons, not_or] at hc
          rw [fr5 c, fr1 c hc.1 hcl]
          show c ∉ (Tree.addrs (.node b ll lk lv lh lr)) ++ a :: r.addrs
          rw [List.mem_append, List.mem_cons]
          rintro (hm | hm | hm)
          · have hm' : c ∈ (ins h.length key value l).addrs := by rw [el']; exact hm
            rcases mem_addrs_ins _ _ _ _ _ hm' with rfl | hx'
            · omega
            · exact hc.1 hx'
          · exact hc.2.1 hm
          · exact hc.2.2 hm
        · intro hm
          have hml := hmem.1 hm
          have e := same1 hml
          subst e
          have el := ins_mem h1.length key value l bstl hokl ball hml
          rw [el] at el'
          subst el'
          exact same5 rfl rfl eht bb
      · by_cases c2 : key > k
        · have hmem : key ∈ (Tree.node a l k v ht r).keys ↔ key ∈ r.keys := by
            simp only [keys, List.mem_append, List.mem_cons]
            constructor
            · rintro (h | h | h)
              · have := hk1 _ h; omega
              · omega
              · exact h
            · exact fun h => Or.inr (Or.inr h)
          obtain ⟨h1, e1, rep1, len1, fr1, same1⟩ := ihr f h sz s hr bstr hokr balr dr
          obtain ⟨b, rl, rk, rv, rh, rr, er'⟩ := ins_is_node h.length key value r
          have hsub : ∀ x ∈ (ins h.length key value r).addrs, x ≠ a ∧ x ∉ l.addrs := by
            intro x hx
            rcases mem_addrs_ins _ _ _ _ _ hx with rfl | hx'
            · exact ⟨by omega, fun hm => absurd (Rep_addr_lt hl hm) (by omega)⟩
            · exact ⟨fun e => har (e ▸ hx'), fun hm => hdis x hm hx'⟩
          have hnd1 : (Tree.addrs (.node a l k v ht (ins h.length key value r))).Nodup :=
            nodup_node_intro hndl (Rep_nodup _ _ rep1 (BST_ins _ _ _ _ bstr))
              hal (fun hm => (hsub a hm).1 rfl) (fun x hx hx' => (hsub x hx').2 hx)
          have hok1 := rotOk_right h.length key value (a := a) (k := k) (v := v) hokl hokr balr bb
          have hcase : (r.isNil = true ∧ r.rightSlot s = s ∧ rr = .nil) ∨
              (r.isNil = false ∧ (if r.isNil then none else s) = s) := by
            cases r with
            | nil =>
              left
              simp only [ins, Tree.node.injEq] at er'
              exact ⟨rfl, rfl, er'.2.2.2.2.2.symm⟩
            | node => right; exact ⟨rfl, rfl⟩
          have hl1 : Rep h1 l (some a) := Rep_frame l _ hl (fun x hx =>
            fr1 x (hdis x hx) (Rep_addr_lt hl hx))
          have ea1 := (fr1 a har hla).trans ea
          rw [er'] at e1 rep1 hnd1 hok1 hsub
          obtain ⟨h5, e5, rep5, len5, fr5, same5⟩ :=
            _insert_right key (if key ∈ r.keys then sz else sz + 1) ea1 rep1 hcase hl1 hnd1 hok1
          have eins : ins h.length key value (.node a l k v ht r) =
              rebal key (mk a l k v (.node b rl rk rv rh rr)) := by
            simp only [ins, c1, if_false, c2, if_true, er']
          rw [eins]
          refine ⟨h5, ?_, rep5, ?_, ?_, ?_⟩
          · simp only [_insert, root_node, ea, Option.bind_eq_bind, Option.some_bind, c1,
              if_false, c2, if_true, actualRight_rep, e1, hmem]
            exact e5
          · rw [len5, len1]; simp only [hmem]
          · intro c hc hcl
            simp only [addrs, List.mem_append, List.mem_cons, not_or] at hc
            rw [fr5 c, fr1 c hc.2.2 hcl]
            show c ∉ l.addrs ++ a :: (Tree.addrs (.node b rl rk rv rh rr))
            rw [List.mem_append, List.mem_cons]
            rintro (hm | hm | hm)
            · exact hc.1 hm
            · exact hc.2.1 hm
            · have hm' : c ∈ (ins h.length key value r).addrs := by rw [er']; exact hm
              rcases mem_addrs_ins _ _ _ _ _ hm' with rfl | hx'
              · omega
              · exact hc.2.2 hx'
          · intro hm
            have hmr := hmem.1 hm
            have e := same1 hmr
            subst e
            have er := ins_mem h1.length key value r bstr hokr balr hmr
            rw [er] at er'
            subst er'
            exact same5 rfl rfl eht bb
        · have hk : key = k := by omega
          subst hk
          refine ⟨h, ?_, ?_, ?_, fun _ _ _ => rfl, fun _ => rfl⟩
          · simp [_insert, ea, keys, ins]
          · simp only [ins, c1, c2, if_false, isNil_node, Bool.false_eq_true]
            exact ⟨ea, hl, hr⟩
          · simp [keys]

theorem depth_le_length : ∀ t : Tree, t.depth ≤ t.addrs.length
  | .nil => by simp [depth]
  | .node _ l _ _ _ r => by
    have := depth_le_length l
    have := depth_le_length r
    simp only [depth, addrs, List.length_append, List.length_cons]
    omega

theorem length_le_of_nodup_lt {l : List Nat} {n : Nat} (hnd : l.Nodup)
    (hb : ∀ x ∈ l, x < n) : l.length ≤ n := by
  have hsub : l.toFinset ⊆ Finset.range n := by
    intro x hx
    rw [List.mem_toFinset] at hx
    exact Finset.mem_range.2 (hb x hx)
  have := Finset.card_le_card hsub
  rwa [List.toFinset_card_of_nodup hnd, Finset.card_range] at this

theorem depth_lt_fuel {h : Heap} {tr : Tree} {s : Ptr} (hrep : Rep h tr s) (hb : BST tr) :
    tr.depth < fuelOf h := by
  have h1 := depth_le_length tr
  have h2 := length_le_of_nodup_lt (Rep_nodup _ _ hrep hb) (fun x hx => Rep_addr_lt hrep hx)
  unfold fuelOf
  omega

theorem length_lt_fuel {h : Heap} {tr : Tree} {s : Ptr} (hrep : Rep h tr s) (hb : BST tr) :
    tr.addrs.length < fuelOf h := by
  have h2 := length_le_of_nodup_lt (Rep_nodup _ _ hrep hb) (fun x hx => Rep_addr_lt hrep hx)
  unfold fuelOf
  omega

theorem mem_addrs_ins_of_mem (f : Nat) (key value : Int) : ∀ (t : Tree) (x : Nat),
    x ∈ t.addrs → x ∈ (ins f key value t).addrs
  | .nil, x => by simp [addrs]
  | .node a l k v ht r, x => by
    unfold ins
    split
    · simp only [addrs_rebal, addrs_mk, List.mem_append, List.mem_cons, addrs]
      rintro (hx | hx | hx)
      · exact Or.inl (mem_addrs_ins_of_mem f key value l x hx)
      · exact Or.inr (Or.inl hx)
      · exact Or.inr (Or.inr hx)
    · split
      · simp only [addrs_rebal, addrs_mk, List.mem_append, List.mem_cons, addrs]
        rintro (hx | hx | hx)
        · exact Or.inl hx
        · exact Or.inr (Or.inl hx)
        · exact Or.inr (Or.inr (mem_addrs_ins_of_mem f key value r x hx))
      · exact fun hx => hx

theorem good_empty (h : Heap) : Good h empty .nil :=
  ⟨trivial, rfl, by simp [BST, keys], trivial, trivial, rfl, Or.inl rfl⟩

theorem length_keys_ins (f : Nat) (key value : Int) (t : Tree) (hm : key ∉ t.keys) :
    (ins f key value t).keys.length = t.keys.length + 1 := by
  rw [← length_addrs_eq_keys, ← length_addrs_eq_keys, length_addrs_ins f key value t hm]

theorem insert_good {h : Heap} {t : avlt} {tr : Tree} (key value : Int) (g : Good h t tr) :
    ∃ h' t', insert h t key value = some (h', t')
      ∧ Good h' t' (ins h.length key value tr)
      ∧ t'.Next = t.Next
      ∧ h'.length = (if key ∈ tr.keys then h.length else h.length + 1)
      ∧ (∀ c, c ∉ tr.addrs → c < h.length → deref h' (some c) = deref h (some c))
      ∧ (key ∈ tr.keys → h' = h ∧ t' = t) := by
  obtain ⟨h', e, rep', len', fr', same'⟩ :=
    _insert_spec key value tr (fuelOf h) h t.Size none g.rep g.bst g.hok g.bal
      (depth_lt_fuel g.rep g.bst)
  obtain ⟨hok', bal', -, -⟩ := ins_inv h.length key value tr g.hok g.bal
  refine ⟨h', { t with Root := (ins h.length key value tr).root,
                        Size := if key ∈ tr.keys then t.Size else t.Size + 1 }, ?_, ?_, rfl,
    len', fr', ?_⟩
  · simp only [insert, ← g.root, e, Option.bind_eq_bind, Option.some_bind]
  · refine ⟨?_, rfl, BST_ins _ _ _ _ g.bst, hok', bal', ?_, ?_⟩
    · simpa using rep'
    · by_cases hm : key ∈ tr.keys
      · simp only [hm, if_true, ins_mem h.length key value tr g.bst g.hok g.bal hm]
        exact g.size
      · simp only [hm, if_false, length_keys_ins _ _ _ _ hm, g.size]
        push_cast; ring
    · rcases g.next with hn | ⟨a, ha, hn⟩
      · exact Or.inl hn
      · exact Or.inr ⟨a, mem_addrs_ins_of_mem _ _ _ _ _ ha, hn⟩
  · intro hm
    refine ⟨same' hm, ?_⟩
    have e1 := ins_mem h.length key value tr g.bst g.hok g.bal hm
    cases t with
    | mk R S N =>
      simp only [hm, if_true, e1]
      have := g.root
      simp only at this
      rw [this]

@[simp] theorem headOr_nil (s : Ptr) : headOr [] s = s := rfl
@[simp] theorem headOr_cons (b : Nat) (l : List Nat) (s : Ptr) : headOr (b :: l) s = some b := rfl

theorem headOr_append (l1 l2 : List Nat) (s : Ptr) :
    headOr (l1 ++ l2) s = headOr l1 (headOr l2 s) := by
  cases l1 <;> rfl

theorem addrs_ne_nil {t : Tree} (hne : t ≠ .nil) : t.addrs ≠ [] := by
  cases t with
  | nil => exact absurd rfl hne
  | node a l k v ht r => simp [addrs]

theorem leftmost_spec : ∀ (tr : Tree) (fuel : Nat) (h : Heap) (s : Ptr), Rep h tr s →
    tr ≠ .nil → tr.depth ≤ fuel → leftmost fuel h tr.root = some (headOr tr.addrs none)
  | .nil, _, _, _, _, hne, _ => absurd rfl hne
  | .node a l k v ht r, fuel, h, s, hrep, _, hf => by
    obtain ⟨ea, hl, hr⟩ := hrep
    cases fuel with
    | zero => simp [depth] at hf
    | succ f =>
      simp only [depth] at hf
      simp only [leftmost, root_node, ea, Option.bind_eq_bind, Option.some_bind]
      cases l with
      | nil => simp [addrs]
      | node b ll lk lv lh lr =>
        have := leftmost_spec (.node b ll lk lv lh lr) f h (some a) hl (by simp) (by omega)
        simp only [root_node] at this ⊢
        rw [this]
        simp only [addrs, headOr_append, List.append_assoc]
        cases ll.addrs <;> rfl

theorem map_keyAt {h : Heap} : ∀ (tr : Tree) (s : Ptr), Rep h tr s →
    tr.addrs.map (keyAt h) = tr.keys
  | .nil, _, _ => rfl
  | .node a l k v ht r, s, ⟨ea, hl, hr⟩ => by
    simp only [addrs, keys, List.map_append, List.map_cons, map_keyAt l _ hl, map_keyAt r _ hr]
    simp [keyAt, ea]

theorem nextIn_append_left {l1 : List Nat} (l2 : List Nat) (s : Ptr) {a : Nat}
    (ha : a ∈ l1) : nextIn (l1 ++ l2) s a = nextIn l1 (headOr l2 s) a := by
  induction l1 with
  | nil => simp at ha
  | cons b l1 ih =>
    simp only [List.cons_append, nextIn]
    by_cases hb : b = a
    · simp only [hb, if_true]
      exact headOr_append _ _ _
    · simp only [hb, if_false]
      exact ih (by simpa [Ne.symm hb] using ha)

theorem nextIn_append_right {l1 : List Nat} (l2 : List Nat) (s : Ptr) {a : Nat}
    (ha : a ∉ l1) : nextIn (l1 ++ l2) s a = nextIn l2 s a := by
  induction l1 with
  | nil => rfl
  | cons b l1 ih =>
    simp only [List.mem_cons, not_or] at ha
    simp only [List.cons_append, nextIn, Ne.symm ha.1, if_false]
    exact ih ha.2

theorem nextIn_split {pre post : List Nat} {a : Nat} (s : Ptr)
    (hnd : (pre ++ a :: post).Nodup) : nextIn (pre ++ a :: post) s a = headOr post s := by
  have ha : a ∉ pre := fun hm => (List.nodup_append.1 hnd).2.2 hm (by simp)
  rw [nextIn_append_right _ _ ha]
  simp [nextIn]

/-- What the code finds at the node `a` of a represented tree: following `Right` (and
then the `Left` links, if `Right` is an owning link) leads to the node after `a` in
inorder. -/
theorem succ_spec : ∀ (tr : Tree) (fuel : Nat) (h : Heap) (s : Ptr), Rep h tr s →
    tr.addrs.Nodup → tr.depth ≤ fuel → ∀ a ∈ tr.addrs,
    ∃ n, deref h (some a) = some n ∧
      ((n.isThreaded = true ∧ n.Right = nextIn tr.addrs s a) ∨
       (n.isThreaded = false ∧ ∃ r, n.Right = some r ∧
          leftmost fuel h (some r) = some (nextIn tr.addrs s a) ∧
          ∃ c, nextIn tr.addrs s a = some c))
  | .nil, _, _, _, _, _, _, a, ha => by simp [addrs] at ha
  | .node b l k v ht r, fuel, h, s, hrep, hnd, hf, a, ha => by
    obtain ⟨eb, hl, hr⟩ := hrep
    obtain ⟨hndl, hndr, hbl, hbr, hdis⟩ := nodup_node hnd
    simp only [depth] at hf
    simp only [addrs, List.mem_append, List.mem_cons] at ha
    simp only [addrs]
    rcases ha with ha | ha | ha
    · rw [nextIn_append_left _ _ ha]
      exact succ_spec l fuel h (some b) hl hndl (by omega) a ha
    · subst ha
      rw [nextIn_append_right _ _ hbl]
      refine ⟨_, eb, ?_⟩
      simp only [nextIn, if_true]
      cases r with
      | nil => left; exact ⟨rfl, rfl⟩
      | node c rl rk rv rh rr =>
        right
        refine ⟨rfl, c, rfl, ?_, ?_⟩
        · have := leftmost_spec (.node c rl rk rv rh rr) fuel h s hr (by simp) (by omega)
          simp only [root_node] at this
          rw [this]
          simp only [addrs, headOr_append]
          cases rl.addrs <;> rfl
        · simp only [addrs, headOr_append]
          cases rl.addrs
          · exact ⟨c, rfl⟩
          · exact ⟨_, rfl⟩
    · have hal : a ∉ l.addrs := fun hm => hdis a hm ha
      have hab : ¬ b = a := fun e => hbr (e ▸ ha)
      rw [nextIn_append_right _ _ hal]
      simp only [nextIn, hab, if_false]
      exact succ_spec r fuel h s hr hndr (by omega) a ha

theorem headOr_mem {l : List Nat} {c : Nat} (e : headOr l none = some c) : c ∈ l := by
  cases l with
  | nil => simp at e
  | cons b l =>
    simp only [headOr_cons, Option.some.injEq] at e
    simp [e]

theorem good_next_headOr {h : Heap} {t : avlt} {tr : Tree} (g : Good h t tr)
    {pre post : List Nat} (e : tr.addrs = pre ++ post) :
    Good h { t with Next := headOr post none } tr := by
  refine ⟨g.rep, g.root, g.bst, g.hok, g.bal, g.size, ?_⟩
  cases post with
  | nil => exact Or.inl rfl
  | cons b post => exact Or.inr ⟨b, by simp [e], rfl⟩

theorem begin_spec {h : Heap} {t : avlt} {tr : Tree} (g : Good h t tr) :
    begin h t = some { t with Next := headOr tr.addrs none } := by
  have hroot := g.root
  cases tr with
  | nil =>
    simp only [root_nil] at hroot
    have hn : t.Next = none := by
      rcases g.next with hn | ⟨a, ha, -⟩
      · exact hn
      · simp [addrs] at ha
    cases t
    simp only at hn hroot
    subst hn hroot
    rfl
  | node a l k v ht r =>
    simp only [root_node] at hroot
    have := leftmost_spec (.node a l k v ht r) (fuelOf h) h none g.rep (by simp)
      (Nat.le_of_lt (depth_lt_fuel g.rep g.bst))
    simp only [root_node] at this
    simp only [begin, ← hroot, this, Option.bind_eq_bind, Option.some_bind]

theorem next_none {h : Heap} {t : avlt} (key : Int) (hn : t.Next = none) :
    next h t key = some (t, false, key) := by
  simp [next, hn]

theorem next_some {h : Heap} {t : avlt} {tr : Tree} (g : Good h t tr) (key : Int) {a : Nat}
    (hn : t.Next = some a) :
    next h t key = some ({ t with Next := nextIn tr.addrs none a }, true, keyAt h a) := by
  have ha : a ∈ tr.addrs := by
    rcases g.next with hn' | ⟨b, hb, hn'⟩
    · rw [hn] at hn'; cases hn'
    · rw [hn] at hn'; cases hn'; exact hb
  obtain ⟨n, en, hcase⟩ := succ_spec tr (fuelOf h) h none g.rep (Rep_nodup _ _ g.rep g.bst)
    (Nat.le_of_lt (depth_lt_fuel g.rep g.bst)) a ha
  simp only [next, hn, en, Option.bind_eq_bind, Option.some_bind, keyAt]
  rcases hcase with ⟨ht, hr⟩ | ⟨ht, r, hr, hlm, -⟩
  · simp only [ht, if_true, hr]
  · simp only [ht, Bool.false_eq_true, if_false, hr, hlm, Option.some_bind]

theorem drain_spec {h : Heap} {tr : Tree} : ∀ (post pre : List Nat) (t : avlt) (acc : List Int)
    (fuel : Nat), Good h t tr → tr.addrs = pre ++ post → t.Next = headOr post none →
    post.length < fuel →
    drain fuel h t acc = some (acc ++ post.map (keyAt h), { t with Next := none })
  | [], pre, t, acc, fuel, g, e, hn, hf => by
    cases fuel with
    | zero => simp at hf
    | succ f =>
      simp only [headOr_nil] at hn
      simp only [drain, next_none 0 hn, Option.bind_eq_bind, Option.some_bind,
        Bool.false_eq_true, if_false, List.map_nil, List.append_nil]
      cases t
      simp only at hn
      simp [hn]
  | a :: post, pre, t, acc, fuel, g, e, hn, hf => by
    cases fuel with
    | zero => simp at hf
    | succ f =>
      simp only [headOr_cons] at hn
      have hnd := Rep_nodup _ _ g.rep g.bst
      have hnx : nextIn tr.addrs none a = headOr post none := by
        rw [e]; rw [e] at hnd
        exact nextIn_split none hnd
      have e' : tr.addrs = (pre ++ [a]) ++ post := by simp [e]
      have g' := good_next_headOr g e'
      have := drain_spec post (pre ++ [a]) { t with Next := headOr post none }
        (acc ++ [keyAt h a]) f g' e' rfl (by simpa using hf)
      simp only [drain, next_some g 0 hn, hnx, Option.bind_eq_bind, Option.some_bind, if_true,
        this]
      simp

/-! ## `_free` and `clear` -/

theorem _free_spec : ∀ (tr : Tree) (fuel : Nat) (h : Heap) (s : Ptr), Rep h tr s →
    tr.addrs.Nodup → tr.depth < fuel →
    ∃ h', _free fuel h tr.root = some h' ∧ h'.length = h.length
      ∧ (∀ c, c ∉ tr.addrs → deref h' (some c) = deref h (some c))
      ∧ (∀ c, c ∈ tr.addrs → deref h' (some c) = none)
  | .nil, fuel, h, _, _, _, hf => by
    cases fuel with
    | zero => simp [depth] at hf
    | succ f => exact ⟨h, rfl, rfl, fun _ _ => rfl, fun c hc => by simp [addrs] at hc⟩
  | .node a l k v ht r, fuel, h, s, hrep, hnd, hf => by
    cases fuel with
    | zero => simp [depth] at hf
    | succ f =>
      obtain ⟨dl, dr⟩ := depth_node_lt hf
      obtain ⟨ea, hl, hr⟩ := hrep
      obtain ⟨hndl, hndr, hal, har, hdis⟩ := nodup_node hnd
      obtain ⟨h1, e1, len1, fr1, gone1⟩ := _free_spec r f h s hr hndr dr
      have ea1 := (fr1 a har).trans ea
      have hl1 : Rep h1 l (some a) := Rep_frame l _ hl (fun x hx => fr1 x (hdis x hx))
      obtain ⟨h2, e2, len2, fr2, gone2⟩ := _free_spec l f h1 (some a) hl1 hndl dl
      have ea2 := (fr2 a hal).trans ea1
      have hla2 := deref_some_lt ea2
      refine ⟨h2.set a none, ?_, ?_, ?_, ?_⟩
      · have ea2' := ea2
        simp only [deref] at ea2'
        simp only [_free, root_node, ea, Option.bind_eq_bind, Option.some_bind, actualRight_rep,
          e1, ea1, _getActualLeft, e2, dealloc, ea2']
      · simp [len2, len1]
      · intro c hc
        simp only [addrs, List.mem_append, List.mem_cons, not_or] at hc
        rw [deref_set_ne _ (Ne.symm hc.2.1), fr2 c hc.1, fr1 c hc.2.2]
      · intro c hc
        simp only [addrs, List.mem_append, List.mem_cons] at hc
        by_cases hca : a = c
        · subst hca
          exact deref_set_eq _ hla2
        · rw [deref_set_ne _ hca]
          rcases hc with hc | hc | hc
          · exact gone2 c hc
          · exact absurd hc.symm hca
          · rw [fr2 c (fun hm => hdis c hm hc)]
            exact gone1 c hc

theorem clear_spec {h : Heap} {t : avlt} {tr : Tree} (g : Good h t tr) :
    ∃ h', clear h t = some (h', empty) ∧ Good h' empty .nil ∧ h'.length = h.length
      ∧ (∀ c, c ∉ tr.addrs → deref h' (some c) = deref h (some c))
      ∧ (∀ c, c ∈ tr.addrs → deref h' (some c) = none) := by
  obtain ⟨h', e, len, fr, gone⟩ := _free_spec tr (fuelOf h) h none g.rep
    (Rep_nodup _ _ g.rep g.bst) (depth_lt_fuel g.rep g.bst)
  refine ⟨h', ?_, good_empty h', len, fr, gone⟩
  simp only [clear, ← g.root, e, Option.bind_eq_bind, Option.some_bind]
  rfl

theorem mem_bindings_ins (f : Nat) (key value : Int) : ∀ (t : Tree), key ∉ t.keys →
    ∀ kv : Int × Int, kv ∈ (ins f key value t).bindings ↔ kv = (key, value) ∨ kv ∈ t.bindings
  | .nil, _, kv => by simp [ins, bindings]
  | .node a l k v ht r, hm, kv => by
    simp only [keys, List.mem_append, List.mem_cons, not_or] at hm
    unfold ins
    split
    · simp only [bindings_rebal, bindings_mk, List.mem_append, List.mem_cons,
        mem_bindings_ins f key value l hm.1, bindings]
      tauto
    · split
      · simp only [bindings_rebal, bindings_mk, List.mem_append, List.mem_cons,
          mem_bindings_ins f key value r hm.2.2, bindings]
        tauto
      · exact absurd (by omega) hm.2.1

theorem agrees_keys {tr : Tree} {m : List (Int × Int)} (ha : Agrees tr m) (k : Int) :
    k ∈ tr.keys ↔ k ∈ m.map Prod.fst := by
  rw [keys_eq_map_bindings]
  simp only [List.mem_map]
  constructor
  · rintro ⟨kv, h1, h2⟩; exact ⟨kv, (ha kv).1 h1, h2⟩
  · rintro ⟨kv, h1, h2⟩; exact ⟨kv, (ha kv).2 h1, h2⟩

theorem agrees_nil : Agrees .nil [] := fun kv => by simp [bindings]

theorem within_refl (h : Heap) (tr : Tree) : Within h tr h tr :=
  ⟨le_refl _, fun _ hx => Or.inl hx, fun _ _ _ => rfl⟩

theorem step_good {s : Heap × avlt} {tr : Tree} {m : List (Int × Int)} (op : Op)
    (g : Good s.1 s.2 tr) (ha : Agrees tr m) :
    ∃ s' tr', step s op = some s' ∧ Good s'.1 s'.2 tr' ∧ Agrees tr' (applyOp m op)
      ∧ Within s.1 tr s'.1 tr' := by
  obtain ⟨h, t⟩ := s
  simp only at g
  cases op with
  | insert key value =>
    obtain ⟨h', t', e, g', -, len', fr', same'⟩ := insert_good key value g
    refine ⟨(h', t'), _, e, g', ?_, ?_, ?_, ?_⟩
    · by_cases hm : key ∈ tr.keys
      · have hm' := (agrees_keys ha key).1 hm
        simp only [applyOp, hm', if_true, ins_mem h.length key value tr g.bst g.hok g.bal hm]
        exact ha
      · have hm' : key ∉ m.map Prod.fst := fun hc => hm ((agrees_keys ha key).2 hc)
        simp only [applyOp, hm', if_false]
        intro kv
        rw [mem_bindings_ins _ _ _ _ hm kv, ha kv]
        simp only [List.mem_append, List.mem_singleton]
        tauto
    · simp only [len']; split <;> omega
    · intro x hx
      rcases mem_addrs_ins _ _ _ _ _ hx with rfl | hx'
      · exact Or.inr (le_refl _)
      · exact Or.inl hx'
    · intro c hc hnm
      exact fr' c hnm hc
  | begin =>
    refine ⟨(h, { t with Next := headOr tr.addrs none }), tr, ?_, ?_, ha, within_refl _ _⟩
    · simp only [step, begin_spec g, Option.map_some']
    · exact @good_next_headOr _ _ _ g [] _ rfl
  | next =>
    refine ⟨(h, { t with Next := match t.Next with
                                | none => none
                                | some a => nextIn tr.addrs none a }), tr, ?_, ?_, ha,
      within_refl _ _⟩
    · cases hn : t.Next with
      | none =>
        simp only [step, next_none 0 hn, Option.map_some']
        cases t
        simp only at hn
        simp [hn]
      | some a => simp only [step, next_some g 0 hn, Option.map_some']
    · refine ⟨g.rep, g.root, g.bst, g.hok, g.bal, g.size, ?_⟩
      cases hn : t.Next with
      | none => exact Or.inl rfl
      | some a =>
        have hmem : a ∈ tr.addrs := by
          rcases g.next with hn' | ⟨b, hb, hn'⟩
          · rw [hn] at hn'; cases hn'
          · rw [hn] at hn'; cases hn'; exact hb
        obtain ⟨pre, post, e⟩ := List.append_of_mem hmem
        have hnd := Rep_nodup _ _ g.rep g.bst
        have : nextIn tr.addrs none a = headOr post none := by
          rw [e]; rw [e] at hnd; exact nextIn_split none hnd
        simp only [this]
        cases post with
        | nil => exact Or.inl rfl
        | cons b post => exact Or.inr ⟨b, by simp [e], rfl⟩
  | clear =>
    obtain ⟨h', e, g', len, fr, -⟩ := clear_spec g
    exact ⟨(h', empty), .nil, e, g', agrees_nil,
      ⟨by simp [len], fun x hx => by simp [addrs] at hx, fun c _ hc => fr c hc⟩⟩

theorem within_trans {h0 h1 h2 : Heap} {tr0 tr1 tr2 : Tree}
    (w1 : Within h0 tr0 h1 tr1) (w2 : Within h1 tr1 h2 tr2) : Within h0 tr0 h2 tr2 := by
  obtain ⟨a1, b1, c1⟩ := w1
  obtain ⟨a2, b2, c2⟩ := w2
  refine ⟨le_trans a1 a2, ?_, ?_⟩
  · intro x hx
    rcases b2 x hx with h | h
    · exact b1 x h
    · exact Or.inr (le_trans a1 h)
  · intro c hc hnm
    rw [c2 c (lt_of_lt_of_le hc a1), c1 c hc hnm]
    intro hm
    rcases b1 c hm with h | h
    · exact hnm h
    · omega

theorem run_good : ∀ (ops : List Op) (s : Heap × avlt) (tr : Tree) (m : List (Int × Int)),
    Good s.1 s.2 tr → Agrees tr m →
    ∃ s' tr', runFrom s ops = some s' ∧ Good s'.1 s'.2 tr'
      ∧ Agrees tr' (contentsFrom m ops) ∧ Within s.1 tr s'.1 tr'
  | [], s, tr, m, g, ha => ⟨s, tr, rfl, g, ha, within_refl _ _⟩
  | op :: ops, s, tr, m, g, ha => by
    obtain ⟨s1, tr1, e1, g1, ha1, w1⟩ := step_good op g ha
    obtain ⟨s2, tr2, e2, g2, ha2, w2⟩ := run_good ops s1 tr1 (applyOp m op) g1 ha1
    refine ⟨s2, tr2, ?_, g2, ha2, ?_⟩
    · simp only [runFrom, e1, Option.some_bind, e2]
    · exact within_trans w1 w2

theorem mem_contents_keys : ∀ (ops : List Op) (m : List (Int × Int)), Op.clear ∉ ops →
    ∀ k : Int, k ∈ (contentsFrom m ops).map Prod.fst ↔
      k ∈ m.map Prod.fst ∨ ∃ v, Op.insert k v ∈ ops
  | [], m, _, k => by simp [contentsFrom]
  | op :: ops, m, hnc, k => by
    have hnc' : Op.clear ∉ ops := fun hm => hnc (List.mem_cons_of_mem _ hm)
    have ih := mem_contents_keys ops (applyOp m op) hnc' k
    have e : contentsFrom m (op :: ops) = contentsFrom (applyOp m op) ops := rfl
    rw [e, ih]
    cases op with
    | insert key value =>
      simp only [applyOp, List.mem_cons, Op.insert.injEq]
      by_cases hm : key ∈ m.map Prod.fst
      · simp only [hm, if_true]
        constructor
        · rintro (h | ⟨v, hv⟩)
          · exact Or.inl h
          · exact Or.inr ⟨v, Or.inr hv⟩
        · rintro (h | ⟨v, hv | hv⟩)
          · exact Or.inl h
          · exact Or.inl (hv.1 ▸ hm)
          · exact Or.inr ⟨v, hv⟩
      · simp only [hm, if_false, List.map_append, List.map_cons, List.map_nil, List.mem_append,
          List.mem_singleton]
        constructor
        · rintro ((h | h) | ⟨v, hv⟩)
          · exact Or.inl h
          · exact Or.inr ⟨value, Or.inl ⟨h, rfl⟩⟩
          · exact Or.inr ⟨v, Or.inr hv⟩
        · rintro (h | ⟨v, hv | hv⟩)
          · exact Or.inl (Or.inl h)
          · exact Or.inl (Or.inr hv.1)
          · exact Or.inr ⟨v, hv⟩
    | begin => simp [applyOp]
    | next => simp [applyOp]
    | clear => exact absurd (List.mem_cons_self _ _) hnc

theorem run_spec (ops : List Op) :
    ∃ s tr, run ops = some s ∧ Good s.1 s.2 tr ∧ Agrees tr (contentsFrom [] ops) := by
  obtain ⟨s, tr, e, g, ha, -⟩ := run_good ops ([], empty) .nil [] (good_empty []) agrees_nil
  exact ⟨s, tr, e, g, ha⟩

/-- The traversal `begin(); while (next(key)) ...` in a well-formed state. -/
theorem traverse_spec {h : Heap} {t : avlt} {tr : Tree} (g : Good h t tr) :
    begin h t = some { t with Next := headOr tr.addrs none } ∧
    drain (fuelOf h) h { t with Next := headOr tr.addrs none } [] =
      some (tr.keys, { t with Next := none }) := by
  refine ⟨begin_spec g, ?_⟩
  have g' := @good_next_headOr _ _ _ g [] _ rfl
  have := drain_spec tr.addrs [] _ [] (fuelOf h) g' rfl rfl (length_lt_fuel g.rep g.bst)
  rw [this, map_keyAt tr none g.rep]
  rfl

/-- C1: after any sequence of `insert` calls on an empty tree, with `begin` and `next`
calls anywhere in between (so whatever the cursor was), `begin()` followed by `next()`
until it returns false yields the inserted keys in strictly ascending order, each once,
and `next()` goes on returning false. -/
theorem C1_begin_next_sorted (ops : List Op) (hnc : Op.clear ∉ ops) :
    ∃ h t t' keys t'', run ops = some (h, t) ∧ begin h t = some t' ∧
      drain (fuelOf h) h t' [] = some (keys, t'') ∧
      keys.Pairwise (· < ·) ∧
      (∀ k, k ∈ keys ↔ ∃ v, Op.insert k v ∈ ops) ∧
      next h t'' 0 = some (t'', false, 0) := by
  obtain ⟨⟨h, t⟩, tr, e, g, ha⟩ := run_spec ops
  obtain ⟨e1, e2⟩ := traverse_spec g
  refine ⟨h, t, _, _, _, e, e1, e2, g.bst, ?_, next_none 0 rfl⟩
  intro k
  rw [agrees_keys ha k, mem_contents_keys ops [] hnc k]
  simp

/-- C1 on the calls `insert(2,20); begin(); next(); insert(1,10); insert(2,30)`. -/
theorem C1_begin_next_sorted_witness :
    ∃ h t t' keys t'',
      run [Op.insert 2 20, Op.begin, Op.next, Op.insert 1 10, Op.insert 2 30] = some (h, t) ∧
      begin h t = some t' ∧
      drain (fuelOf h) h t' [] = some (keys, t'') ∧
      keys.Pairwise (· < ·) ∧
      (∀ k, k ∈ keys ↔
        ∃ v, Op.insert k v ∈ [Op.insert 2 20, Op.begin, Op.next, Op.insert 1 10, Op.insert 2 30]) ∧
      next h t'' 0 = some (t'', false, 0) :=
  C1_begin_next_sorted _ (by decide)

theorem keyAt_mem_keys {h : Heap} {tr : Tree} {s : Ptr} (hrep : Rep h tr s) {a : Nat}
    (ha : a ∈ tr.addrs) : keyAt h a ∈ tr.keys := by
  obtain ⟨n, e, hk⟩ := Rep_key_mem tr s hrep a ha
  simpa [keyAt, e] using hk

/-- Phase 1 of `range_search` ends on a node before which every key is below `lower`
(on `prev` as it was, if the tree is empty). -/
theorem descend_spec (lower : Int) : ∀ (tr : Tree) (fuel : Nat) (h : Heap) (s prev0 : Ptr),
    Rep h tr s → BST tr → tr.depth < fuel →
    ∃ cur prev flag, range_search_descend fuel h lower tr.root prev0 = some (cur, prev, flag)
      ∧ (tr = .nil → (if !flag then prev else cur) = prev0)
      ∧ (tr ≠ .nil → ∃ pre a post, tr.addrs = pre ++ a :: post
            ∧ (if !flag then prev else cur) = some a ∧ ∀ x ∈ pre, keyAt h x < lower)
  | .nil, fuel, h, s, prev0, _, _, hf => by
    cases fuel with
    | zero => simp [depth] at hf
    | succ f =>
      exact ⟨none, prev0, false, rfl, fun _ => rfl, fun hne => absurd rfl hne⟩
  | .node b l k v ht r, fuel, h, s, prev0, hrep, hbst, hf => by
    cases fuel with
    | zero => simp [depth] at hf
    | succ f =>
      obtain ⟨dl, dr⟩ := depth_node_lt hf
      obtain ⟨eb, hl, hr⟩ := hrep
      obtain ⟨bstl, bstr, hk1, hk2⟩ := BST_node.1 hbst
      have hkb : keyAt h b = k := by simp [keyAt, eb]
      have hlk : ∀ x ∈ l.addrs, keyAt h x < k := fun x hx => hk1 _ (keyAt_mem_keys hl hx)
      simp only [range_search_descend, root_node, eb, Option.bind_eq_bind, Option.some_bind,
        _getActualLeft, actualRight_rep]
      by_cases c1 : lower = k
      · subst c1
        refine ⟨some b, prev0, true, by simp, (fun hc => by cases hc), fun _ => ?_⟩
        exact ⟨l.addrs, b, r.addrs, rfl, rfl, hlk⟩
      · by_cases c2 : lower < k
        · obtain ⟨cur, prev, flag, e, h1, h2⟩ :=
            descend_spec lower l f h (some b) (some b) hl bstl dl
          refine ⟨cur, prev, flag, by simp only [c1, if_false, c2, if_true, e],
            (fun hc => by cases hc), fun _ => ?_⟩
          by_cases hn : l = .nil
          · subst hn
            exact ⟨[], b, r.addrs, rfl, h1 rfl, fun x hx => by simp at hx⟩
          · obtain ⟨pre, a, post, e1, e2, e3⟩ := h2 hn
            exact ⟨pre, a, post ++ b :: r.addrs, by simp [addrs, e1], e2, e3⟩
        · obtain ⟨cur, prev, flag, e, h1, h2⟩ :=
            descend_spec lower r f h s (some b) hr bstr dr
          refine ⟨cur, prev, flag, by simp only [c1, if_false, c2, e],
            (fun hc => by cases hc), fun _ => ?_⟩
          have hlt : k < lower := by omega
          by_cases hn : r = .nil
          · subst hn
            exact ⟨l.addrs, b, [], rfl, h1 rfl, fun x hx => lt_trans (hlk x hx) hlt⟩
          · obtain ⟨pre, a, post, e1, e2, e3⟩ := h2 hn
            refine ⟨l.addrs ++ b :: pre, a, post, by simp [addrs, e1], e2, ?_⟩
            intro x hx
            simp only [List.mem_append, List.mem_cons] at hx
            rcases hx with hx | hx | hx
            · exact lt_trans (hlk x hx) hlt
            · rw [hx, hkb]; exact hlt
            · exact e3 x hx

/-- Phase 2 of `range_search` from the node at the head of `post` appends the keys of
`post` that lie in `[lower, upper]`. -/
theorem walk_spec {h : Heap} {tr : Tree} (hrep : Rep h tr none) (hbst : BST tr)
    (lower upper : Int) : ∀ (post pre : List Nat) (keys : List Int) (fuel : Nat),
    tr.addrs = pre ++ post → post.length < fuel →
    range_search_walk fuel h lower upper (headOr post none) keys =
      some (keys ++ (post.map (keyAt h)).filter (fun k => lower ≤ k ∧ k ≤ upper))
  | [], pre, keys, fuel, _, hf => by
    cases fuel with
    | zero => simp at hf
    | succ f => simp [range_search_walk]
  | a :: post, pre, keys, fuel, e, hf => by
    cases fuel with
    | zero => simp at hf
    | succ f =>
      have hnd := Rep_nodup _ _ hrep hbst
      have ha : a ∈ tr.addrs := by simp [e]
      obtain ⟨n, en, hcase⟩ := succ_spec tr (fuelOf h) h none hrep hnd
        (Nat.le_of_lt (depth_lt_fuel hrep hbst)) a ha
      have hnx : nextIn tr.addrs none a = headOr post none := by
        rw [e]; rw [e] at hnd
        exact nextIn_split none hnd
      have hka : keyAt h a = n.Key := by simp [keyAt, en]
      have e' : tr.addrs = (pre ++ [a]) ++ post := by simp [e]
      simp only [headOr_cons, range_search_walk, en, Option.bind_eq_bind, Option.some_bind,
        List.map_cons, hka]
      by_cases c1 : n.Key ≤ upper
      · have ih := fun keys => walk_spec hrep hbst lower upper post (pre ++ [a]) keys f e'
          (by simpa using hf)
        simp only [c1, if_true]
        have hfin : keys ++ (n.Key :: post.map (keyAt h)).filter (fun k => lower ≤ k ∧ k ≤ upper)
            = (if n.Key ≥ lower ∧ n.Key ≤ upper then keys ++ [n.Key] else keys) ++
              (post.map (keyAt h)).filter (fun k => lower ≤ k ∧ k ≤ upper) := by
          by_cases c2 : lower ≤ n.Key
          · simp [c1, c2, List.filter_cons]
          · simp [c1, c2, List.filter_cons]
        rw [hfin, ← ih]
        rcases hcase with ⟨ht, hr⟩ | ⟨ht, r, hr, hlm, -⟩
        · simp only [ht, if_true, hr, hnx, c1, and_true]
        · simp only [ht, Bool.false_eq_true, if_false, hr, hlm, hnx, Option.some_bind, c1,
            and_true]
      · simp only [c1, if_false]
        -- every later key is larger still
        have hsorted : (tr.addrs.map (keyAt h)).Pairwise (· < ·) := by
          rw [map_keyAt tr none hrep]; exact hbst
        rw [e, List.map_append, List.map_cons, List.pairwise_append] at hsorted
        have hgt := (List.pairwise_cons.1 hsorted.2.1).1
        have : ((n.Key :: post.map (keyAt h)).filter (fun k => lower ≤ k ∧ k ≤ upper)) = [] := by
          rw [List.filter_eq_nil_iff]
          intro k hk
          simp only [List.mem_cons] at hk
          rcases hk with rfl | hk
          · simp [c1]
          · have := hgt k hk
            rw [hka] at this
            simp only [decide_eq_true_eq, not_and, not_le]
            intro _; omega
        rw [this]; simp

theorem not_clear_mem_inserts (kvs : List (Int × Int)) :
    Op.clear ∉ kvs.map fun kv => Op.insert kv.1 kv.2 := by
  simp

theorem buildIn_spec (h0 : Heap) (kvs : List (Int × Int)) :
    ∃ s tr, buildIn h0 kvs = some s ∧ Good s.1 s.2 tr
      ∧ Agrees tr (contentsFrom [] (kvs.map fun kv => Op.insert kv.1 kv.2))
      ∧ (∀ k, k ∈ tr.keys ↔ k ∈ kvs.map Prod.fst)
      ∧ Within h0 .nil s.1 tr ∧ s.2.Next = none := by
  obtain ⟨s, tr, e, g, ha, w⟩ := run_good (kvs.map fun kv => Op.insert kv.1 kv.2) (h0, empty)
    .nil [] (good_empty h0) agrees_nil
  refine ⟨s, tr, e, g, ha, ?_, w, ?_⟩
  · intro k
    rw [agrees_keys ha k, mem_contents_keys _ [] (not_clear_mem_inserts kvs) k]
    simp only [List.map_nil, List.not_mem_nil, false_or, List.mem_map, Op.insert.injEq,
      Prod.exists]
    constructor
    · rintro ⟨v, a, b, hm, rfl, rfl⟩
      exact ⟨a, b, hm, rfl⟩
    · rintro ⟨a, b, hm, rfl⟩
      exact ⟨b, a, b, hm, rfl, rfl⟩
  · -- `insert` never touches the cursor
    have : ∀ (ops : List Op) (s s' : Heap × avlt), (∀ op ∈ ops, ∃ k v, op = Op.insert k v) →
        runFrom s ops = some s' → s'.2.Next = s.2.Next := by
      intro ops
      induction ops with
      | nil =>
        intro s s' _ e
        simp only [runFrom, Option.some.injEq] at e
        rw [e]
      | cons op ops ih =>
        intro s s' hall e
        obtain ⟨k, v, rfl⟩ := hall _ (List.mem_cons_self _ _)
        simp only [runFrom] at e
        obtain ⟨s1, e1, e2⟩ := Option.bind_eq_some.1 e
        rw [ih s1 s' (fun op hop => hall op (List.mem_cons_of_mem _ hop)) e2]
        simp only [step, insert, Option.bind_eq_bind] at e1
        obtain ⟨x, -, e3⟩ := Option.bind_eq_some.1 e1
        simp only [Option.some.injEq] at e3
        rw [← e3]
    have hall : ∀ op ∈ kvs.map (fun kv => Op.insert kv.1 kv.2), ∃ k v, op = Op.insert k v := by
      intro op hop
      obtain ⟨kv, -, rfl⟩ := List.mem_map.1 hop
      exact ⟨_, _, rfl⟩
    exact this _ _ _ hall e

theorem build_spec (kvs : List (Int × Int)) :
    ∃ h t tr, build kvs = some (h, t) ∧ Good h t tr
      ∧ Agrees tr (contentsFrom [] (kvs.map fun kv => Op.insert kv.1 kv.2))
      ∧ (∀ k, k ∈ tr.keys ↔ k ∈ kvs.map Prod.fst) ∧ t.Next = none := by
  obtain ⟨⟨h, t⟩, tr, e, g, ha, hk, -, hn⟩ := buildIn_spec [] kvs
  exact ⟨h, t, tr, e, g, ha, hk, hn⟩

theorem range_search_spec {h : Heap} {t : avlt} {tr : Tree} (g : Good h t tr)
    (lower upper : Int) :
    range_search h t lower upper =
      some (tr.keys.filter (fun k => lower ≤ k ∧ k ≤ upper)) := by
  obtain ⟨cur, prev, flag, e, h1, h2⟩ := descend_spec lower tr (fuelOf h) h none none g.rep g.bst
    (depth_lt_fuel g.rep g.bst)
  simp only [range_search, ← g.root, e, Option.bind_eq_bind, Option.some_bind]
  by_cases hn : tr = .nil
  · subst hn
    rw [h1 rfl]
    simp [range_search_walk, fuelOf, keys]
  · obtain ⟨pre, a, post, e1, e2, e3⟩ := h2 hn
    rw [e2]
    have := walk_spec g.rep g.bst lower upper (a :: post) pre [] (fuelOf h) e1 (by
      have := length_lt_fuel g.rep g.bst
      rw [e1] at this
      simp only [List.length_append] at this
      omega)
    simp only [headOr_cons] at this
    rw [this, ← map_keyAt tr none g.rep, e1, List.map_append, List.filter_append]
    have hpre : (pre.map (keyAt h)).filter (fun k => lower ≤ k ∧ k ≤ upper) = [] := by
      rw [List.filter_eq_nil_iff]
      intro k hk
      obtain ⟨x, hx, rfl⟩ := List.mem_map.1 hk
      have := e3 x hx
      simp only [decide_eq_true_eq, not_and, not_le]
      intro _; omega
    rw [hpre]

/-- C2: on a tree built by inserts and for `lower <= upper`, `range_search` returns the
stored keys within `[lower, upper]`, strictly ascending (so without duplicates); the
result is the full `begin`/`next` traversal filtered to the range. -/
theorem C2_range_search (kvs : List (Int × Int)) (lower upper : Int) (_hle : lower ≤ upper) :
    ∃ h t res t' all t'', build kvs = some (h, t) ∧
      range_search h t lower upper = some res ∧
      res.Pairwise (· < ·) ∧
      (∀ k, k ∈ res ↔ (k ∈ kvs.map Prod.fst ∧ lower ≤ k ∧ k ≤ upper)) ∧
      begin h t = some t' ∧ drain (fuelOf h) h t' [] = some (all, t'') ∧
      res = all.filter (fun k => lower ≤ k ∧ k ≤ upper) := by
  obtain ⟨h, t, tr, e, g, -, hk, -⟩ := build_spec kvs
  obtain ⟨e1, e2⟩ := traverse_spec g
  refine ⟨h, t, _, _, _, _, e, range_search_spec g lower upper, ?_, ?_, e1, e2, rfl⟩
  · exact List.Pairwise.sublist (List.filter_sublist _) g.bst
  · intro k
    simp only [List.mem_filter, decide_eq_true_eq, hk k]

/-- C2 on the tree of Scenario C and the range `[26, 75]`. -/
theorem C2_range_search_witness :
    ∃ h t res t' all t'',
      build [(50, 1), (25, 2), (75, 3), (10, 4), (30, 5), (60, 6), (80, 7)] = some (h, t) ∧
      range_search h t 26 75 = some res ∧
      res.Pairwise (· < ·) ∧
      (∀ k, k ∈ res ↔
        (k ∈ [(50, 1), (25, 2), (75, 3), (10, 4), (30, 5), (60, 6), (80, 7)].map Prod.fst ∧
          (26 : Int) ≤ k ∧ k ≤ 75)) ∧
      begin h t = some t' ∧ drain (fuelOf h) h t' [] = some (all, t'') ∧
      res = all.filter (fun k => (26 : Int) ≤ k ∧ k ≤ 75) :=
  C2_range_search _ 26 75 (by decide)

/-- The embedding run on Scenario C: `range_search(26, 75)`. -/
theorem eval_range_search : (build [(50, 1), (25, 2), (75, 3), (10, 4), (30, 5), (60, 6), (80, 7)]).bind
    (fun s => range_search s.1 s.2 26 75) = some [30, 50, 60, 75] := by decide

theorem mem_bindings_fst {t : Tree} {k v : Int} (hm : (k, v) ∈ t.bindings) : k ∈ t.keys := by
  rw [keys_eq_map_bindings]
  exact List.mem_map.2 ⟨(k, v), hm, rfl⟩

/-- `_search` on a represented search tree finds the node of `key`, if there is one. -/
theorem _search_spec (key : Int) : ∀ (tr : Tree) (fuel : Nat) (h : Heap) (s : Ptr),
    Rep h tr s → BST tr → tr.depth < fuel →
    (key ∉ tr.keys ∧ _search fuel h tr.root key = some none) ∨
    (∃ a n, _search fuel h tr.root key = some (some a) ∧ a ∈ tr.addrs ∧
      deref h (some a) = some n ∧ n.Key = key ∧ (key, n.Value) ∈ tr.bindings)
  | .nil, fuel, h, s, _, _, hf => by
    cases fuel with
    | zero => simp [depth] at hf
    | succ f => exact Or.inl ⟨by simp [keys], rfl⟩
  | .node b l k v ht r, fuel, h, s, hrep, hbst, hf => by
    cases fuel with
    | zero => simp [depth] at hf
    | succ f =>
      obtain ⟨dl, dr⟩ := depth_node_lt hf
      obtain ⟨eb, hl, hr⟩ := hrep
      obtain ⟨bstl, bstr, hk1, hk2⟩ := BST_node.1 hbst
      simp only [_search, root_node, eb, Option.bind_eq_bind, Option.some_bind,
        _getActualLeft, actualRight_rep]
      by_cases c1 : k = key
      · subst c1
        right
        exact ⟨b, _, by simp, by simp [addrs], eb, rfl, by simp [bindings]⟩
      · by_cases c2 : k < key
        · simp only [c1, if_false, c2, if_true]
          rcases _search_spec key r f h s hr bstr dr with ⟨h1, h2⟩ | ⟨a, n, h1, h2, h3, h4, h5⟩
          · left
            refine ⟨?_, h2⟩
            simp only [keys, List.mem_append, List.mem_cons, not_or]
            exact ⟨fun hm => by have := hk1 _ hm; omega, fun e => c1 e.symm, h1⟩
          · right
            exact ⟨a, n, h1, by simp [addrs, h2], h3, h4, by simp [bindings, h5]⟩
        · simp only [c1, if_false, c2]
          rcases _search_spec key l f h (some b) hl bstl dl with
            ⟨h1, h2⟩ | ⟨a, n, h1, h2, h3, h4, h5⟩
          · left
            refine ⟨?_, h2⟩
            simp only [keys, List.mem_append, List.mem_cons, not_or]
            exact ⟨h1, fun e => c1 e.symm, fun hm => by have := hk2 _ hm; omega⟩
          · right
            exact ⟨a, n, h1, by simp [addrs, h2], h3, h4, by simp [bindings, h5]⟩

/-- In a search tree a key has one binding. -/
theorem bindings_unique : ∀ {t : Tree}, BST t → ∀ {k v v' : Int},
    (k, v) ∈ t.bindings → (k, v') ∈ t.bindings → v = v'
  | .nil, _, _, _, _, h1, _ => by simp [bindings] at h1
  | .node a l k0 v0 ht r, hb, k, v, v', h1, h2 => by
    obtain ⟨bstl, bstr, hk1, hk2⟩ := BST_node.1 hb
    simp only [bindings, List.mem_append, List.mem_cons, Prod.mk.injEq] at h1 h2
    have kl : ∀ {w}, (k, w) ∈ l.bindings → k < k0 := fun hm => hk1 _ (mem_bindings_fst hm)
    have kr : ∀ {w}, (k, w) ∈ r.bindings → k0 < k := fun hm => hk2 _ (mem_bindings_fst hm)
    rcases h1 with h1 | h1 | h1 <;> rcases h2 with h2 | h2 | h2
    · exact bindings_unique bstl h1 h2
    · have := kl h1; omega
    · have := kl h1; have := kr h2; omega
    · have := kl h2; omega
    · rw [h1.2, h2.2]
    · have := kr h2; omega
    · have := kl h2; have := kr h1; omega
    · have := kr h1; omega
    · exact bindings_unique bstr h1 h2

theorem search_spec {h : Heap} {t : avlt} {tr : Tree} (g : Good h t tr) (key value : Int) :
    (key ∉ tr.keys ∧ search h t key value = some (false, value)) ∨
    (∃ v, (key, v) ∈ tr.bindings ∧ search h t key value = some (true, v)) := by
  rcases _search_spec key tr (fuelOf h) h none g.rep g.bst (depth_lt_fuel g.rep g.bst) with
    ⟨h1, h2⟩ | ⟨a, n, h1, -, h3, -, h5⟩
  · left
    exact ⟨h1, by simp only [search, ← g.root, h2, Option.bind_eq_bind, Option.some_bind]⟩
  · right
    exact ⟨n.Value, h5, by
      simp only [search, ← g.root, h1, Option.bind_eq_bind, Option.some_bind, h3]⟩

/-- The bindings after a sequence of inserts: each key with the value of its first
insert. -/
theorem mem_contents_inserts : ∀ (kvs : List (Int × Int)) (m : List (Int × Int)) (k v : Int),
    (k, v) ∈ contentsFrom m (kvs.map fun kv => Op.insert kv.1 kv.2) ↔
      (k, v) ∈ m ∨ (k ∉ m.map Prod.fst ∧ kvs.lookup k = some v)
  | [], m, k, v => by simp [contentsFrom]
  | (k0, v0) :: kvs, m, k, v => by
    have e : contentsFrom m (((k0, v0) :: kvs).map fun kv => Op.insert kv.1 kv.2) =
        contentsFrom (applyOp m (Op.insert k0 v0)) (kvs.map fun kv => Op.insert kv.1 kv.2) := rfl
    rw [e, mem_contents_inserts kvs _ k v]
    simp only [applyOp, List.lookup_cons]
    by_cases hm : k0 ∈ m.map Prod.fst
    · simp only [hm, if_true]
      by_cases hk : k = k0
      · subst hk
        simp [hm]
      · have : (k == k0) = false := by simpa using hk
        simp only [this]
    · simp only [hm, if_false, List.mem_append, List.mem_singleton, Prod.mk.injEq,
        List.map_append, List.map_cons, List.map_nil, not_or]
      by_cases hk : k = k0
      · subst hk
        simp only [hm, not_false_eq_true, true_and, beq_self_eq_true, Option.some.injEq,
          not_true_eq_false, false_and, and_false, or_false]
        constructor
        · rintro (h | h)
          · exact Or.inl h
          · exact Or.inr h.symm
        · rintro (h | h)
          · exact Or.inl h
          · exact Or.inr h.symm
      · have : (k == k0) = false := by simpa using hk
        simp only [this, hk, false_and, or_false, not_false_eq_true, and_true]

theorem search_build (kvs : List (Int × Int)) (k value : Int) :
    ∃ h t, build kvs = some (h, t) ∧
      search h t k value = some
        (match kvs.lookup k with
         | some v => (true, v)
         | none => (false, value)) := by
  obtain ⟨h, t, tr, e, g, ha, hk, -⟩ := build_spec kvs
  refine ⟨h, t, e, ?_⟩
  rcases search_spec g k value with ⟨h1, h2⟩ | ⟨v, h1, h2⟩
  · have : kvs.lookup k = none := by
      cases hl : kvs.lookup k with
      | none => rfl
      | some v =>
        have := (mem_contents_inserts kvs [] k v).2 (Or.inr ⟨by simp, hl⟩)
        exact absurd (mem_bindings_fst ((ha (k, v)).2 this)) h1
    rw [h2, this]
  · have := (mem_contents_inserts kvs [] k v).1 ((ha (k, v)).1 h1)
    simp only [List.not_mem_nil, List.map_nil, not_false_eq_true, true_and, false_or] at this
    rw [h2, this]

/-- C3: after a sequence of inserts, `search(k)` returns true with the value of the first
insert of `k` if there is one, and else false with the output value untouched; and once
`k` is in the tree, whatever is inserted later (with the rotations that brings) leaves
the value found for `k` as it is. -/
theorem C3_search_first_insert (kvs : List (Int × Int)) (k value : Int) :
    ∃ h t, build kvs = some (h, t) ∧
      search h t k value = some
        (match kvs.lookup k with
         | some v => (true, v)
         | none => (false, value)) ∧
      ∀ more : List (Int × Int), k ∈ kvs.map Prod.fst →
        ∃ h' t', build (kvs ++ more) = some (h', t') ∧
          search h' t' k value = search h t k value := by
  obtain ⟨h, t, e, hs⟩ := search_build kvs k value
  refine ⟨h, t, e, hs, ?_⟩
  intro more hk
  obtain ⟨h', t', e', hs'⟩ := search_build (kvs ++ more) k value
  refine ⟨h', t', e', ?_⟩
  rw [hs, hs', List.lookup_append]
  cases hl : kvs.lookup k with
  | some v => rfl
  | none =>
    rw [List.lookup_eq_none_iff] at hl
    obtain ⟨kv, hkv, rfl⟩ := List.mem_map.1 hk
    have := hl kv hkv
    simp at this

/-- C4: inserting a key that is already in the tree, with any value, returns the store
and the tree object as they were: every node keeps its links, height, thread flag and
value, and `Root`, `Size` and the cursor are unchanged. -/
theorem C4_insert_existing (kvs : List (Int × Int)) (k v' : Int)
    (hk : k ∈ kvs.map Prod.fst) :
    ∃ h t, build kvs = some (h, t) ∧ insert h t k v' = some (h, t) := by
  obtain ⟨h, t, tr, e, g, -, hkeys, -⟩ := build_spec kvs
  obtain ⟨h', t', e', -, -, -, -, same⟩ := insert_good k v' g
  obtain ⟨rfl, rfl⟩ := same ((hkeys k).2 hk)
  exact ⟨h', t', e, e'⟩

/-- C4 on `insert(5,1); insert(3,2); insert(8,4); insert(9,5)` followed by `insert(8,77)`. -/
theorem C4_insert_existing_witness :
    ∃ h t, build [(5, 1), (3, 2), (8, 4), (9, 5)] = some (h, t) ∧
      insert h t 8 77 = some (h, t) :=
  C4_insert_existing _ 8 77 (by decide)

/-- The embedding run on inserts with repeated keys: `search(5)`. -/
theorem eval_search : (build [(5, 1), (3, 2), (5, 9), (8, 4), (9, 5), (3, 7)]).bind
    (fun s => search s.1 s.2 5 0) = some (true, 1) := by decide

theorem inorder_spec : ∀ (tr : Tree) (fuel : Nat) (h : Heap) (s : Ptr), Rep h tr s →
    tr.depth < fuel → inorder fuel h tr.root = some tr.addrs
  | .nil, fuel, h, s, _, hf => by
    cases fuel with
    | zero => simp [depth] at hf
    | succ f => rfl
  | .node b l k v ht r, fuel, h, s, hrep, hf => by
    cases fuel with
    | zero => simp [depth] at hf
    | succ f =>
      obtain ⟨dl, dr⟩ := depth_node_lt hf
      obtain ⟨eb, hl, hr⟩ := hrep
      simp only [inorder, root_node, eb, Option.bind_eq_bind, Option.some_bind, _getActualLeft,
        actualRight_rep, inorder_spec l f h _ hl dl, inorder_spec r f h _ hr dr, addrs]

theorem heightOf_spec : ∀ (tr : Tree) (fuel : Nat) (h : Heap) (s : Ptr), Rep h tr s →
    tr.depth < fuel → heightOf fuel h tr.root = some tr.realH
  | .nil, fuel, h, s, _, hf => by
    cases fuel with
    | zero => simp [depth] at hf
    | succ f => rfl
  | .node b l k v ht r, fuel, h, s, hrep, hf => by
    cases fuel with
    | zero => simp [depth] at hf
    | succ f =>
      obtain ⟨dl, dr⟩ := depth_node_lt hf
      obtain ⟨eb, hl, hr⟩ := hrep
      simp only [heightOf, root_node, eb, Option.bind_eq_bind, Option.some_bind, _getActualLeft,
        actualRight_rep, heightOf_spec l f h _ hl dl, heightOf_spec r f h _ hr dr, realH]

theorem H_eq_realH : ∀ {t : Tree}, HOk t → H t = realH t
  | .nil, _ => rfl
  | .node _ l _ _ _ r, ⟨e, hl, hr⟩ => by
    simp only [H_node, realH, e, H_eq_realH hl, H_eq_realH hr]

/-- Every node of a represented tree is the root of a represented subtree, which
inherits the invariants. -/
theorem node_spec {h : Heap} : ∀ (tr : Tree) (s : Ptr), Rep h tr s → BST tr → HOk tr → Bal tr →
    ∀ a ∈ tr.addrs, ∃ l k v ht r s', Rep h (.node a l k v ht r) s'
      ∧ BST (.node a l k v ht r) ∧ HOk (.node a l k v ht r) ∧ Bal (.node a l k v ht r)
      ∧ (Tree.node a l k v ht r).depth ≤ tr.depth
  | .nil, _, _, _, _, _, a, ha => by simp [addrs] at ha
  | .node b l k v ht r, s, hrep, hbst, hok, hbal, a, ha => by
    simp only [addrs, List.mem_append, List.mem_cons] at ha
    obtain ⟨bstl, bstr, -, -⟩ := BST_node.1 hbst
    rcases ha with ha | ha | ha
    · obtain ⟨l', k', v', ht', r', s', h1, h2, h3, h4, h5⟩ :=
        node_spec l _ hrep.2.1 bstl hok.2.1 hbal.2.1 a ha
      refine ⟨l', k', v', ht', r', s', h1, h2, h3, h4, ?_⟩
      simp only [depth] at h5 ⊢
      omega
    · subst ha
      exact ⟨l, k, v, ht, r, s, hrep, hbst, hok, hbal, le_refl _⟩
    · obtain ⟨l', k', v', ht', r', s', h1, h2, h3, h4, h5⟩ :=
        node_spec r _ hrep.2.2 bstr hok.2.2 hbal.2.2 a ha
      refine ⟨l', k', v', ht', r', s', h1, h2, h3, h4, ?_⟩
      simp only [depth] at h5 ⊢
      omega

/-- The heights around a node of a well-formed state. -/
theorem node_heights {h : Heap} {t : avlt} {tr : Tree} (g : Good h t tr) {a : Nat}
    (ha : a ∈ tr.addrs) :
    ∃ n hl hr, deref h (some a) = some n
      ∧ heightOf (fuelOf h) h (_getActualLeft n) = some hl
      ∧ heightOf (fuelOf h) h (_getActualRight n) = some hr
      ∧ hl - hr ≤ 1 ∧ hr - hl ≤ 1
      ∧ n.Height = 1 + max hl hr
      ∧ heightOf (fuelOf h) h (some a) = some n.Height := by
  obtain ⟨l, k, v, ht, r, s', hrep, -, hok, hbal, hd⟩ :=
    node_spec tr none g.rep g.bst g.hok g.bal a ha
  have hf := depth_lt_fuel g.rep g.bst
  have dl : l.depth < fuelOf h := by simp only [depth] at hd; omega
  have dr : r.depth < fuelOf h := by simp only [depth] at hd; omega
  have el := H_eq_realH hok.2.1
  have er := H_eq_realH hok.2.2
  refine ⟨_, l.realH, r.realH, hrep.1, ?_, ?_, ?_, ?_, ?_, ?_⟩
  · exact heightOf_spec l _ h _ hrep.2.1 dl
  · rw [actualRight_rep]; exact heightOf_spec r _ h _ hrep.2.2 dr
  · rw [← el, ← er]; exact hbal.1.1
  · rw [← el, ← er]; exact hbal.1.2
  · rw [← el, ← er]; exact hok.1
  · have := heightOf_spec (.node a l k v ht r) (fuelOf h) h s' hrep (by omega)
    simp only [root_node] at this
    rw [this, ← H_eq_realH hok]
    rfl

/-- C5: after any sequence of inserts, at every node owned by the root the heights of
the left subtree and of the actual right subtree (a threaded right slot counts as
absent, height `-1`) differ by at most one. -/
theorem C5_avl_balance (kvs : List (Int × Int)) :
    ∃ h t nodes, build kvs = some (h, t) ∧ inorder (fuelOf h) h t.Root = some nodes ∧
      ∀ a ∈ nodes, ∃ n hl hr, deref h (some a) = some n
        ∧ heightOf (fuelOf h) h (_getActualLeft n) = some hl
        ∧ heightOf (fuelOf h) h (_getActualRight n) = some hr
        ∧ hl - hr ≤ 1 ∧ hr - hl ≤ 1 := by
  obtain ⟨h, t, tr, e, g, -, -, -⟩ := build_spec kvs
  refine ⟨h, t, tr.addrs, e, ?_, ?_⟩
  · rw [← g.root]; exact inorder_spec tr _ h none g.rep (depth_lt_fuel g.rep g.bst)
  · intro a ha
    obtain ⟨n, hl, hr, h1, h2, h3, h4, h5, -, -⟩ := node_heights g ha
    exact ⟨n, hl, hr, h1, h2, h3, h4, h5⟩

theorem height_spec {h : Heap} {t : avlt} {tr : Tree} (g : Good h t tr) :
    height h t = some tr.realH ∧ heightOf (fuelOf h) h t.Root = some tr.realH := by
  have h2 := heightOf_spec tr (fuelOf h) h none g.rep (depth_lt_fuel g.rep g.bst)
  rw [g.root] at h2
  refine ⟨?_, h2⟩
  have hroot := g.root
  cases tr with
  | nil =>
    simp only [root_nil] at hroot
    cases t
    simp only at hroot
    subst hroot
    rfl
  | node a l k v ht r =>
    simp only [root_node] at hroot
    have := H_eq_realH g.hok
    simp only [H_node] at this
    cases t
    simp only at hroot
    subst hroot
    simp only [height, g.rep.1, Option.map_some']
    exact congrArg some this

theorem op_mod_spec {h : Heap} {t : avlt} {tr : Tree} (g : Good h t tr) {k : Int}
    (hk : k ∈ tr.keys) :
    ∃ a ∈ tr.addrs, keyAt h a = k ∧ op_mod h t k = heightOf (fuelOf h) h (some a) := by
  rcases _search_spec k tr (fuelOf h) h none g.rep g.bst (depth_lt_fuel g.rep g.bst) with
    ⟨h1, -⟩ | ⟨a, n, h1, h2, h3, h4, -⟩
  · exact absurd hk h1
  · obtain ⟨n', -, -, e1, -, -, -, -, -, e2⟩ := node_heights g h2
    rw [h3] at e1
    cases e1
    refine ⟨a, h2, by simp [keyAt, h3, h4], ?_⟩
    simp only [op_mod, ← g.root, h1, Option.bind_eq_bind, Option.some_bind, h3, e2,
      Option.map_some']

/-- C6: after any sequence of inserts, the `Height` field of every node is one more than
the larger of the heights of its left and actual right subtrees (absent or threaded
counts `-1`), which is the height of the subtree rooted there; `height()` returns the
height of the whole tree, `-1` for the empty one, and `operator%(k)` the height of the
subtree of the node holding `k`. -/
theorem C6_height_cache (kvs : List (Int × Int)) :
    ∃ h t nodes, build kvs = some (h, t) ∧ inorder (fuelOf h) h t.Root = some nodes ∧
      (∀ a ∈ nodes, ∃ n hl hr, deref h (some a) = some n
        ∧ heightOf (fuelOf h) h (_getActualLeft n) = some hl
        ∧ heightOf (fuelOf h) h (_getActualRight n) = some hr
        ∧ n.Height = 1 + max hl hr
        ∧ heightOf (fuelOf h) h (some a) = some n.Height) ∧
      height h t = heightOf (fuelOf h) h t.Root ∧
      (kvs = [] → height h t = some (-1)) ∧
      (∀ k ∈ kvs.map Prod.fst, ∃ a ∈ nodes, keyAt h a = k ∧
        op_mod h t k = heightOf (fuelOf h) h (some a)) := by
  obtain ⟨h, t, tr, e, g, -, hkeys, -⟩ := build_spec kvs
  obtain ⟨hh1, hh2⟩ := height_spec g
  refine ⟨h, t, tr.addrs, e, ?_, ?_, ?_, ?_, ?_⟩
  · rw [← g.root]; exact inorder_spec tr _ h none g.rep (depth_lt_fuel g.rep g.bst)
  · intro a ha
    obtain ⟨n, hl, hr, h1, h2, h3, -, -, h6, h7⟩ := node_heights g ha
    exact ⟨n, hl, hr, h1, h2, h3, h6, h7⟩
  · rw [hh1, hh2]
  · rintro rfl
    have hnil : tr = .nil := by
      cases tr with
      | nil => rfl
      | node a l k v ht r =>
        have := (hkeys k).1 (by simp [keys])
        simp at this
    subst hnil
    rw [hh1]; rfl
  · intro k hk
    exact op_mod_spec g ((hkeys k).2 hk)

theorem headOr_eq_head? (l : List Nat) : headOr l none = l.head? := by
  cases l <;> rfl

/-- The right slot of the node at `a`, with the nodes `post` after it in inorder. -/
theorem right_slot_spec {h : Heap} {t : avlt} {tr : Tree} (g : Good h t tr)
    {pre post : List Nat} {a : Nat} (e : tr.addrs = pre ++ a :: post) :
    ∃ n, deref h (some a) = some n
      ∧ (n.isThreaded = true ↔ _getActualRight n = none)
      ∧ (n.isThreaded = false → ∃ r, n.Right = some r ∧ n.Key < keyAt h r)
      ∧ (n.isThreaded = true → n.Right = post.head?)
      ∧ (n.Right = none ↔ post = []) := by
  have ha : a ∈ tr.addrs := by simp [e]
  have hnd := Rep_nodup _ _ g.rep g.bst
  obtain ⟨n, en, hcase⟩ := succ_spec tr (fuelOf h) h none g.rep hnd
    (Nat.le_of_lt (depth_lt_fuel g.rep g.bst)) a ha
  have hnx : nextIn tr.addrs none a = headOr post none := by
    rw [e]; rw [e] at hnd
    exact nextIn_split none hnd
  obtain ⟨l, k, v, ht, r, s', hrep, hbst, -, -, -⟩ :=
    node_spec tr none g.rep g.bst g.hok g.bal a ha
  have en' := hrep.1
  rw [en] at en'
  simp only [Option.some.injEq] at en'
  refine ⟨n, en, ?_, ?_, ?_, ?_⟩
  · rcases hcase with ⟨ht', -⟩ | ⟨ht', r', hr', -, -⟩
    · simp [_getActualRight, ht']
    · simp [_getActualRight, ht', hr']
  · intro hth
    subst en'
    cases r with
    | nil => simp at hth
    | node c rl rk rv rh rr =>
      refine ⟨c, rfl, ?_⟩
      obtain ⟨-, bstr, -, hk2⟩ := BST_node.1 hbst
      have : keyAt h c = rk := by simp [keyAt, hrep.2.2.1]
      rw [this]
      exact hk2 rk (by simp [keys])
  · intro hth
    rcases hcase with ⟨-, hr'⟩ | ⟨ht', -⟩
    · rw [hr', hnx, headOr_eq_head?]
    · rw [hth] at ht'; cases ht'
  · rcases hcase with ⟨-, hr'⟩ | ⟨-, r', hr', -, c, hc⟩
    · rw [hr', hnx]
      cases post <;> simp
    · rw [hr']
      rw [hnx] at hc
      cases post with
      | nil => simp at hc
      | cons b post => simp

/-- C7: after any sequence of inserts, with the nodes owned by the root listed in
inorder (their keys ascend strictly): a node is flagged `isThreaded` exactly when it has
no actual right child, and a node that is not flagged has a right child, of larger key;
the `Right` of a flagged node is the node that follows in inorder, which holds the
smallest key above its own; and `Right` is null exactly at the last node, which holds
the maximum key. -/
theorem C7_threading (kvs : List (Int × Int)) :
    ∃ h t nodes, build kvs = some (h, t) ∧ inorder (fuelOf h) h t.Root = some nodes ∧
      (nodes.map (keyAt h)).Pairwise (· < ·) ∧
      ∀ pre a post, nodes = pre ++ a :: post →
        ∃ n, deref h (some a) = some n
          ∧ (n.isThreaded = true ↔ _getActualRight n = none)
          ∧ (n.isThreaded = false → ∃ r, n.Right = some r ∧ n.Key < keyAt h r)
          ∧ (n.isThreaded = true → n.Right = post.head?)
          ∧ (n.Right = none ↔ post = []) := by
  obtain ⟨h, t, tr, e, g, -, -, -⟩ := build_spec kvs
  refine ⟨h, t, tr.addrs, e, ?_, ?_, ?_⟩
  · rw [← g.root]; exact inorder_spec tr _ h none g.rep (depth_lt_fuel g.rep g.bst)
  · rw [map_keyAt tr none g.rep]; exact g.bst
  · intro pre a post e'
    exact right_slot_spec g e'

/-- C8: after any sequence of inserts, `size()` is the number of distinct keys inserted,
and the number of nodes owned by the root. -/
theorem C8_size (kvs : List (Int × Int)) :
    ∃ h t nodes, build kvs = some (h, t) ∧ inorder (fuelOf h) h t.Root = some nodes ∧
      size t = ((kvs.map Prod.fst).dedup.length : Int) ∧
      size t = (nodes.length : Int) := by
  obtain ⟨h, t, tr, e, g, -, hkeys, -⟩ := build_spec kvs
  refine ⟨h, t, tr.addrs, e, ?_, ?_, ?_⟩
  · rw [← g.root]; exact inorder_spec tr _ h none g.rep (depth_lt_fuel g.rep g.bst)
  · have hnd : tr.keys.Nodup := by
      have : tr.keys.Pairwise (· < ·) := g.bst
      exact this.imp (fun hlt => ne_of_lt hlt)
    have e1 : tr.keys.toFinset = (kvs.map Prod.fst).toFinset := by
      ext k
      simp only [List.mem_toFinset]
      exact hkeys k
    have e2 := List.toFinset_card_of_nodup hnd
    rw [e1, List.card_toFinset] at e2
    simp only [size, g.size, e2]
  · simp only [size, g.size, length_addrs_eq_keys]

/-- The node holding the largest key is the last in inorder. -/
theorem max_is_last {h : Heap} {tr : Tree} (hrep : Rep h tr none) (hbst : BST tr)
    {pre post : List Nat} {a : Nat} (e : tr.addrs = pre ++ a :: post)
    (hmax : ∀ k' ∈ tr.keys, k' ≤ keyAt h a) : post = [] := by
  cases post with
  | nil => rfl
  | cons b post =>
    have hs : (tr.addrs.map (keyAt h)).Pairwise (· < ·) := by
      rw [map_keyAt tr none hrep]; exact hbst
    rw [e, List.map_append, List.map_cons, List.map_cons, List.pairwise_append] at hs
    have h1 := (List.pairwise_cons.1 hs.2.1).1 (keyAt h b) (by simp)
    have h2 := hmax (keyAt h b) (keyAt_mem_keys hrep (by simp [e]))
    omega

theorem op_call_spec {h : Heap} {t : avlt} {tr : Tree} (g : Good h t tr) (k : Int) :
    (k ∉ tr.keys → op_call h t k = some 0) ∧
    (k ∈ tr.keys → (∀ k' ∈ tr.keys, k' ≤ k) → op_call h t k = some 0) := by
  rcases _search_spec k tr (fuelOf h) h none g.rep g.bst (depth_lt_fuel g.rep g.bst) with
    ⟨h1, h2⟩ | ⟨a, n, h1, h2, h3, h4, h5⟩
  · refine ⟨fun _ => ?_, fun hk => absurd hk h1⟩
    simp only [op_call, ← g.root, h2, Option.bind_eq_bind, Option.some_bind]
  · refine ⟨fun hk => absurd (mem_bindings_fst h5) hk, fun _ hmax => ?_⟩
    obtain ⟨pre, post, e⟩ := List.append_of_mem h2
    have hka : keyAt h a = k := by simp [keyAt, h3, h4]
    have hpost := max_is_last g.rep g.bst e (by rw [hka]; exact hmax)
    obtain ⟨n', en', -, -, -, hr⟩ := right_slot_spec g e
    rw [h3] at en'
    cases en'
    have := hr.2 hpost
    simp only [op_call, ← g.root, h1, Option.bind_eq_bind, Option.some_bind, h3, this]

/-- C10: on a tree built by inserts, `operator()` returns the default key `KeyT{}`
(`0` for `int`) for the largest key in the tree, and for every key not in the tree. -/
theorem C10_successor_sentinel (kvs : List (Int × Int)) :
    ∃ h t, build kvs = some (h, t) ∧
      (∀ maxKey, maxKey ∈ kvs.map Prod.fst → (∀ k ∈ kvs.map Prod.fst, k ≤ maxKey) →
        op_call h t maxKey = some 0) ∧
      (∀ k, k ∉ kvs.map Prod.fst → op_call h t k = some 0) := by
  obtain ⟨h, t, tr, e, g, -, hkeys, -⟩ := build_spec kvs
  refine ⟨h, t, e, ?_, ?_⟩
  · intro maxKey hm hmax
    exact (op_call_spec g maxKey).2 ((hkeys _).2 hm) (fun k' hk' => hmax k' ((hkeys _).1 hk'))
  · intro k hk
    exact (op_call_spec g k).1 (fun hm => hk ((hkeys _).1 hm))

/-- The embedding run on Scenario C: `operator()` at the largest key. -/
theorem eval_op_call_max : (build [(50, 1), (25, 2), (75, 3), (10, 4), (30, 5), (60, 6), (80, 7)]).bind
    (fun s => op_call s.1 s.2 80) = some 0 := by decide

/-- The embedding run on Scenario C: `operator()` at a threaded node. -/
theorem eval_op_call_thread : (build [(50, 1), (25, 2), (75, 3), (10, 4), (30, 5), (60, 6), (80, 7)]).bind
    (fun s => op_call s.1 s.2 30) = some 50 := by decide

/-! ## `_copy` -/

theorem copy_next (base : Nat) : ∀ t : Tree, (copyTree base t).2 = base + t.addrs.length
  | .nil => rfl
  | .node a l k v ht r => by
    simp only [copyTree, copy_next base l, copy_next _ r, addrs, List.length_append,
      List.length_cons]
    omega

theorem copy_addrs_range : ∀ (t : Tree) (base : Nat), ∀ x ∈ (copyTree base t).1.addrs,
    base ≤ x ∧ x < (copyTree base t).2
  | .nil, base, x, hx => by simp [copyTree, addrs] at hx
  | .node a l k v ht r, base, x, hx => by
    simp only [copyTree, addrs, List.mem_append, List.mem_cons] at hx ⊢
    have e1 := copy_next base l
    have e2 := copy_next (copyTree base l).2 r
    rcases hx with hx | hx | hx
    · have := copy_addrs_range l base x hx
      omega
    · omega
    · have := copy_addrs_range r _ x hx
      omega

theorem copy_iso : ∀ (t : Tree) (base : Nat), Iso t (copyTree base t).1
  | .nil, _ => trivial
  | .node a l k v ht r, base => by
    simp only [copyTree, Iso]
    exact ⟨trivial, trivial, trivial, copy_iso l base, copy_iso r _⟩

theorem iso_isNil : ∀ {t t' : Tree}, Iso t t' → t'.isNil = t.isNil
  | .nil, .nil, _ => rfl
  | .node _ _ _ _ _ _, .node _ _ _ _ _ _, _ => rfl
  | .nil, .node _ _ _ _ _ _, h => by simp [Iso] at h
  | .node _ _ _ _ _ _, .nil, h => by simp [Iso] at h

theorem iso_keys : ∀ {t t' : Tree}, Iso t t' → t'.keys = t.keys
  | .nil, .nil, _ => rfl
  | .node _ l k v ht r, .node _ l' k' v' ht' r', ⟨h1, _, _, h4, h5⟩ => by
    simp only [Tree.keys, iso_keys h4, iso_keys h5, h1]
  | .nil, .node _ _ _ _ _ _, h => by simp [Iso] at h
  | .node _ _ _ _ _ _, .nil, h => by simp [Iso] at h

theorem iso_depth : ∀ {t t' : Tree}, Iso t t' → t'.depth = t.depth
  | .nil, .nil, _ => rfl
  | .node _ l k v ht r, .node _ l' k' v' ht' r', ⟨_, _, _, h4, h5⟩ => by
    simp only [Tree.depth, iso_depth h4, iso_depth h5]
  | .nil, .node _ _ _ _ _ _, h => by simp [Iso] at h
  | .node _ _ _ _ _ _, .nil, h => by simp [Iso] at h

theorem iso_length : ∀ {t t' : Tree}, Iso t t' → t'.addrs.length = t.addrs.length
  | .nil, .nil, _ => rfl
  | .node _ l k v ht r, .node _ l' k' v' ht' r', ⟨_, _, _, h4, h5⟩ => by
    simp only [Tree.addrs, List.length_append, List.length_cons, iso_length h4, iso_length h5]
  | .nil, .node _ _ _ _ _ _, h => by simp [Iso] at h
  | .node _ _ _ _ _ _, .nil, h => by simp [Iso] at h

theorem iso_realH : ∀ {t t' : Tree}, Iso t t' → t'.realH = t.realH
  | .nil, .nil, _ => rfl
  | .node _ l k v ht r, .node _ l' k' v' ht' r', ⟨_, _, _, h4, h5⟩ => by
    simp only [Tree.realH, iso_realH h4, iso_realH h5]
  | .nil, .node _ _ _ _ _ _, h => by simp [Iso] at h
  | .node _ _ _ _ _ _, .nil, h => by simp [Iso] at h

theorem iso_H : ∀ {t t' : Tree}, Iso t t' → t'.H = t.H
  | .nil, .nil, _ => rfl
  | .node _ l k v ht r, .node _ l' k' v' ht' r', ⟨_, _, h3, _, _⟩ => by
    simp only [H_node, h3]
  | .nil, .node _ _ _ _ _ _, h => by simp [Iso] at h
  | .node _ _ _ _ _ _, .nil, h => by simp [Iso] at h

theorem iso_lines : ∀ {t t' : Tree}, Iso t t' → ∀ sk, t'.lines sk = t.lines sk
  | .nil, .nil, _, _ => rfl
  | .node _ l k v ht r, .node _ l' k' v' ht' r', ⟨h1, h2, h3, h4, h5⟩, sk => by
    subst h1 h2 h3
    simp only [Tree.lines, iso_lines h4, iso_lines h5]
    have := iso_isNil h5
    cases r <;> cases r' <;> simp_all [Tree.isNil]
  | .nil, .node _ _ _ _ _ _, h, _ => by simp [Iso] at h
  | .node _ _ _ _ _ _, .nil, h, _ => by simp [Iso] at h

theorem last_of_nil_right (a : Nat) (l : Tree) (k v ht : Int) :
    (Tree.node a l k v ht .nil).last = some a := rfl

theorem last_of_node_right (a : Nat) (l : Tree) (k v ht : Int) {r : Tree} (hne : r ≠ .nil) :
    (Tree.node a l k v ht r).last = r.last := by
  cases r with
  | nil => exact absurd rfl hne
  | node => rfl

theorem last_mem : ∀ {t : Tree} {a : Nat}, t.last = some a → a ∈ t.addrs
  | .nil, a, h => by simp [Tree.last] at h
  | .node b l k v ht r, a, h => by
    cases r with
    | nil =>
      simp only [last_of_nil_right, Option.some.injEq] at h
      simp [addrs, h]
    | node c rl rk rv rh rr =>
      rw [last_of_node_right _ _ _ _ _ (by simp)] at h
      have := last_mem h
      simp only [addrs, List.mem_append, List.mem_cons] at this ⊢
      exact Or.inr (Or.inr this)

theorem last_eq_none : ∀ {t : Tree}, t.last = none → t = .nil
  | .nil, _ => rfl
  | .node b l k v ht r, h => by
    cases r with
    | nil => simp [last_of_nil_right] at h
    | node c rl rk rv rh rr =>
      rw [last_of_node_right _ _ _ _ _ (by simp)] at h
      cases last_eq_none h

/-- Setting the `Right` of the last node re-targets the thread that leaves the tree. -/
theorem Rep_retarget_last {h : Heap} (s2 : Ptr) : ∀ (t : Tree) (s1 : Ptr), Rep h t s1 →
    t.addrs.Nodup → ∀ a n, t.last = some a → deref h (some a) = some n →
    Rep (h.set a (some { n with Right := s2 })) t s2
  | .nil, _, _, _, a, n, hl, _ => by simp [Tree.last] at hl
  | .node b l k v ht r, s1, hrep, hnd, a, n, hl, en => by
    obtain ⟨eb, hl', hr'⟩ := hrep
    obtain ⟨hndl, hndr, hbl, hbr, hdis⟩ := nodup_node hnd
    cases r with
    | nil =>
      simp only [last_of_nil_right, Option.some.injEq] at hl
      subst hl
      rw [eb] at en
      cases en
      refine ⟨?_, Rep_set _ hl' hbl, trivial⟩
      rw [deref_set_eq _ (deref_some_lt eb)]
      rfl
    | node c rl rk rv rh rr =>
      rw [last_of_node_right _ _ _ _ _ (by simp)] at hl
      have har := last_mem hl
      have hab : a ≠ b := fun e => hbr (e ▸ har)
      refine ⟨?_, Rep_set _ hl' (fun hm => hdis a hm har), ?_⟩
      · rw [deref_set_ne _ hab]
        exact eb
      · exact Rep_retarget_last s2 _ _ hr' hndr a n hl en

theorem copy_nodup : ∀ (t : Tree) (base : Nat), (copyTree base t).1.addrs.Nodup
  | .nil, _ => by simp [copyTree, addrs]
  | .node a l k v ht r, base => by
    have r1 := copy_addrs_range l base
    have r2 := copy_addrs_range r (copyTree base l).2
    have e1 := copy_next base l
    have e2 := copy_next (copyTree base l).2 r
    refine nodup_node_intro (copy_nodup l base) (copy_nodup r _) ?_ ?_ ?_
    · intro hm; have := r1 _ hm; omega
    · intro hm; have := r2 _ hm; omega
    · intro x hx hx'
      have := r1 _ hx
      have := r2 _ hx'
      omega

theorem copy_root_none {t : Tree} {base : Nat} (hn : t = .nil) :
    (copyTree base t).1 = .nil := by
  subst hn; rfl

theorem _copy_spec : ∀ (tr : Tree) (fuel : Nat) (h : Heap) (s : Ptr), Rep h tr s →
    tr.depth < fuel →
    ∃ h', _copy fuel h tr.root =
        some (h', (copyTree h.length tr).1.root, (copyTree h.length tr).1.last)
      ∧ Rep h' (copyTree h.length tr).1 none
      ∧ h'.length = (copyTree h.length tr).2
      ∧ ∀ c, c < h.length → deref h' (some c) = deref h (some c)
  | .nil, fuel, h, s, _, hf => by
    cases fuel with
    | zero => simp [depth] at hf
    | succ f => exact ⟨h, rfl, trivial, rfl, fun _ _ => rfl⟩
  | .node a l k v ht r, fuel, h, s, hrep, hf => by
    cases fuel with
    | zero => simp [depth] at hf
    | succ f =>
      obtain ⟨dl, dr⟩ := depth_node_lt hf
      obtain ⟨ea, hl, hr⟩ := hrep
      have hla := deref_some_lt ea
      -- the left subtree
      obtain ⟨h1, e1, rep1, len1, fr1⟩ := _copy_spec l f h (some a) hl dl
      have ea1 := (fr1 a hla).trans ea
      have hr1 : Rep h1 r s := Rep_frame r s hr (fun x hx => fr1 x (Rep_addr_lt hr hx))
      have hle1 : h.length ≤ h1.length := by rw [len1, copy_next]; omega
      -- the right subtree
      obtain ⟨h2, e2, rep2, len2, fr2⟩ := _copy_spec r f h1 s hr1 dr
      rw [len1] at e2 rep2 len2
      have hle2 : h1.length ≤ h2.length := by rw [len2, copy_next, len1]; omega
      have ea2 := (fr2 a (by omega)).trans ea1
      have rep1' : Rep h2 (copyTree h.length l).1 none := Rep_frame _ _ rep1 (fun x hx =>
        fr2 x (by have := (copy_addrs_range l h.length x hx).2; omega))
      -- abbreviations
      generalize hl' : copyTree h.length l = cl at *
      generalize hr' : copyTree cl.2 r = cr at *
      have rl := copy_addrs_range l h.length
      have rr := copy_addrs_range r cl.2
      rw [hl'] at rl
      rw [hr'] at rr
      have ndl : cl.1.addrs.Nodup := by rw [← hl']; exact copy_nodup l _
      have isr : cr.1.isNil = r.isNil := by rw [← hr']; exact iso_isNil (copy_iso r _)
      have ecopy : copyTree h.length (.node a l k v ht r) =
          (.node cr.2 cl.1 k v ht cr.1, cr.2 + 1) := by
        simp only [copyTree, hl', hr']
      rw [ecopy]
      -- the new node
      have hnew : deref (h2 ++ [some
          { Key := k, Value := v, Left := cl.1.root, Right := cr.1.root, isThreaded := r.isNil,
            Height := ht }]) (some cr.2) = some
          { Key := k, Value := v, Left := cl.1.root, Right := cr.1.root, isThreaded := r.isNil,
            Height := ht } := by
        rw [← len2]; exact deref_append_new _ _
      have hslot : cr.1.root = cr.1.rightSlot none := by
        cases cr.1 <;> rfl
      -- the thread of the left copy
      obtain ⟨h4, e4, rep4l, len4, fr4⟩ : ∃ h4,
          (if cl.1.last ≠ none then
            store (h2 ++ [some
              { Key := k, Value := v, Left := cl.1.root, Right := cr.1.root,
                isThreaded := r.isNil, Height := ht }]) cl.1.last
              (fun n => { n with Right := some cr.2 })
           else some (h2 ++ [some
              { Key := k, Value := v, Left := cl.1.root, Right := cr.1.root,
                isThreaded := r.isNil, Height := ht }])) = some h4
          ∧ Rep h4 cl.1 (some cr.2) ∧ h4.length = cr.2 + 1
          ∧ ∀ c, c ∉ cl.1.addrs → deref h4 (some c) = deref (h2 ++ [some
              { Key := k, Value := v, Left := cl.1.root, Right := cr.1.root,
                isThreaded := r.isNil, Height := ht }]) (some c) := by
        have rep3 : Rep (h2 ++ [some
            { Key := k, Value := v, Left := cl.1.root, Right := cr.1.root,
              isThreaded := r.isNil, Height := ht }]) cl.1 none :=
          Rep_frame _ _ rep1' (fun x hx => deref_append_lt _ _ (Rep_addr_lt rep1' hx))
        cases hlast : cl.1.last with
        | none =>
          have := last_eq_none hlast
          refine ⟨_, by simp, ?_, by simp [len2], fun _ _ => rfl⟩
          rw [this]; trivial
        | some b =>
          have hb := last_mem hlast
          obtain ⟨n, en, -⟩ := Rep_key_mem _ _ rep3 b hb
          refine ⟨_, by simp only [ne_eq, reduceCtorEq, not_false_eq_true, if_true,
            store_eq _ en], Rep_retarget_last _ _ _ rep3 ndl b n hlast en, by simp [len2], ?_⟩
          intro c hc
          exact deref_set_ne _ (fun e => hc (e ▸ hb))
      have hnl : cr.2 ∉ cl.1.addrs := by
        intro hm
        have := (rl _ hm).2
        have := copy_next cl.2 r
        rw [hr'] at this
        omega
      have hnew4 := (fr4 _ hnl).trans hnew
      refine ⟨h4, ?_, ⟨?_, rep4l, ?_⟩, len4, ?_⟩
      · simp only [_copy, root_node, ea, Option.bind_eq_bind, Option.some_bind, _getActualLeft,
          e1, ea1, actualRight_rep, e2, ea2, alloc, len2]
        have hlast' : (if r.isNil = true then some cr.2 else cr.1.last) =
            (Tree.node cr.2 cl.1 k v ht cr.1).last := by
          cases hr0 : r with
          | nil =>
            have : cr.1 = .nil := by rw [← hr', hr0]; rfl
            simp [this, Tree.last]
          | node c rl0 rk rv rh rr0 =>
            have hne : cr.1 ≠ .nil := by
              intro hc
              have := isr
              rw [hc, hr0] at this
              simp at this
            simp [last_of_node_right _ _ _ _ _ hne]
        by_cases hlast : cl.1.last ≠ none
        · rw [if_pos hlast] at e4 ⊢
          simp only [e4, Option.some_bind, hnew4, hlast']
        · rw [if_neg hlast] at e4 ⊢
          simp only [Option.some.injEq] at e4
          subst e4
          simp only [hnew4, Option.some_bind, hlast']
      · rw [hnew4, hslot, isr]
      · refine Rep_frame _ _ rep2 (fun x hx => ?_)
        have hx1 := (rr x hx).1
        have hx2 := (rr x hx).2
        rw [fr4 x (fun hm => by have := (rl x hm).2; omega)]
        exact deref_append_lt _ _ (by omega)
      · intro c hc
        rw [fr4 c (fun hm => by have := (rl c hm).1; omega), deref_append_lt _ _ (by omega),
          fr2 c (by omega), fr1 c hc]

theorem fields_spec {h : Heap} : ∀ (t : Tree) (s : Ptr), Rep h t s →
    t.addrs.map (fun a => deref h (some a)) = (t.fields s).map some
  | .nil, _, _ => rfl
  | .node a l k v ht r, s, ⟨ea, hl, hr⟩ => by
    simp only [addrs, fields, List.map_append, List.map_cons, fields_spec l _ hl,
      fields_spec r _ hr, ea]

theorem lookup_zip_map : ∀ (l l' : List Nat), l.Nodup → l.length = l'.length →
    l.map (fun a => (List.zip l l').lookup a) = l'.map some
  | [], [], _, _ => rfl
  | [], _ :: _, _, hlen => by simp at hlen
  | _ :: _, [], _, hlen => by simp at hlen
  | a :: l, a' :: l', hnd, hlen => by
    obtain ⟨hal, hnd'⟩ := List.nodup_cons.1 hnd
    simp only [List.length_cons, Nat.add_right_cancel_iff] at hlen
    simp only [List.zip_cons_cons, List.map_cons, List.lookup_cons, beq_self_eq_true,
      List.cons.injEq, true_and]
    rw [← lookup_zip_map l l' hnd' hlen]
    apply List.map_congr_left
    intro x hx
    have : (x == a) = false := by
      simp only [beq_eq_false_iff_ne, ne_eq]
      rintro rfl
      exact hal hx
    simp only [this]

theorem map_append_split {α β : Type} {f : α → β} {g : α → β} {l1 l2 l1' l2' : List α}
    {a a' : α}
    (e : (l1 ++ a :: l2).map f = (l1' ++ a' :: l2').map g) (hlen : l1.length = l1'.length) :
    l1.map f = l1'.map g ∧ f a = g a' ∧ l2.map f = l2'.map g := by
  simp only [List.map_append, List.map_cons] at e
  obtain ⟨h1, h2⟩ := List.append_inj e (by simp [hlen])
  simp only [List.cons.injEq] at h2
  exact ⟨h1, h2.1, h2.2⟩

theorem corr_root (ψ : Ptr → Ptr) (h0 : ψ none = none) : ∀ (t t' : Tree), Iso t t' →
    t.addrs.map (fun a => ψ (some a)) = t'.addrs.map some → ψ t.root = t'.root
  | .nil, .nil, _, _ => h0
  | .node a l k v ht r, .node a' l' k' v' ht' r', hi, e => by
    simp only [addrs] at e
    obtain ⟨-, h2, -⟩ := map_append_split e (iso_length hi.2.2.2.1).symm
    simpa using h2
  | .nil, .node _ _ _ _ _ _, h, _ => by simp [Iso] at h
  | .node _ _ _ _ _ _, .nil, h, _ => by simp [Iso] at h

/-- The node records of an isomorphic tree are those of the tree, with the links
carried over by the correspondence of the nodes. -/
theorem iso_fields (ψ : Ptr → Ptr) (h0 : ψ none = none) : ∀ (t t' : Tree) (s : Ptr),
    Iso t t' → t.addrs.map (fun a => ψ (some a)) = t'.addrs.map some →
    t'.fields (ψ s) = (t.fields s).map
      (fun n => { n with Left := ψ n.Left, Right := ψ n.Right })
  | .nil, .nil, _, _, _ => rfl
  | .node a l k v ht r, .node a' l' k' v' ht' r', s, hi, e => by
    obtain ⟨rfl, rfl, rfl, il, ir⟩ := hi
    simp only [addrs] at e
    obtain ⟨e1, e2, e3⟩ := map_append_split e (iso_length il).symm
    have hl := iso_fields ψ h0 l l' (some a) il e1
    have hr := iso_fields ψ h0 r r' s ir e3
    rw [e2] at hl
    simp only [fields, List.map_append, List.map_cons, hl, hr, corr_root ψ h0 l l' il e1,
      (iso_isNil ir)]
    congr 3
    cases r with
    | nil =>
      cases r' with
      | nil => rfl
      | node => simp [Iso] at ir
    | node c rl rk rv rh rr =>
      have := corr_root ψ h0 _ _ ir e3
      cases r' with
      | nil => simp [Iso] at ir
      | node c' rl' rk' rv' rh' rr' => simpa using this.symm
  | .nil, .node _ _ _ _ _ _, _, h, _ => by simp [Iso] at h
  | .node _ _ _ _ _ _, .nil, _, h, _ => by simp [Iso] at h

theorem zip_maps {α β γ : Type} {f : α → γ} {f' : α → γ} {g g' : β → γ} :
    ∀ (F : List β) (l1 l2 : List α), l1.map f = F.map g → l2.map f' = F.map g' →
    ∀ p ∈ List.zip l1 l2, ∃ n ∈ F, f p.1 = g n ∧ f' p.2 = g' n
  | [], [], _, _, _, p, hp => by simp at hp
  | [], _ :: _, _, h1, _, _, _ => by simp at h1
  | _ :: _, [], _, h1, _, _, _ => by simp at h1
  | _ :: _, _ :: _, [], _, h2, _, _ => by simp at h2
  | n :: F, a :: l1, b :: l2, h1, h2, p, hp => by
    simp only [List.map_cons, List.cons.injEq] at h1 h2
    simp only [List.zip_cons_cons, List.mem_cons] at hp
    rcases hp with rfl | hp
    · exact ⟨n, by simp, h1.1, h2.1⟩
    · obtain ⟨m, hm, e1, e2⟩ := zip_maps F l1 l2 h1.2 h2.2 p hp
      exact ⟨m, by simp [hm], e1, e2⟩

/-- Two represented trees of the same shape in one store are node for node identical. -/
theorem identical_of_iso {h : Heap} {src cpy : avlt} {tr tr' : Tree}
    (hrep : Rep h tr none) (hrep' : Rep h tr' none) (hbst : BST tr) (hi : Iso tr tr')
    (hroot : tr.root = src.Root) (hroot' : tr'.root = cpy.Root)
    (hdis : ∀ a ∈ tr'.addrs, a ∉ tr.addrs) : Identical h src cpy := by
  have hd := depth_lt_fuel hrep hbst
  have hnd := Rep_nodup _ _ hrep hbst
  have hmap := lookup_zip_map tr.addrs tr'.addrs hnd (iso_length hi).symm
  have hf := iso_fields (corr tr.addrs tr'.addrs) rfl tr tr' none hi hmap
  refine ⟨tr.addrs, tr'.addrs, ?_, ?_, (iso_length hi).symm, hdis, ?_, ?_⟩
  · rw [← hroot]; exact inorder_spec tr _ h none hrep hd
  · rw [← hroot']; exact inorder_spec tr' _ h none hrep' (by rw [(iso_depth hi)]; exact hd)
  · rw [← hroot, ← hroot']
    exact (corr_root (corr tr.addrs tr'.addrs) rfl tr tr' hi hmap).symm
  · intro p hp
    have e1 := fields_spec tr none hrep
    have e2 := fields_spec tr' none hrep'
    have hc : corr tr.addrs tr'.addrs none = none := rfl
    rw [← hc, hf, List.map_map] at e2
    obtain ⟨n, -, h1, h2⟩ := zip_maps _ _ _ e1 e2 p hp
    exact ⟨n, _, h1, h2, rfl, rfl, rfl, rfl, rfl, rfl⟩

theorem _dump_spec : ∀ (tr : Tree) (fuel : Nat) (h : Heap) (s : Ptr) (sk : Option Int)
    (out : List Line), Rep h tr s →
    (∀ x, s = some x → ∃ n, deref h (some x) = some n ∧ sk = some n.Key) →
    (s = none → sk = none) → tr.depth < fuel →
    _dump fuel h out tr.root = some (out ++ tr.lines sk)
  | .nil, fuel, h, s, sk, out, _, _, _, hf => by
    cases fuel with
    | zero => simp [depth] at hf
    | succ f => simp [_dump, lines]
  | .node a l k v ht r, fuel, h, s, sk, out, hrep, hs1, hs2, hf => by
    cases fuel with
    | zero => simp [depth] at hf
    | succ f =>
      obtain ⟨dl, dr⟩ := depth_node_lt hf
      obtain ⟨ea, hl, hr⟩ := hrep
      have ihl := _dump_spec l f h (some a) (some k) out hl
        (fun x hx => by
          simp only [Option.some.injEq] at hx
          subst hx
          exact ⟨_, ea, rfl⟩)
        (fun hc => by cases hc) dl
      simp only [_dump, root_node, ea, Option.bind_eq_bind, Option.some_bind, _getActualLeft,
        ihl, actualRight_rep]
      cases r with
      | node c rl rk rv rh rr =>
        have ihr := fun out => _dump_spec (.node c rl rk rv rh rr) f h s sk out hr hs1 hs2 dr
        simp only [isNil_node, Bool.false_eq_true, false_and, if_false, Option.some_bind, ihr,
          lines, List.append_assoc, List.singleton_append, List.cons_append, List.nil_append]
      | nil =>
        have ihr := fun out => _dump_spec .nil f h s sk out hr hs1 hs2 dr
        simp only [isNil_nil, rightSlot_nil, true_and]
        cases s with
        | none =>
          rw [hs2 rfl]
          simp only [ne_eq, not_true_eq_false, if_false, Option.some_bind, ihr, lines,
            List.append_assoc, List.singleton_append, List.cons_append, List.append_nil,
            List.nil_append]
        | some x =>
          obtain ⟨n, en, hsk⟩ := hs1 x rfl
          rw [hsk]
          simp only [ne_eq, reduceCtorEq, not_false_eq_true, if_true, en, Option.some_bind, ihr,
            lines, List.append_assoc, List.singleton_append, List.cons_append, List.append_nil,
            List.nil_append]

theorem height_eq_H {h : Heap} {t : avlt} {tr : Tree} {s : Ptr} (hrep : Rep h tr s)
    (hroot : tr.root = t.Root) : height h t = some tr.H := by
  cases t
  simp only at hroot
  subst hroot
  cases tr with
  | nil => rfl
  | node a l k v ht r => simp only [height, root_node, hrep.1, Option.map_some', H_node]

theorem dump_spec {h : Heap} {t : avlt} {tr : Tree} (hrep : Rep h tr none)
    (hroot : tr.root = t.Root) (hd : tr.depth < fuelOf h) (out : List Line) :
    dump h t out = some (out ++ [Line.stars, Line.title] ++ [Line.size t.Size] ++
      [Line.height tr.H] ++ tr.lines none ++ [Line.stars]) := by
  have := _dump_spec tr (fuelOf h) h none none
    (out ++ [Line.stars, Line.title] ++ [Line.size t.Size] ++ [Line.height tr.H]) hrep
    (fun x hx => by cases hx) (fun _ => rfl) hd
  rw [hroot] at this
  simp only [dump, height_eq_H hrep hroot, Option.bind_eq_bind, Option.some_bind, size, this]

/-- What `_copy` of the root of a represented tree gives: a second tree, node for node
the first, which is left as it was. -/
theorem copy_root_spec {h : Heap} {src : avlt} {tr : Tree} (hrep : Rep h tr none)
    (hbst : BST tr) (hroot : tr.root = src.Root) :
    ∃ h' root last, _copy (fuelOf h) h src.Root = some (h', root, last)
      ∧ (∀ c, c < h.length → deref h' (some c) = deref h (some c))
      ∧ h.length ≤ h'.length
      ∧ (∀ cpy : avlt, cpy.Root = root → cpy.Size = src.Size →
          Identical h' src cpy ∧ size cpy = size src
          ∧ (∃ ht, height h' cpy = some ht ∧ height h' src = some ht)
          ∧ ∀ out, ∃ lines, dump h' cpy out = some lines ∧ dump h' src out = some lines) := by
  have hd := depth_lt_fuel hrep hbst
  obtain ⟨h', e, rep', len', fr'⟩ := _copy_spec tr (fuelOf h) h none hrep hd
  have hi := copy_iso tr h.length
  have hle : h.length ≤ h'.length := by rw [len', copy_next]; omega
  have hrep2 : Rep h' tr none := Rep_frame tr none hrep (fun x hx => fr' x (Rep_addr_lt hrep hx))
  have hd2 : tr.depth < fuelOf h' := by unfold fuelOf at hd ⊢; omega
  refine ⟨h', _, _, by rw [← hroot]; exact e, fr', hle, ?_⟩
  intro cpy hcr hcs
  refine ⟨?_, hcs, ?_, ?_⟩
  · refine identical_of_iso hrep2 rep' hbst hi hroot hcr.symm ?_
    intro a ha hm
    have := (copy_addrs_range tr h.length a ha).1
    have := Rep_addr_lt hrep hm
    omega
  · exact ⟨tr.H, by rw [height_eq_H rep' hcr.symm, (iso_H hi)], height_eq_H hrep2 hroot⟩
  · intro out
    refine ⟨_, ?_, dump_spec hrep2 hroot hd2 out⟩
    rw [dump_spec rep' hcr.symm (by rw [(iso_depth hi)]; exact hd2) out, (iso_H hi), (iso_lines hi), hcs]

theorem copyOk_of_copy {h : Heap} {src : avlt} {tr : Tree} (hrep : Rep h tr none)
    (hbst : BST tr) (hroot : tr.root = src.Root) :
    ∃ h' root last, _copy (fuelOf h) h src.Root = some (h', root, last)
      ∧ (∀ c, c < h.length → deref h' (some c) = deref h (some c))
      ∧ ∀ cpy : avlt, cpy.Root = root → cpy.Size = src.Size → CopyOk h h' src cpy := by
  obtain ⟨h', root, last, ec, fr, -, hall⟩ := copy_root_spec hrep hbst hroot
  refine ⟨h', root, last, ec, fr, fun cpy h1 h2 => ?_⟩
  obtain ⟨i1, i2, i3, i4⟩ := hall cpy h1 h2
  refine ⟨⟨tr.addrs, ?_, fun a ha => fr a (Rep_addr_lt hrep ha)⟩, i1, i2, i3, i4⟩
  rw [← hroot]
  exact inorder_spec tr _ h none hrep (depth_lt_fuel hrep hbst)

/-- `operator=` from a tree into another tree of the same store. -/
theorem assign_spec {h : Heap} {src tgt : avlt} {tr trt : Tree} (gs : Good h src tr)
    (gt : Good h tgt trt) (hdis : ∀ x ∈ tr.addrs, x ∉ trt.addrs) :
    ∃ h' cpy, assign h tgt src = some (h', cpy) ∧ CopyOk h h' src cpy := by
  obtain ⟨hc, ecl, -, lenc, frc, -⟩ := clear_spec gt
  have hrepc : Rep hc tr none := Rep_frame tr none gs.rep (fun x hx => frc x (hdis x hx))
  obtain ⟨h', root, last, ec, fr, -, hall⟩ := copy_root_spec hrepc gs.bst gs.root
  obtain ⟨i1, i2, i3, i4⟩ := hall { Root := root, Size := src.Size, Next := none } rfl rfl
  refine ⟨h', _, ?_, ⟨tr.addrs, ?_, ?_⟩, i1, i2, i3, i4⟩
  · simp only [assign, ecl, Option.bind_eq_bind, Option.some_bind, ec]
  · rw [← gs.root]
    exact inorder_spec tr _ h none gs.rep (depth_lt_fuel gs.rep gs.bst)
  · intro a ha
    rw [fr a (by rw [lenc]; exact Rep_addr_lt gs.rep ha), frc a (hdis a ha)]

/-- A well-formed state stays so in a store that kept its cells. -/
theorem good_of_frame {h h' : Heap} {t : avlt} {tr : Tree} (g : Good h t tr)
    (hf : ∀ a ∈ tr.addrs, deref h' (some a) = deref h (some a)) : Good h' t tr :=
  ⟨Rep_frame tr none g.rep hf, g.root, g.bst, g.hok, g.bal, g.size, g.next⟩

/-- C9: for a source tree built by inserts, the copy constructor, and `operator=` into
another tree of the same store, whatever was inserted into it before and whether it was
built after or before the source, leave the nodes of the source as they are and produce
a tree that is node for node the source: as many nodes, with the same keys, values,
heights and thread flags in inorder, and with `Left` and `Right` (owning link or thread)
leading to the copies of the nodes they lead to in the source, null where the source has
null; `size()`, `height()` and the `dump` output of the copy are those of the source. -/
theorem C9_copy_identical (kvs prior : List (Int × Int)) :
    (∃ h src h' cpy, build kvs = some (h, src) ∧ copyConstruct h src = some (h', cpy)
      ∧ CopyOk h h' src cpy) ∧
    (∃ h0 src h tgt h' cpy, build kvs = some (h0, src) ∧ buildIn h0 prior = some (h, tgt)
      ∧ assign h tgt src = some (h', cpy) ∧ CopyOk h h' src cpy) ∧
    (∃ h0 tgt h src h' cpy, build prior = some (h0, tgt) ∧ buildIn h0 kvs = some (h, src)
      ∧ assign h tgt src = some (h', cpy) ∧ CopyOk h h' src cpy) := by
  refine ⟨?_, ?_, ?_⟩
  · obtain ⟨h, src, tr, e, g, -, -, -⟩ := build_spec kvs
    obtain ⟨h', root, last, ec, -, hall⟩ := copyOk_of_copy g.rep g.bst g.root
    refine ⟨h, src, h', _, e, ?_,
      hall { Size := src.Size, Next := none, Root := root } rfl rfl⟩
    simp only [copyConstruct, ec, Option.bind_eq_bind, Option.some_bind]
  · obtain ⟨h0, src, tr, e, g, -, -, -⟩ := build_spec kvs
    obtain ⟨⟨h, tgt⟩, trt, e1, g1, -, -, ⟨-, w2, w3⟩, -⟩ := buildIn_spec h0 prior
    simp only at w2 w3 g1
    have hsrc : ∀ x ∈ tr.addrs, x < h0.length := fun x hx => Rep_addr_lt g.rep hx
    have gs : Good h src tr := good_of_frame g (fun x hx => w3 x (hsrc x hx) (by simp [addrs]))
    have hdis : ∀ x ∈ tr.addrs, x ∉ trt.addrs := by
      intro x hx hm
      have := hsrc x hx
      rcases w2 x hm with h' | h'
      · simp [addrs] at h'
      · omega
    obtain ⟨h', cpy, ea, hok⟩ := assign_spec gs g1 hdis
    exact ⟨h0, src, h, tgt, h', cpy, e, e1, ea, hok⟩
  · obtain ⟨h0, tgt, trt, e, g, -, -, -⟩ := build_spec prior
    obtain ⟨⟨h, src⟩, tr, e1, g1, -, -, ⟨-, w2, w3⟩, -⟩ := buildIn_spec h0 kvs
    simp only at w2 w3 g1
    have htgt : ∀ x ∈ trt.addrs, x < h0.length := fun x hx => Rep_addr_lt g.rep hx
    have gt : Good h tgt trt := good_of_frame g (fun x hx => w3 x (htgt x hx) (by simp [addrs]))
    have hdis : ∀ x ∈ tr.addrs, x ∉ trt.addrs := by
      intro x hx hm
      have := htgt x hm
      rcases w2 x hx with h' | h'
      · simp [addrs] at h'
      · omega
    obtain ⟨h', cpy, ea, hok⟩ := assign_spec g1 gt hdis
    exact ⟨h0, tgt, h, src, h', cpy, e, e1, ea, hok⟩

/-- The embedding run on a copy: its `dump` is that of the source. -/
theorem eval_copy_dump : ((build [(50, 1), (25, 2), (75, 3), (10, 4)]).bind
    (fun s => (copyConstruct s.1 s.2).bind
      (fun c => (dump c.1 c.2 []).map (fun l => decide (some l = dump c.1 s.2 []))))) =
    some true := by decide

/-- In a represented search tree no two nodes hold the same key. -/
theorem addr_of_key_unique {h : Heap} {tr : Tree} (hrep : Rep h tr none) (hbst : BST tr)
    {a a' : Nat} (ha : a ∈ tr.addrs) (ha' : a' ∈ tr.addrs) (e : keyAt h a = keyAt h a') :
    a = a' := by
  have hs : (tr.addrs.map (keyAt h)).Nodup := by
    rw [map_keyAt tr none hrep]
    have : tr.keys.Pairwise (· < ·) := hbst
    exact this.imp (fun hlt => ne_of_lt hlt)
  exact List.inj_on_of_nodup_map hs ha ha' e

/-- `operator()` at the key of a node of the tree: the key of what its `Right` leads to,
or `0` when `Right` is null. -/
theorem op_call_node {h : Heap} {t : avlt} {tr : Tree} (g : Good h t tr) {a : Nat} {n : NODE}
    (ha : a ∈ tr.addrs) (en : deref h (some a) = some n) :
    op_call h t n.Key =
      (match n.Right with
       | none => some 0
       | some r => (deref h (some r)).map NODE.Key) := by
  rcases _search_spec n.Key tr (fuelOf h) h none g.rep g.bst (depth_lt_fuel g.rep g.bst) with
    ⟨h1, -⟩ | ⟨a', n', h1, h2, h3, h4, -⟩
  · exact absurd (by simpa [keyAt, en] using keyAt_mem_keys g.rep ha) h1
  · have : a' = a := addr_of_key_unique g.rep g.bst h2 ha (by simp [keyAt, h3, h4, en])
    subst this
    rw [en] at h3
    cases h3
    cases hR : n.Right <;>
      simp only [op_call, ← g.root, h1, Option.bind_eq_bind, Option.some_bind, en, hR]

theorem deref_keyAt {h : Heap} {tr : Tree} {s : Ptr} (hrep : Rep h tr s) {a : Nat}
    (ha : a ∈ tr.addrs) : (deref h (some a)).map NODE.Key = some (keyAt h a) := by
  obtain ⟨n, e, -⟩ := Rep_key_mem tr s hrep a ha
  simp [keyAt, e]

/-- `operator()` in a well-formed state, at the node `a` followed by `post` in inorder. -/
theorem op_call_at {h : Heap} {t : avlt} {tr : Tree} (g : Good h t tr)
    {pre post : List Nat} {a : Nat} (e : tr.addrs = pre ++ a :: post) :
    ∃ n, deref h (some a) = some n
      ∧ (n.isThreaded = true → ∀ b rest, post = b :: rest →
          op_call h t n.Key = some (keyAt h b) ∧ n.Key < keyAt h b ∧
          ∀ c ∈ tr.addrs, n.Key < keyAt h c → keyAt h b ≤ keyAt h c)
      ∧ (n.isThreaded = false → ∃ r, n.Right = some r ∧
          op_call h t n.Key = some (keyAt h r) ∧ n.Key < keyAt h r) := by
  have ha : a ∈ tr.addrs := by simp [e]
  obtain ⟨n, en, -, h2, h3, -⟩ := right_slot_spec g e
  have hka : keyAt h a = n.Key := by simp [keyAt, en]
  have hs : (tr.addrs.map (keyAt h)).Pairwise (· < ·) := by
    rw [map_keyAt tr none g.rep]; exact g.bst
  rw [e, List.map_append, List.map_cons, List.pairwise_append, List.pairwise_cons] at hs
  obtain ⟨-, ⟨hpost, hpp⟩, hpre⟩ := hs
  refine ⟨n, en, ?_, ?_⟩
  · intro hth b rest hb
    subst hb
    have hr := h3 hth
    simp only [List.head?_cons] at hr
    have hbm : b ∈ tr.addrs := by simp [e]
    refine ⟨?_, ?_, ?_⟩
    · rw [op_call_node g ha en, hr]
      exact deref_keyAt g.rep hbm
    · rw [← hka]; exact hpost _ (by simp)
    · intro c hc hlt
      rw [e] at hc
      simp only [List.mem_append, List.mem_cons] at hc
      rcases hc with hc | hc | hc | hc
      · have := (hpre _ (List.mem_map_of_mem _ hc) (keyAt h a) (by simp))
        omega
      · subst hc; omega
      · subst hc; exact le_refl _
      · have := (List.pairwise_cons.1 hpp).1 _ (List.mem_map_of_mem (keyAt h) hc)
        omega
  · intro hth
    obtain ⟨r, hr, hlt⟩ := h2 hth
    refine ⟨r, hr, ?_, hlt⟩
    rw [op_call_node g ha en, hr]
    -- the right child is a node of the tree
    obtain ⟨l, k, v, ht, rt, s', hrep, -, -, -, -⟩ :=
      node_spec tr none g.rep g.bst g.hok g.bal a ha
    have en' := hrep.1
    rw [en] at en'
    cases en'
    cases rt with
    | nil => simp at hth
    | node c rl rk rv rh rr =>
      simp only [rightSlot_node, Option.some.injEq] at hr
      subst hr
      simp [keyAt, hrep.2.2.1]

/-- C11: on a tree built by inserts, with its nodes in inorder (keys ascending): at the
key of a node without actual right child that is not the last, `operator()` returns the
key of the next node, the smallest key of the tree above it; at the key of a node with
an actual right child it returns the key of that child, which is larger.  That key need
not be the next one: in the tree of Scenario C, `operator()(50)` is `75` although `60`
is in the tree. -/
theorem C11_successor_of :
    (∀ kvs : List (Int × Int),
      ∃ h t nodes, build kvs = some (h, t) ∧ inorder (fuelOf h) h t.Root = some nodes ∧
        (nodes.map (keyAt h)).Pairwise (· < ·) ∧
        ∀ pre a post, nodes = pre ++ a :: post →
          ∃ n, deref h (some a) = some n
            ∧ (n.isThreaded = true → ∀ b rest, post = b :: rest →
                op_call h t n.Key = some (keyAt h b) ∧ n.Key < keyAt h b ∧
                ∀ c ∈ nodes, n.Key < keyAt h c → keyAt h b ≤ keyAt h c)
            ∧ (n.isThreaded = false → ∃ r, n.Right = some r ∧
                op_call h t n.Key = some (keyAt h r) ∧ n.Key < keyAt h r)) ∧
    (build [(50, 1), (25, 2), (75, 3), (10, 4), (30, 5), (60, 6), (80, 7)]).bind
      (fun s => (op_call s.1 s.2 50).bind (fun k => (search s.1 s.2 60 0).map (fun f => (k, f.1)))) =
      some (75, true) := by
  refine ⟨?_, ?_⟩
  · intro kvs
    obtain ⟨h, t, tr, e, g, -, -, -⟩ := build_spec kvs
    refine ⟨h, t, tr.addrs, e, ?_, ?_, ?_⟩
    · rw [← g.root]; exact inorder_spec tr _ h none g.rep (depth_lt_fuel g.rep g.bst)
    · rw [map_keyAt tr none g.rep]; exact g.bst
    · intro pre a post e'
      exact op_call_at g e'
  · decide

theorem runFrom_append : ∀ (ops1 ops2 : List Op) (s : Heap × avlt),
    runFrom s (ops1 ++ ops2) = (runFrom s ops1).bind (fun s' => runFrom s' ops2)
  | [], ops2, s => by simp [runFrom]
  | op :: ops1, ops2, s => by
    simp only [List.cons_append, runFrom]
    cases step s op with
    | none => rfl
    | some s1 => simp only [Option.some_bind]; exact runFrom_append ops1 ops2 s1

/-- A well-formed state whose root is null is the state of a tree constructed empty. -/
theorem good_root_none {h : Heap} {t : avlt} {tr : Tree} (g : Good h t tr)
    (hr : t.Root = none) : tr = .nil ∧ t = empty := by
  have hroot := g.root
  have hsz := g.size
  have hnx := g.next
  cases tr with
  | node a l k v ht r => rw [hr] at hroot; cases hroot
  | nil =>
    refine ⟨rfl, ?_⟩
    have hn : t.Next = none := by
      rcases hnx with hn | ⟨a, ha, -⟩
      · exact hn
      · simp [addrs] at ha
    cases t
    simp only [keys, List.length_nil, Nat.cast_zero] at hsz hn hr
    subst hsz hn hr
    rfl

/-- What the operations return on a tree in the state of the constructor, in any store. -/
theorem empty_ops (h : Heap) :
    height h empty = some (-1) ∧ size empty = 0
      ∧ (∀ k v, search h empty k v = some (false, v))
      ∧ (∀ lower upper, range_search h empty lower upper = some [])
      ∧ begin h empty = some empty
      ∧ (∀ key, next h empty key = some (empty, false, key)) := by
  refine ⟨rfl, rfl, fun k v => ?_, fun lower upper => ?_, rfl, fun key => rfl⟩
  · rcases search_spec (good_empty h) k v with ⟨-, e⟩ | ⟨v', hm, -⟩
    · exact e
    · simp [bindings] at hm
  · rw [range_search_spec (good_empty h)]
    simp [keys]

/-- C12: the tree is empty (`Root` null) in a state reached from the constructor only
when it is in the state of the constructor, which is the case initially and after
`clear()` at the end of any sequence of `insert`, `begin`, `next` and `clear` calls;
and an empty tree, wherever it lives, has `height() = -1`, `size() = 0`, `search`
false for every key (the value parameter untouched), `range_search` empty for all
bounds, `begin()` leaving the cursor null and `next()` false at once. -/
theorem C12_empty_tree :
    run [] = some ([], empty) ∧
    (∀ ops : List Op, ∃ h, run (ops ++ [Op.clear]) = some (h, empty)) ∧
    (∀ ops : List Op, ∃ h t, run ops = some (h, t) ∧ (t.Root = none → t = empty)) ∧
    (∀ h : Heap, height h empty = some (-1) ∧ size empty = 0
      ∧ (∀ k v, search h empty k v = some (false, v))
      ∧ (∀ lower upper, range_search h empty lower upper = some [])
      ∧ (∃ t, begin h empty = some t ∧ t.Next = none
          ∧ ∀ key, next h t key = some (t, false, key))) := by
  refine ⟨rfl, fun ops => ?_, fun ops => ?_, fun h => ?_⟩
  · obtain ⟨⟨h, t⟩, tr, e, g, -⟩ := run_spec ops
    obtain ⟨h', e', -⟩ := clear_spec g
    refine ⟨h', ?_⟩
    simp only [run] at e ⊢
    rw [runFrom_append, e]
    simp only [Option.some_bind, runFrom, step, e']
  · obtain ⟨⟨h, t⟩, tr, e, g, -⟩ := run_spec ops
    exact ⟨h, t, e, fun hr => (good_root_none g hr).2⟩
  · obtain ⟨h1, h2, h3, h4, h5, h6⟩ := empty_ops h
    exact ⟨h1, h2, h3, h4, empty, h5, rfl, h6⟩

/-- C20: on a tree built by inserts `range_search` returns, for all bounds, the keys of
the tree between `lower` and `upper` inclusive, in ascending order; with
`lower > upper` that is the empty list. -/
theorem C20_range_search_total (kvs : List (Int × Int)) (lower upper : Int) :
    ∃ h t res, build kvs = some (h, t) ∧ range_search h t lower upper = some res ∧
      res.Pairwise (· < ·) ∧
      (∀ k, k ∈ res ↔ k ∈ kvs.map Prod.fst ∧ lower ≤ k ∧ k ≤ upper) ∧
      (upper < lower → res = []) := by
  obtain ⟨h, t, tr, e, g, -, hk, -⟩ := build_spec kvs
  refine ⟨h, t, _, e, range_search_spec g lower upper, ?_, ?_, ?_⟩
  · have : tr.keys.Pairwise (· < ·) := g.bst
    exact this.sublist (List.filter_sublist _)
  · intro k
    simp only [List.mem_filter, decide_eq_true_eq, hk]
  · intro hlt
    rw [List.filter_eq_nil_iff]
    intro k _
    simp only [decide_eq_true_eq]
    omega

/-- C13 (Scenario A): inserting 10, 20, 30.  After 10 and 20 the root is the node of 10
(cell 0) with the node of 20 (cell 1) as right child.  The insert of 30 recurses into
cell 1, which comes back as it is (no rotation there: its heights differ by -1); back
at cell 0, once the child is linked and the height updated, the heights differ by -2
and 30 is above the key of the right child, so the rotation cases reduce to
`_leftRotate` of cell 0 (case 4), whose result is the result of the insert.  The tree
is then: root 20 of height 1, with left child 10 and right child 30, both of height 0
and threaded, 10 to 20 and 30 to nothing; and `range_search(15, 25)` is `[20]`. -/
theorem C13_scenario_A :
    ∃ h2 t2 h3 hmid h t,
      build [(10, 1), (20, 2)] = some (h2, t2) ∧ t2.Root = some 0 ∧
      viewAt h2 0 = some { Key := 10, Value := 1, Left := none, Right := some 20,
                           isThreaded := false, Height := 1 } ∧
      _insert (fuelOf h2 - 1) h2 t2.Size (some 1) 30 3 = some (h3, 3, some 1) ∧
      (_getHeight h3 none, _getHeight h3 (some 2)) = (some (-1), some 0) ∧
      rebalance h3 (some 1) 30 = some (h3, some 1) ∧
      (store h3 (some 0) (fun n => { n with Right := some 1 })).bind
        (fun h => updateHeight h (some 0)) = some hmid ∧
      (_getHeight hmid none, _getHeight hmid (some 1)) = (some (-1), some 1) ∧
      keyAt hmid 1 = 20 ∧
      rebalance hmid (some 0) 30 = _leftRotate hmid (some 0) ∧
      _leftRotate hmid (some 0) = some (h, some 1) ∧
      insert h2 t2 30 3 = some (h, t) ∧
      build [(10, 1), (20, 2), (30, 3)] = some (h, t) ∧
      viewTree h t = some (some 20,
        [{ Key := 10, Value := 1, Left := none, Right := some 20, isThreaded := true,
           Height := 0 },
         { Key := 20, Value := 2, Left := some 10, Right := some 30, isThreaded := false,
           Height := 1 },
         { Key := 30, Value := 3, Left := none, Right := none, isThreaded := true,
           Height := 0 }]) ∧
      range_search h t 15 25 = some [20] := by
  refine ⟨
    [some { Key := 10, Value := 1, Left := none, Right := some 1, isThreaded := false,
            Height := 1 },
     some { Key := 20, Value := 2, Left := none, Right := none, isThreaded := true,
            Height := 0 }],
    { Root := some 0, Size := 2, Next := none },
    [some { Key := 10, Value := 1, Left := none, Right := some 1, isThreaded := false,
            Height := 1 },
     some { Key := 20, Value := 2, Left := none, Right := some 2, isThreaded := false,
            Height := 1 },
     some { Key := 30, Value := 3, Left := none, Right := none, isThreaded := true,
            Height := 0 }],
    [some { Key := 10, Value := 1, Left := none, Right := some 1, isThreaded := false,
            Height := 2 },
     some { Key := 20, Value := 2, Left := none, Right := some 2, isThreaded := false,
            Height := 1 },
     some { Key := 30, Value := 3, Left := none, Right := none, isThreaded := true,
            Height := 0 }],
    [some { Key := 10, Value := 1, Left := none, Right := some 1, isThreaded := true,
            Height := 0 },
     some { Key := 20, Value := 2, Left := some 0, Right := some 2, isThreaded := false,
            Height := 1 },
     some { Key := 30, Value := 3, Left := none, Right := none, isThreaded := true,
            Height := 0 }],
    { Root := some 1, Size := 3, Next := none },
    ?_, ?_, ?_, ?_, ?_, ?_, ?_, ?_, ?_, ?_, ?_, ?_, ?_, ?_, ?_⟩
  all_goals decide

/-- C14 (Scenario B): inserting 30, 10, 20.  After 30 and 10 the root is the node of 30
(cell 0) with the node of 10 (cell 1) as left child.  The insert of 20 recurses into
cell 1, which comes back as it is; back at cell 0, once the child is linked and the
height updated, the heights differ by 2 and 20 is above the key of the left child, so
the rotation cases reduce to case 2: `_leftRotate` of the left child, the link to its
result, and `_rightRotate` of cell 0, whose result is the result of the insert.  The
tree then looks the same as that of Scenario A: the same root key and, node by node
in inorder, the same key, value, height, thread flag and keys behind `Left` and
`Right`. -/
theorem C14_scenario_B :
    ∃ h2 t2 h3 hmid ha hb h t hA tA,
      build [(30, 3), (10, 1)] = some (h2, t2) ∧ t2.Root = some 0 ∧
      viewAt h2 0 = some { Key := 30, Value := 3, Left := some 10, Right := none,
                           isThreaded := true, Height := 1 } ∧
      _insert (fuelOf h2 - 1) h2 t2.Size (some 1) 20 2 = some (h3, 3, some 1) ∧
      (store h3 (some 0) (fun n => { n with Left := some 1 })).bind
        (fun h => updateHeight h (some 0)) = some hmid ∧
      (_getHeight hmid (some 1), _getHeight hmid none) = (some 1, some (-1)) ∧
      keyAt hmid 1 = 10 ∧
      rebalance hmid (some 0) 20 =
        (_leftRotate hmid (some 1)).bind (fun r =>
          (store r.1 (some 0) (fun n => { n with Left := r.2 })).bind
            (fun h => _rightRotate h (some 0))) ∧
      _leftRotate hmid (some 1) = some (ha, some 2) ∧
      store ha (some 0) (fun n => { n with Left := some 2 }) = some hb ∧
      _rightRotate hb (some 0) = some (h, some 2) ∧
      insert h2 t2 20 2 = some (h, t) ∧
      build [(30, 3), (10, 1), (20, 2)] = some (h, t) ∧
      build [(10, 1), (20, 2), (30, 3)] = some (hA, tA) ∧
      viewTree h t = viewTree hA tA ∧
      viewTree h t = some (some 20,
        [{ Key := 10, Value := 1, Left := none, Right := some 20, isThreaded := true,
           Height := 0 },
         { Key := 20, Value := 2, Left := some 10, Right := some 30, isThreaded := false,
           Height := 1 },
         { Key := 30, Value := 3, Left := none, Right := none, isThreaded := true,
           Height := 0 }]) := by
  refine ⟨
    [some { Key := 30, Value := 3, Left := some 1, Right := none, isThreaded := true,
            Height := 1 },
     some { Key := 10, Value := 1, Left := none, Right := some 0, isThreaded := true,
            Height := 0 }],
    { Root := some 0, Size := 2, Next := none },
    [some { Key := 30, Value := 3, Left := some 1, Right := none, isThreaded := true,
            Height := 1 },
     some { Key := 10, Value := 1, Left := none, Right := some 2, isThreaded := false,
            Height := 1 },
     some { Key := 20, Value := 2, Left := none, Right := some 0, isThreaded := true,
            Height := 0 }],
    [some { Key := 30, Value := 3, Left := some 1, Right := none, isThreaded := true,
            Height := 2 },
     some { Key := 10, Value := 1, Left := none, Right := some 2, isThreaded := false,
            Height := 1 },
     some { Key := 20, Value := 2, Left := none, Right := some 0, isThreaded := true,
            Height := 0 }],
    [some { Key := 30, Value := 3, Left := some 1, Right := none, isThreaded := true,
            Height := 2 },
     some { Key := 10, Value := 1, Left := none, Right := some 2, isThreaded := true,
            Height := 0 },
     some { Key := 20, Value := 2, Left := some 1, Right := some 0, isThreaded := true,
            Height := 1 }],
    [some { Key := 30, Value := 3, Left := some 2, Right := none, isThreaded := true,
            Height := 2 },
     some { Key := 10, Value := 1, Left := none, Right := some 2, isThreaded := true,
            Height := 0 },
     some { Key := 20, Value := 2, Left := some 1, Right := some 0, isThreaded := true,
            Height := 1 }],
    [some { Key := 30, Value := 3, Left := none, Right := none, isThreaded := true,
            Height := 0 },
     some { Key := 10, Value := 1, Left := none, Right := some 2, isThreaded := true,
            Height := 0 },
     some { Key := 20, Value := 2, Left := some 1, Right := some 0, isThreaded := false,
            Height := 1 }],
    { Root := some 2, Size := 3, Next := none },
    [some { Key := 10, Value := 1, Left := none, Right := some 1, isThreaded := true,
            Height := 0 },
     some { Key := 20, Value := 2, Left := some 0, Right := some 2, isThreaded := false,
            Height := 1 },
     some { Key := 30, Value := 3, Left := none, Right := none, isThreaded := true,
            Height := 0 }],
    { Root := some 1, Size := 3, Next := none },
    ?_, ?_, ?_, ?_, ?_, ?_, ?_, ?_, ?_, ?_, ?_, ?_, ?_, ?_, ?_, ?_⟩
  all_goals decide

theorem lines_map {h : Heap} : ∀ (tr : Tree) (s : Ptr) (sk : Option Int), Rep h tr s →
    (∀ x, s = some x → sk = some (keyAt h x)) → (s = none → sk = none) →
    tr.lines sk = tr.addrs.map (lineAt h)
  | .nil, _, _, _, _, _ => rfl
  | .node a l k v ht r, s, sk, ⟨ea, hl, hr⟩, hs1, hs2 => by
    have hka : keyAt h a = k := by simp [keyAt, ea]
    have e1 := lines_map l (some a) (some k) hl
      (fun x hx => by cases hx; rw [hka]) (fun hx => by cases hx)
    have e2 := lines_map r s sk hr hs1 hs2
    simp only [lines, addrs, List.map_append, List.map_cons, e1, e2]
    congr 2
    cases r with
    | node c rl rk rv rh rr => simp [lineAt, ea]
    | nil =>
      cases s with
      | none => simp [lineAt, ea, hs2 rfl]
      | some x => simp [lineAt, ea, hs1 x rfl]

theorem lineKey_lineAt {h : Heap} {tr : Tree} {s : Ptr} (hrep : Rep h tr s) {a : Nat}
    (ha : a ∈ tr.addrs) : lineKey (lineAt h a) = some (keyAt h a) := by
  obtain ⟨n, e, -⟩ := Rep_key_mem tr s hrep a ha
  simp only [lineAt, e, keyAt]
  split <;> rfl

/-- The output of `dump` in a well-formed state. -/
theorem dump_lines {h : Heap} {t : avlt} {tr : Tree} (g : Good h t tr) (out : List Line) :
    ∃ ht body, height h t = some ht ∧
      dump h t out =
        some (out ++ [Line.stars, Line.title, Line.size (size t), Line.height ht] ++ body ++
          [Line.stars]) ∧
      body.map lineKey = tr.addrs.map (fun a => some (keyAt h a)) ∧
      ∀ pre a post, tr.addrs = pre ++ a :: post →
        ∃ n, deref h (some a) = some n ∧
          (_getActualRight n = none → ∀ b rest, post = b :: rest →
            body[pre.length]? = some (Line.threaded n.Key n.Value n.Height (keyAt h b))) ∧
          (¬ (_getActualRight n = none ∧ post ≠ []) →
            body[pre.length]? = some (Line.plain n.Key n.Value n.Height)) := by
  refine ⟨tr.H, tr.addrs.map (lineAt h), height_eq_H g.rep g.root, ?_, ?_, ?_⟩
  · rw [dump_spec g.rep g.root (depth_lt_fuel g.rep g.bst) out,
      lines_map tr none none g.rep (fun x hx => by cases hx) (fun _ => rfl)]
    simp [size]
  · rw [List.map_map]
    apply List.map_congr_left
    intro a ha
    exact lineKey_lineAt g.rep ha
  · intro pre a post e
    obtain ⟨n, en, h1, -, h3, h4⟩ := right_slot_spec g e
    have hb : (tr.addrs.map (lineAt h))[pre.length]? = some (lineAt h a) := by
      rw [e, List.map_append, List.map_cons, List.getElem?_append_right (by simp)]
      simp
    refine ⟨n, en, ?_, ?_⟩
    · intro hr b rest hp
      subst hp
      have hth := h1.2 hr
      have hR := h3 hth
      simp only [List.head?_cons] at hR
      rw [hb]
      simp [lineAt, en, hth, hR]
    · intro hc
      rw [hb]
      by_cases hth : n.isThreaded = true
      · have hp : post = [] := by
          by_contra hp
          exact hc ⟨h1.1 hth, hp⟩
        have hR := h4.2 hp
        simp [lineAt, en, hR]
      · simp [lineAt, en, hth]

/-- C15: on a tree built by inserts, `dump` writes its four header lines, then a line
per node, then the closing line; the node lines start with the keys of the nodes in
inorder, which ascend; the line of a node without actual right child that is not the
last node has four fields, the fourth being the key of the next node (the key the next
line starts with); the line of any other node has three fields.  On the tree of
Scenario C the root is 50 and the lines with four fields are those of 10 (25),
30 (50) and 60 (75). -/
theorem C15_dump :
    (∀ (kvs : List (Int × Int)) (out : List Line),
      ∃ h t nodes ht body, build kvs = some (h, t) ∧
        inorder (fuelOf h) h t.Root = some nodes ∧
        (nodes.map (keyAt h)).Pairwise (· < ·) ∧
        height h t = some ht ∧
        dump h t out =
          some (out ++ [Line.stars, Line.title, Line.size (size t), Line.height ht] ++ body ++
            [Line.stars]) ∧
        body.map lineKey = nodes.map (fun a => some (keyAt h a)) ∧
        ∀ pre a post, nodes = pre ++ a :: post →
          ∃ n, deref h (some a) = some n ∧
            (_getActualRight n = none → ∀ b rest, post = b :: rest →
              body[pre.length]? = some (Line.threaded n.Key n.Value n.Height (keyAt h b))) ∧
            (¬ (_getActualRight n = none ∧ post ≠ []) →
              body[pre.length]? = some (Line.plain n.Key n.Value n.Height))) ∧
    (build [(50, 1), (25, 2), (75, 3), (10, 4), (30, 5), (60, 6), (80, 7)]).bind
      (fun s => (keyOf s.1 s.2.Root).bind (fun r => (dump s.1 s.2 []).map (fun l => (r, l)))) =
      some (some 50,
        [Line.stars, Line.title, Line.size 7, Line.height 2,
         Line.threaded 10 4 0 25, Line.plain 25 2 1, Line.threaded 30 5 0 50,
         Line.plain 50 1 2, Line.threaded 60 6 0 75, Line.plain 75 3 1, Line.plain 80 7 0,
         Line.stars]) := by
  refine ⟨fun kvs out => ?_, by decide⟩
  obtain ⟨h, t, tr, e, g, -, -, -⟩ := build_spec kvs
  obtain ⟨ht, body, e1, e2, e3, e4⟩ := dump_lines g out
  refine ⟨h, t, tr.addrs, ht, body, e, ?_, ?_, e1, e2, e3, e4⟩
  · rw [← g.root]; exact inorder_spec tr _ h none g.rep (depth_lt_fuel g.rep g.bst)
  · rw [map_keyAt tr none g.rep]; exact g.bst

/-- The number of nodes on the longest path is the height plus one. -/
theorem depth_eq_realH : ∀ t : Tree, (t.depth : Int) = t.realH + 1
  | .nil => rfl
  | .node _ l _ _ _ r => by
    have := depth_eq_realH l
    have := depth_eq_realH r
    simp only [depth, realH]
    omega

/-- A balanced tree of height `H` has at least `fib (H + 3) - 1` nodes. -/
theorem fib_le_length : ∀ t : Tree, HOk t → Bal t →
    Nat.fib (t.H + 3).toNat ≤ t.addrs.length + 1
  | .nil, _, _ => by simp [H, addrs]
  | .node _ l _ _ ht r, ⟨e, hl, hr⟩, ⟨⟨b1, b2⟩, bl, br⟩ => by
    have il := fib_le_length l hl bl
    have ir := fib_le_length r hr br
    have gl := H_ge hl
    have gr := H_ge hr
    simp only [H_node, addrs, List.length_append, List.length_cons]
    obtain ⟨x, hx⟩ : ∃ x : Nat, l.H + 3 = (x : Int) + 2 := ⟨(l.H + 1).toNat, by omega⟩
    obtain ⟨y, hy⟩ : ∃ y : Nat, r.H + 3 = (y : Int) + 2 := ⟨(r.H + 1).toNat, by omega⟩
    have ex : (l.H + 3).toNat = x + 2 := by omega
    have ey : (r.H + 3).toNat = y + 2 := by omega
    rw [ex] at il
    rw [ey] at ir
    rcases le_total x y with hxy | hxy
    · have : (ht + 3).toNat = (y + 1) + 2 := by omega
      rw [this, Nat.fib_add_two]
      have : Nat.fib (y + 1) ≤ Nat.fib (x + 2) := Nat.fib_mono (by omega)
      have e3 : y + 1 + 1 = y + 2 := rfl
      rw [e3]
      omega
    · have : (ht + 3).toNat = (x + 1) + 2 := by omega
      rw [this, Nat.fib_add_two]
      have : Nat.fib (x + 1) ≤ Nat.fib (y + 2) := Nat.fib_mono (by omega)
      have e3 : x + 1 + 1 = x + 2 := rfl
      rw [e3]
      omega

/-- The Fibonacci numbers grow at least like the powers of the square root of two. -/
theorem two_pow_le_fib : ∀ n : Nat, 2 ^ (n / 2) ≤ Nat.fib (n + 2)
  | 0 => by decide
  | 1 => by decide
  | n + 2 => by
    have ih := two_pow_le_fib n
    have e : (n + 2) / 2 = n / 2 + 1 := by omega
    rw [e, pow_succ, Nat.fib_add_two]
    have : Nat.fib (n + 2) ≤ Nat.fib (n + 2 + 1) := Nat.fib_mono (by omega)
    omega

/-- C19: on a tree built by inserts, with `n = size()` and `h = height()`:
`n >= Fib(h + 3) - 1`, where `Fib(1) = Fib(2) = 1`, so that `2 ^ ((h + 1) / 2) <= n + 1`
and the height is at most logarithmic in the size; and `_search`, `_insert` and `_copy`
from the root return with a recursion depth of at most `h + 2`. -/
theorem C19_fibonacci (kvs : List (Int × Int)) :
    ∃ h t ht, build kvs = some (h, t) ∧ height h t = some ht ∧ -1 ≤ ht ∧
      Nat.fib 1 = 1 ∧ Nat.fib 2 = 1 ∧
      (Nat.fib (ht + 3).toNat : Int) - 1 ≤ size t ∧
      ((2 ^ ((ht + 1).toNat / 2) : Nat) : Int) ≤ size t + 1 ∧
      (∀ key, ∃ r, _search (ht + 2).toNat h t.Root key = some r) ∧
      (∀ key value, ∃ r, _insert (ht + 2).toNat h t.Size t.Root key value = some r) ∧
      (∃ r, _copy (ht + 2).toNat h t.Root = some r) := by
  obtain ⟨h, t, tr, e, g, -, -, -⟩ := build_spec kvs
  have hge := H_ge g.hok
  have hfib := fib_le_length tr g.hok g.bal
  have hsz : size t = (tr.addrs.length : Int) := by
    simp only [size, g.size, length_addrs_eq_keys]
  have hd : tr.depth < (tr.H + 2).toNat := by
    have := depth_eq_realH tr
    rw [← H_eq_realH g.hok] at this
    omega
  refine ⟨h, t, tr.H, e, height_eq_H g.rep g.root, hge, rfl, rfl, ?_, ?_, ?_, ?_, ?_⟩
  · rw [hsz]; omega
  · have h2 := two_pow_le_fib (tr.H + 1).toNat
    have e2 : (tr.H + 1).toNat + 2 = (tr.H + 3).toNat := by omega
    rw [e2] at h2
    rw [hsz]
    have := le_trans h2 hfib
    exact_mod_cast this
  · intro key
    rw [← g.root]
    rcases _search_spec key tr _ h none g.rep g.bst hd with ⟨-, e1⟩ | ⟨a, n, e1, -⟩
    · exact ⟨_, e1⟩
    · exact ⟨_, e1⟩
  · intro key value
    rw [← g.root]
    obtain ⟨h', e1, -⟩ := _insert_spec key value tr _ h t.Size none g.rep g.bst g.hok g.bal hd
    exact ⟨_, e1⟩
  · rw [← g.root]
    obtain ⟨h', e1, -⟩ := _copy_spec tr _ h none g.rep hd
    exact ⟨_, e1⟩

/-- A first insert of a key puts the new cell in the tree. -/
theorem new_mem_addrs_ins {h' : Heap} {tr : Tree} {s' : Ptr} (f : Nat) (key value : Int)
    (hrep' : Rep h' (ins f key value tr) s') (hbst' : BST (ins f key value tr))
    (hm : key ∉ tr.keys) :
    f ∈ (ins f key value tr).addrs := by
  by_contra hc
  have hsub : (ins f key value tr).addrs ⊆ tr.addrs := by
    intro x hx
    rcases mem_addrs_ins f key value tr x hx with rfl | hx'
    · exact absurd hx hc
    · exact hx'
  have := ((Rep_nodup _ _ hrep' hbst').subperm hsub).length_le
  rw [length_addrs_ins f key value tr hm] at this
  omega

/-- What `begin` and `next` do to a well-formed state: they move the cursor only. -/
theorem step_cursor {h : Heap} {t : avlt} {tr : Tree} (g : Good h t tr) (op : Op)
    (hop : op = Op.begin ∨ op = Op.next) :
    ∃ t', step (h, t) op = some (h, t') ∧ Good h t' tr := by
  rcases hop with rfl | rfl
  · refine ⟨{ t with Next := headOr tr.addrs none }, ?_, @good_next_headOr _ _ _ g [] _ rfl⟩
    simp only [step, begin_spec g, Option.map_some']
  · cases hn : t.Next with
    | none =>
      refine ⟨t, ?_, g⟩
      simp only [step, next_none 0 hn, Option.map_some']
    | some a =>
      refine ⟨{ t with Next := nextIn tr.addrs none a }, ?_, ?_⟩
      · simp only [step, next_some g 0 hn, Option.map_some']
      · have hmem : a ∈ tr.addrs := by
          rcases g.next with hn' | ⟨b, hb, hn'⟩
          · rw [hn] at hn'; cases hn'
          · rw [hn] at hn'; cases hn'; exact hb
        obtain ⟨pre, post, e⟩ := List.append_of_mem hmem
        have hnd := Rep_nodup _ _ g.rep g.bst
        have : nextIn tr.addrs none a = headOr post none := by
          rw [e]; rw [e] at hnd; exact nextIn_split none hnd
        rw [this]
        exact @good_next_headOr _ _ _ g (pre ++ [a]) post (by simp [e])

/-- One call from a well-formed state in which every live cell is a node of the tree
leads to such a state. -/
theorem step_live {s : Heap × avlt} {tr : Tree} (op : Op) (g : Good s.1 s.2 tr)
    (hl : ∀ c, c ∉ tr.addrs → deref s.1 (some c) = none) :
    ∃ s' tr', step s op = some s' ∧ Good s'.1 s'.2 tr'
      ∧ ∀ c, c ∉ tr'.addrs → deref s'.1 (some c) = none := by
  obtain ⟨h, t⟩ := s
  simp only at g hl
  cases op with
  | insert key value =>
    obtain ⟨h', t', e, g', -, len', fr', same'⟩ := insert_good key value g
    refine ⟨(h', t'), _, e, g', ?_⟩
    intro c hc
    have hc0 : c ∉ tr.addrs := fun hx => hc (mem_addrs_ins_of_mem _ _ _ _ _ hx)
    by_cases hlt : c < h.length
    · rw [fr' c hc0 hlt]; exact hl c hc0
    · cases hd : deref h' (some c) with
      | none => rfl
      | some n =>
        exfalso
        have hlt' := deref_some_lt hd
        simp only at hlt' hc
        by_cases hm : key ∈ tr.keys
        · rw [len', if_pos hm] at hlt'; exact hlt hlt'
        · rw [len', if_neg hm] at hlt'
          have hce : c = h.length := by omega
          subst hce
          exact hc (new_mem_addrs_ins _ key value g'.rep g'.bst hm)
  | begin =>
    obtain ⟨t', e, g'⟩ := step_cursor g Op.begin (Or.inl rfl)
    exact ⟨(h, t'), tr, e, g', hl⟩
  | next =>
    obtain ⟨t', e, g'⟩ := step_cursor g Op.next (Or.inr rfl)
    exact ⟨(h, t'), tr, e, g', hl⟩
  | clear =>
    obtain ⟨h', e, g', len, fr, gone⟩ := clear_spec g
    refine ⟨(h', empty), .nil, e, g', fun c _ => ?_⟩
    by_cases hc : c ∈ tr.addrs
    · exact gone c hc
    · rw [fr c hc]; exact hl c hc

theorem run_live : ∀ (ops : List Op) (s : Heap × avlt) (tr : Tree),
    Good s.1 s.2 tr → (∀ c, c ∉ tr.addrs → deref s.1 (some c) = none) →
    ∃ s' tr', runFrom s ops = some s' ∧ Good s'.1 s'.2 tr'
      ∧ ∀ c, c ∉ tr'.addrs → deref s'.1 (some c) = none
  | [], s, tr, g, hl => ⟨s, tr, rfl, g, hl⟩
  | op :: ops, s, tr, g, hl => by
    obtain ⟨s1, tr1, e1, g1, hl1⟩ := step_live op g hl
    obtain ⟨s2, tr2, e2, g2, hl2⟩ := run_live ops s1 tr1 g1 hl1
    exact ⟨s2, tr2, by simp only [runFrom, e1, Option.some_bind, e2], g2, hl2⟩

/-- Every operation returns in a well-formed state. -/
theorem good_total {h : Heap} {t : avlt} {tr : Tree} (g : Good h t tr) :
    (∀ key, ∃ r, next h t key = some r)
    ∧ (∀ lower upper, ∃ r, range_search h t lower upper = some r)
    ∧ (∀ key value, ∃ r, insert h t key value = some r)
    ∧ (∃ r, begin h t = some r)
    ∧ (∃ r, clear h t = some r)
    ∧ (∀ key value, ∃ r, search h t key value = some r)
    ∧ (∃ r, height h t = some r)
    ∧ (∀ key, ∃ r, op_index h t key = some r)
    ∧ (∀ key, ∃ r, op_call h t key = some r)
    ∧ (∀ key, ∃ r, op_mod h t key = some r)
    ∧ (∀ out, ∃ r, dump h t out = some r)
    ∧ (∃ r, copyConstruct h t = some r) := by
  have hd := depth_lt_fuel g.rep g.bst
  refine ⟨fun key => ?_, fun lower upper => ⟨_, range_search_spec g lower upper⟩,
    fun key value => ?_, ⟨_, begin_spec g⟩, ?_, fun key value => ?_,
    ⟨_, height_eq_H g.rep g.root⟩, fun key => ?_, fun key => ?_, fun key => ?_, fun out => ?_, ?_⟩
  · cases hn : t.Next with
    | none => exact ⟨_, next_none key hn⟩
    | some a => exact ⟨_, next_some g key hn⟩
  · obtain ⟨h', t', e, -⟩ := insert_good key value g
    exact ⟨_, e⟩
  · obtain ⟨h', e, -⟩ := clear_spec g
    exact ⟨_, e⟩
  · rcases search_spec g key value with ⟨-, e⟩ | ⟨v, -, e⟩
    · exact ⟨_, e⟩
    · exact ⟨_, e⟩
  · rcases _search_spec key tr (fuelOf h) h none g.rep g.bst hd with ⟨-, e⟩ | ⟨a, n, e, -, en, -⟩
    · exact ⟨0, by simp only [op_index, ← g.root, e, Option.bind_eq_bind, Option.some_bind]⟩
    · exact ⟨n.Value, by
        simp only [op_index, ← g.root, e, Option.bind_eq_bind, Option.some_bind, en,
          Option.map_some']⟩
  · rcases _search_spec key tr (fuelOf h) h none g.rep g.bst hd with
      ⟨-, e⟩ | ⟨a, n, e, ha, en, hk, -⟩
    · exact ⟨0, by simp only [op_call, ← g.root, e, Option.bind_eq_bind, Option.some_bind]⟩
    · subst hk
      obtain ⟨pre, post, e'⟩ := List.append_of_mem ha
      obtain ⟨n', en', h1, h2⟩ := op_call_at g e'
      rw [en] at en'
      cases en'
      cases hth : n.isThreaded with
      | false =>
        obtain ⟨r, -, e2, -⟩ := h2 hth
        exact ⟨_, e2⟩
      | true =>
        cases post with
        | cons b rest => exact ⟨_, (h1 hth b rest rfl).1⟩
        | nil =>
          obtain ⟨n', en', -, -, -, h4⟩ := right_slot_spec g e'
          rw [en] at en'
          cases en'
          rw [op_call_node g ha en, h4.2 rfl]
          exact ⟨_, rfl⟩
  · rcases _search_spec key tr (fuelOf h) h none g.rep g.bst hd with ⟨-, e⟩ | ⟨a, n, e, -, en, -⟩
    · exact ⟨-1, by simp only [op_mod, ← g.root, e, Option.bind_eq_bind, Option.some_bind]⟩
    · exact ⟨n.Height, by
        simp only [op_mod, ← g.root, e, Option.bind_eq_bind, Option.some_bind, en,
          Option.map_some']⟩
  · exact ⟨_, dump_spec g.rep g.root hd out⟩
  · obtain ⟨h', root, last, e, -⟩ := copyOk_of_copy g.rep g.bst g.root
    exact ⟨(h', { Size := t.Size, Next := none, Root := root }), by
      simp only [copyConstruct, e, Option.bind_eq_bind, Option.some_bind]⟩

/-- C18: any sequence of `insert`, `begin`, `next` and `clear` calls on a tree
constructed empty returns, and in the state it leads to: every live cell of the store
is a node of the tree, and one whose `isThreaded` is false has a non-null `Right`; the
cursor is null or a node of the tree; and every operation returns (no absent node is
dereferenced, no loop or recursion goes on for ever). -/
theorem C18_total (ops : List Op) :
    ∃ h t nodes, run ops = some (h, t) ∧ inorder (fuelOf h) h t.Root = some nodes
      ∧ (∀ a n, deref h (some a) = some n → a ∈ nodes)
      ∧ (∀ a ∈ nodes, ∃ n, deref h (some a) = some n)
      ∧ (∀ a n, deref h (some a) = some n → n.isThreaded = false → n.Right ≠ none)
      ∧ (t.Next = none ∨ ∃ a ∈ nodes, t.Next = some a)
      ∧ (∀ key, ∃ r, next h t key = some r)
      ∧ (∀ lower upper, ∃ r, range_search h t lower upper = some r)
      ∧ (∀ key value, ∃ r, insert h t key value = some r)
      ∧ (∃ r, begin h t = some r)
      ∧ (∃ r, clear h t = some r)
      ∧ (∀ key value, ∃ r, search h t key value = some r)
      ∧ (∃ r, height h t = some r)
      ∧ (∀ key, ∃ r, op_index h t key = some r)
      ∧ (∀ key, ∃ r, op_call h t key = some r)
      ∧ (∀ key, ∃ r, op_mod h t key = some r)
      ∧ (∀ out, ∃ r, dump h t out = some r)
      ∧ (∃ r, copyConstruct h t = some r) := by
  obtain ⟨⟨h, t⟩, tr, e, g, hl⟩ := run_live ops ([], empty) .nil (good_empty [])
    (fun c _ => by simp [deref])
  simp only at g hl
  have hmem : ∀ a n, deref h (some a) = some n → a ∈ tr.addrs := by
    intro a n en
    by_contra hc
    rw [hl a hc] at en
    cases en
  refine ⟨h, t, tr.addrs, e, ?_, hmem, ?_, ?_, g.next, good_total g⟩
  · rw [← g.root]; exact inorder_spec tr _ h none g.rep (depth_lt_fuel g.rep g.bst)
  · intro a ha
    obtain ⟨n, en, -⟩ := Rep_key_mem tr none g.rep a ha
    exact ⟨n, en⟩
  · intro a n en hth
    obtain ⟨pre, post, e'⟩ := List.append_of_mem (hmem a n en)
    obtain ⟨n', en', -, h2, -⟩ := right_slot_spec g e'
    rw [en] at en'
    cases en'
    obtain ⟨r, hr, -⟩ := h2 hth
    rw [hr]
    exact fun hc => by cases hc

/-- Phase 1 of `range_search` for a bound that is not in the tree: it runs off the tree
(`cur` null, `flag` false) and `prev` is the last node visited, with the keys before it
below `lower` and the keys after it above. -/
theorem descend_miss (lower : Int) : ∀ (tr : Tree) (fuel : Nat) (h : Heap) (s prev0 : Ptr),
    Rep h tr s → BST tr → tr.depth < fuel → lower ∉ tr.keys →
    ∃ prev, range_search_descend fuel h lower tr.root prev0 = some (none, prev, false)
      ∧ (tr = .nil → prev = prev0)
      ∧ (tr ≠ .nil → ∃ pre a post, tr.addrs = pre ++ a :: post ∧ prev = some a
            ∧ (∀ x ∈ pre, keyAt h x < lower) ∧ (∀ x ∈ post, lower < keyAt h x))
  | .nil, fuel, h, s, prev0, _, _, hf, _ => by
    cases fuel with
    | zero => simp [depth] at hf
    | succ f => exact ⟨prev0, rfl, fun _ => rfl, fun hne => absurd rfl hne⟩
  | .node b l k v ht r, fuel, h, s, prev0, hrep, hbst, hf, hm => by
    cases fuel with
    | zero => simp [depth] at hf
    | succ f =>
      obtain ⟨dl, dr⟩ := depth_node_lt hf
      obtain ⟨eb, hl, hr⟩ := hrep
      obtain ⟨bstl, bstr, hk1, hk2⟩ := BST_node.1 hbst
      simp only [keys, List.mem_append, List.mem_cons, not_or] at hm
      obtain ⟨hml, c1, hmr⟩ := hm
      have hkb : keyAt h b = k := by simp [keyAt, eb]
      have hlk : ∀ x ∈ l.addrs, keyAt h x < k := fun x hx => hk1 _ (keyAt_mem_keys hl hx)
      have hrk : ∀ x ∈ r.addrs, k < keyAt h x := fun x hx => hk2 _ (keyAt_mem_keys hr hx)
      simp only [range_search_descend, root_node, eb, Option.bind_eq_bind, Option.some_bind,
        _getActualLeft, actualRight_rep]
      by_cases c2 : lower < k
      · obtain ⟨prev, e, h1, h2⟩ := descend_miss lower l f h (some b) (some b) hl bstl dl hml
        refine ⟨prev, by simp only [c1, if_false, c2, if_true, e], (fun hc => by cases hc),
          fun _ => ?_⟩
        by_cases hn : l = .nil
        · subst hn
          refine ⟨[], b, r.addrs, rfl, h1 rfl, fun x hx => by simp at hx, fun x hx => ?_⟩
          exact lt_trans c2 (hrk x hx)
        · obtain ⟨pre, a, post, e1, e2, e3, e4⟩ := h2 hn
          refine ⟨pre, a, post ++ b :: r.addrs, by simp [addrs, e1], e2, e3, ?_⟩
          intro x hx
          simp only [List.mem_append, List.mem_cons] at hx
          rcases hx with hx | hx | hx
          · exact e4 x hx
          · rw [hx, hkb]; exact c2
          · exact lt_trans c2 (hrk x hx)
      · obtain ⟨prev, e, h1, h2⟩ := descend_miss lower r f h s (some b) hr bstr dr hmr
        refine ⟨prev, by simp only [c1, if_false, c2, e], (fun hc => by cases hc), fun _ => ?_⟩
        have hlt : k < lower := by omega
        by_cases hn : r = .nil
        · subst hn
          exact ⟨l.addrs, b, [], rfl, h1 rfl, fun x hx => lt_trans (hlk x hx) hlt,
            fun x hx => by simp at hx⟩
        · obtain ⟨pre, a, post, e1, e2, e3, e4⟩ := h2 hn
          refine ⟨l.addrs ++ b :: pre, a, post, by simp [addrs, e1], e2, ?_, e4⟩
          intro x hx
          simp only [List.mem_append, List.mem_cons] at hx
          rcases hx with hx | hx | hx
          · exact lt_trans (hlk x hx) hlt
          · rw [hx, hkb]; exact hlt
          · exact e3 x hx

/-- The descent of `range_search(15, _)` on the tree of Scenario A (keys 10, 20, 30) ends
with `cur` null, `flag` false and `prev` the node of key 10: phase 2 resumes from a node
whose key is below `lower`, although 20 is in the tree. -/
theorem C16_counterexample :
    (build [(10, 1), (20, 2), (30, 3)]).bind
      (fun s => (range_search_descend (fuelOf s.1) s.1 15 s.2.Root none).bind
        (fun r => (search s.1 s.2 20 0).map
          (fun f => (r.1, (if !r.2.2 then r.2.1 else r.1).map (keyAt s.1), r.2.2, f.1)))) =
      some (none, some 10, false, true) ∧ ¬ ((15 : Int) ≤ 10) := by
  decide

/-- C16, amended: on a tree built by inserts, for a `lower` that is not a key of the
tree, phase 1 of `range_search` ends with `cur` null and `flag` false, so phase 2
resumes from `prev`, which is null when the tree is empty and else the last node the
descent visited: every key of the tree before its own is below `lower` and every key
after it is above.  So it holds the smallest key above `lower` when its key is above
`lower` (the descent ended going left), and the largest key below `lower` when its key
is below (the descent ended going right). -/
theorem C16_resume (kvs : List (Int × Int)) (lower : Int) (hm : lower ∉ kvs.map Prod.fst) :
    ∃ h t nodes prev, build kvs = some (h, t) ∧ inorder (fuelOf h) h t.Root = some nodes ∧
      range_search_descend (fuelOf h) h lower t.Root none = some (none, prev, false) ∧
      (kvs = [] → prev = none) ∧
      (kvs ≠ [] → ∃ a ∈ nodes, prev = some a ∧ keyAt h a ≠ lower ∧
        (∀ c ∈ nodes, keyAt h c < keyAt h a → keyAt h c < lower) ∧
        (∀ c ∈ nodes, keyAt h a < keyAt h c → lower < keyAt h c) ∧
        (lower < keyAt h a → ∀ c ∈ nodes, lower ≤ keyAt h c → keyAt h a ≤ keyAt h c) ∧
        (keyAt h a < lower → ∀ c ∈ nodes, keyAt h c ≤ lower → keyAt h c ≤ keyAt h a)) := by
  obtain ⟨h, t, tr, e, g, -, hk, -⟩ := build_spec kvs
  have hm' : lower ∉ tr.keys := fun hc => hm ((hk lower).1 hc)
  obtain ⟨prev, e1, h1, h2⟩ := descend_miss lower tr (fuelOf h) h none none g.rep g.bst
    (depth_lt_fuel g.rep g.bst) hm'
  rw [g.root] at e1
  refine ⟨h, t, tr.addrs, prev, e, ?_, e1, ?_, ?_⟩
  · rw [← g.root]; exact inorder_spec tr _ h none g.rep (depth_lt_fuel g.rep g.bst)
  · intro hkv
    subst hkv
    apply h1
    cases tr with
    | nil => rfl
    | node a l k v ht r =>
      have := (hk k).1 (by simp [keys])
      simp at this
  · intro hkv
    have hne : tr ≠ .nil := by
      intro hc
      subst hc
      cases kvs with
      | nil => exact hkv rfl
      | cons kv rest =>
        have := (hk kv.1).2 (by simp)
        simp [keys] at this
    obtain ⟨pre, a, post, e2, e3, e4, e5⟩ := h2 hne
    have ha : a ∈ tr.addrs := by simp [e2]
    have hs : (tr.addrs.map (keyAt h)).Pairwise (· < ·) := by
      rw [map_keyAt tr none g.rep]; exact g.bst
    rw [e2, List.map_append, List.map_cons, List.pairwise_append, List.pairwise_cons] at hs
    obtain ⟨-, ⟨hpost, -⟩, hpre⟩ := hs
    have hside : ∀ c ∈ tr.addrs, (keyAt h c < keyAt h a → c ∈ pre) ∧
        (keyAt h a < keyAt h c → c ∈ post) := by
      intro c hc
      rw [e2] at hc
      simp only [List.mem_append, List.mem_cons] at hc
      rcases hc with hc | hc | hc
      · have := hpre _ (List.mem_map_of_mem _ hc) (keyAt h a) (by simp)
        exact ⟨fun _ => hc, fun hlt => by omega⟩
      · subst hc
        exact ⟨fun hlt => by omega, fun hlt => by omega⟩
      · have := hpost _ (List.mem_map_of_mem _ hc)
        exact ⟨fun hlt => by omega, fun _ => hc⟩
    have hne' : keyAt h a ≠ lower := fun hc => hm' (hc ▸ keyAt_mem_keys g.rep ha)
    refine ⟨a, ha, e3, hne', fun c hc hlt => e4 c ((hside c hc).1 hlt),
      fun c hc hlt => e5 c ((hside c hc).2 hlt), ?_, ?_⟩
    · intro hlt c hc hle
      by_contra hcon
      have := e4 c ((hside c hc).1 (by omega))
      omega
    · intro hlt c hc hle
      by_contra hcon
      have := e5 c ((hside c hc).2 (by omega))
      omega

/-- C16 at the one-key tree with the bound above the key. -/
theorem C16_resume_witness :
    (15 : Int) ∉ [((10 : Int), (1 : Int))].map Prod.fst ∧
    ∃ h t nodes prev, build [(10, 1)] = some (h, t) ∧
      inorder (fuelOf h) h t.Root = some nodes ∧
      range_search_descend (fuelOf h) h 15 t.Root none = some (none, prev, false) ∧
      ([((10 : Int), (1 : Int))] = [] → prev = none) ∧
      ([((10 : Int), (1 : Int))] ≠ [] → ∃ a ∈ nodes, prev = some a ∧ keyAt h a ≠ 15 ∧
        (∀ c ∈ nodes, keyAt h c < keyAt h a → keyAt h c < 15) ∧
        (∀ c ∈ nodes, keyAt h a < keyAt h c → 15 < keyAt h c) ∧
        (15 < keyAt h a → ∀ c ∈ nodes, 15 ≤ keyAt h c → keyAt h a ≤ keyAt h c) ∧
        (keyAt h a < 15 → ∀ c ∈ nodes, keyAt h c ≤ 15 → keyAt h c ≤ keyAt h a)) :=
  ⟨by decide, C16_resume [(10, 1)] 15 (by decide)⟩

/-- Two stores that hold the same tree agree on its cells. -/
theorem Rep_deref_eq {h h' : Heap} : ∀ (t : Tree) (s : Ptr), Rep h t s → Rep h' t s →
    ∀ c ∈ t.addrs, deref h' (some c) = deref h (some c)
  | .nil, _, _, _, c, hc => by simp [addrs] at hc
  | .node a l k v ht r, s, ⟨e1, l1, r1⟩, ⟨e2, l2, r2⟩, c, hc => by
    simp only [addrs, List.mem_append, List.mem_cons] at hc
    rcases hc with hc | rfl | hc
    · exact Rep_deref_eq l _ l1 l2 c hc
    · rw [e1, e2]
    · exact Rep_deref_eq r _ r1 r2 c hc

/-- The threads of a represented tree lead to the next node in inorder. -/
theorem thread_spec {h : Heap} {t : Tree} {s : Ptr} (hrep : Rep h t s) (hnd : t.addrs.Nodup) :
    ∀ c ∈ t.addrs, ∃ n, deref h (some c) = some n
      ∧ (n.isThreaded = true → n.Right = nextIn t.addrs s c) := by
  intro c hc
  obtain ⟨n, en, hcase⟩ := succ_spec t t.depth h s hrep hnd (le_refl _) c hc
  refine ⟨n, en, fun hth => ?_⟩
  rcases hcase with ⟨-, hr⟩ | ⟨hf, -⟩
  · exact hr
  · rw [hth] at hf; cases hf

theorem rightRotate_rotated {h : Heap} {a b : Nat} {ll lr r : Tree} {lk lv lh k v ht : Int}
    {s : Ptr} (hrep : Rep h (.node a (.node b ll lk lv lh lr) k v ht r) s)
    (hbst : BST (.node a (.node b ll lk lv lh lr) k v ht r)) :
    ∃ h', _rightRotate h (some a) = some (h', some b)
      ∧ Rotated h (.node a (.node b ll lk lv lh lr) k v ht r) s h' (some b) a b
      ∧ (∃ n n', deref h (some a) = some n ∧ deref h' (some a) = some n'
          ∧ n'.isThreaded = n.isThreaded ∧ n'.Right = n.Right)
      ∧ (∃ n', deref h' (some b) = some n' ∧ n'.isThreaded = false ∧ n'.Right = some a) := by
  have hnd := Rep_nodup _ _ hrep hbst
  obtain ⟨h', e, rep', -, fr⟩ := _rightRotate_spec hrep hnd
  have hnd' : (rotR (.node a (.node b ll lk lv lh lr) k v ht r)).addrs.Nodup := by
    rw [addrs_rotR]; exact hnd
  have hth := thread_spec rep' hnd'
  rw [addrs_rotR] at hth
  have rep2 := rep'
  simp only [rotR, mk] at rep2
  obtain ⟨eb', hll', ea', hlr', hr'⟩ := rep2
  obtain ⟨ea, ⟨eb, hll, hlr⟩, hr⟩ := hrep
  refine ⟨h', e, ⟨rotR (.node a (.node b ll lk lv lh lr) k v ht r), rfl, rep', ?_,
      addrs_rotR _, bindings_rotR _, hth, ?_⟩,
    ⟨_, _, ea, ea', rfl, rfl⟩, ⟨_, eb', rfl, rfl⟩⟩
  · unfold BST; rw [keys_rotR]; exact hbst
  · intro c hca hcb
    by_cases hc : c ∈ Tree.addrs (.node a (.node b ll lk lv lh lr) k v ht r)
    · simp only [addrs, List.mem_append, List.mem_cons] at hc
      rcases hc with (hc | hc | hc) | hc | hc
      · exact Rep_deref_eq ll _ hll hll' c hc
      · exact absurd hc hcb
      · exact Rep_deref_eq lr _ hlr hlr' c hc
      · exact absurd hc hca
      · exact Rep_deref_eq r _ hr hr' c hc
    · exact fr c hc

theorem leftRotate_rotated {h : Heap} {a b : Nat} {l rl rr : Tree} {rk rv rh k v ht : Int}
    {s : Ptr} (hrep : Rep h (.node a l k v ht (.node b rl rk rv rh rr)) s)
    (hbst : BST (.node a l k v ht (.node b rl rk rv rh rr))) :
    ∃ h', _leftRotate h (some a) = some (h', some b)
      ∧ Rotated h (.node a l k v ht (.node b rl rk rv rh rr)) s h' (some b) a b
      ∧ (∃ n n', deref h (some b) = some n ∧ deref h' (some b) = some n'
          ∧ n'.isThreaded = n.isThreaded ∧ n'.Right = n.Right
          ∧ ∃ m', deref h' (some a) = some m' ∧ (m'.isThreaded = true ↔ n.Left = none)
              ∧ (m'.isThreaded = true → m'.Right = some b)) := by
  have hnd := Rep_nodup _ _ hrep hbst
  obtain ⟨h', e, rep', -, fr⟩ := _leftRotate_spec hrep hnd
  have hnd' : (rotL (.node a l k v ht (.node b rl rk rv rh rr))).addrs.Nodup := by
    rw [addrs_rotL]; exact hnd
  have hth := thread_spec rep' hnd'
  rw [addrs_rotL] at hth
  have rep2 := rep'
  simp only [rotL, mk] at rep2
  obtain ⟨eb', ⟨ea', hl', hrl'⟩, hrr'⟩ := rep2
  obtain ⟨ea, hl, eb, hrl, hrr⟩ := hrep
  refine ⟨h', e, ⟨rotL (.node a l k v ht (.node b rl rk rv rh rr)), rfl, rep', ?_,
      addrs_rotL _, bindings_rotL _, hth, ?_⟩,
    ⟨_, _, eb, eb', rfl, rfl, _, ea', ?_, ?_⟩⟩
  · unfold BST; rw [keys_rotL]; exact hbst
  · intro c hca hcb
    by_cases hc : c ∈ Tree.addrs (.node a l k v ht (.node b rl rk rv rh rr))
    · simp only [addrs, List.mem_append, List.mem_cons] at hc
      rcases hc with hc | hc | hc | hc | hc
      · exact Rep_deref_eq l _ hl hl' c hc
      · exact absurd hc hca
      · exact Rep_deref_eq rl _ hrl hrl' c hc
      · exact absurd hc hcb
      · exact Rep_deref_eq rr _ hrr hrr' c hc
    · exact fr c hc
  · cases rl <;> simp [isNil, root]
  · cases rl <;> simp [isNil, rightSlot]

/-- C17: let the store hold, from a node `a`, a subtree in search order with its
threads in place (the thread of its last node leading to `s`).  If `a` has a left child
`b`, `_rightRotate` of `a` returns `b`; if `a` has an actual right child `b`,
`_leftRotate` of `a` returns `b`.  In both cases the store then holds from `b` a search
tree of the same nodes, with the same keys and values in the same inorder sequence, in
which the `Right` of every threaded node leads to the next node in inorder (`s` after
the last), and no cell other than `a` and `b` has changed.  After `_rightRotate`, `b`
is not threaded and its `Right` is `a`, and the right slot of `a` is as it was; after
`_leftRotate`, the right slot of `b` is as it was, and `a` is threaded exactly when `b`
had no left child, its `Right` then being `b`. -/
theorem C17_rotations (h : Heap) (t : Tree) (s : Ptr) (hrep : Rep h t s) (hbst : BST t) :
    (∀ a b ll lk lv lh lr k v ht r, t = .node a (.node b ll lk lv lh lr) k v ht r →
      ∃ h', _rightRotate h (some a) = some (h', some b)
        ∧ Rotated h t s h' (some b) a b
        ∧ (∃ n n', deref h (some a) = some n ∧ deref h' (some a) = some n'
            ∧ n'.isThreaded = n.isThreaded ∧ n'.Right = n.Right)
        ∧ (∃ n', deref h' (some b) = some n' ∧ n'.isThreaded = false ∧ n'.Right = some a)) ∧
    (∀ a l k v ht b rl rk rv rh rr, t = .node a l k v ht (.node b rl rk rv rh rr) →
      ∃ h', _leftRotate h (some a) = some (h', some b)
        ∧ Rotated h t s h' (some b) a b
        ∧ (∃ n n', deref h (some b) = some n ∧ deref h' (some b) = some n'
            ∧ n'.isThreaded = n.isThreaded ∧ n'.Right = n.Right
            ∧ ∃ m', deref h' (some a) = some m' ∧ (m'.isThreaded = true ↔ n.Left = none)
                ∧ (m'.isThreaded = true → m'.Right = some b))) := by
  refine ⟨?_, ?_⟩
  · intro a b ll lk lv lh lr k v ht r e
    subst e
    exact rightRotate_rotated hrep hbst
  · intro a l k v ht b rl rk rv rh rr e
    subst e
    exact leftRotate_rotated hrep hbst

/-- C17 at the tree of Scenario A, whose root has both children. -/
theorem C17_rotations_witness :
    Rep [some { Key := 10, Value := 1, Left := none, Right := some 1, isThreaded := true,
                Height := 0 },
         some { Key := 20, Value := 2, Left := some 0, Right := some 2, isThreaded := false,
                Height := 1 },
         some { Key := 30, Value := 3, Left := none, Right := none, isThreaded := true,
                Height := 0 }]
      (.node 1 (.node 0 .nil 10 1 0 .nil) 20 2 1 (.node 2 .nil 30 3 0 .nil)) none ∧
    BST (.node 1 (.node 0 .nil 10 1 0 .nil) 20 2 1 (.node 2 .nil 30 3 0 .nil)) ∧
    (∃ h' n' m', _rightRotate
        [some { Key := 10, Value := 1, Left := none, Right := some 1, isThreaded := true,
                Height := 0 },
         some { Key := 20, Value := 2, Left := some 0, Right := some 2, isThreaded := false,
                Height := 1 },
         some { Key := 30, Value := 3, Left := none, Right := none, isThreaded := true,
                Height := 0 }] (some 1) = some (h', some 0)
      ∧ deref h' (some 0) = some n' ∧ n'.isThreaded = false ∧ n'.Right = some 1
      ∧ deref h' (some 1) = some m' ∧ m'.isThreaded = false ∧ m'.Right = some 2) := by
  have hrep : Rep [some { Key := 10, Value := 1, Left := none, Right := some 1,
                          isThreaded := true, Height := 0 },
         some { Key := 20, Value := 2, Left := some 0, Right := some 2, isThreaded := false,
                Height := 1 },
         some { Key := 30, Value := 3, Left := none, Right := none, isThreaded := true,
                Height := 0 }]
      (.node 1 (.node 0 .nil 10 1 0 .nil) 20 2 1 (.node 2 .nil 30 3 0 .nil)) none :=
    ⟨rfl, ⟨rfl, trivial, trivial⟩, ⟨rfl, trivial, trivial⟩⟩
  have hbst : BST (.node 1 (.node 0 .nil 10 1 0 .nil) 20 2 1 (.node 2 .nil 30 3 0 .nil)) := by
    simp [BST, keys]
  refine ⟨hrep, hbst, ?_⟩
  obtain ⟨h', e, -, ⟨n, m', en, em', e1, e2⟩, ⟨n', en', e3, e4⟩⟩ :=
    (C17_rotations _ _ none hrep hbst).1 1 0 .nil 10 1 0 .nil 20 2 1
      (.node 2 .nil 30 3 0 .nil) rfl
  refine ⟨h', n', m', e, en', e3, e4, em', ?_, ?_⟩
  · rw [e1]; cases en; rfl
  · rw [e2]; cases en; rfl

end AVLT
